import Mathlib

/-!
# tt2rom: truth table to ROM image compiler

A shallow embedding of `text.c`, `rom.c` and `tt2rom.c`, followed by theorems about it.

Conventions of the embedding.

* A C string is the `List Char` of its characters before the terminating NUL;
  reading the terminator is reading past the end of the list.
* A `byte` (unsigned char) is a `Nat` below 256; an image is a `List Nat`.
  `address` (unsigned int) arithmetic is taken modulo `2 ^ 32` where the source
  shifts or accumulates; `int` counters are natural numbers (they stay far below
  `2 ^ 31` for address widths up to `MAXBITS`).
* The character classes are those of the "C" locale.
* `calloc`, `malloc` and `fopen` are taken to succeed.
* The text written to a `FILE` is the list of characters written, in order.
* The codecs of `rom.c` are embedded twice: as functions from the buffer to the
  text written (`dump_raw`, `dump_text`, `dump_intel`), and as transformers of
  the program state `Store`, which holds the buffer and the stream (`dump_raw_run`,
  `dump_text_run`, `dump_intel_run`).  The two are proved to agree.
* The input of `process_file` is the list of lines in the order `read_line`
  returns them, each without its line break.
* A store outside the accumulator array is undefined behaviour in C; the
  embedding reports it as `ParseResult.fault` instead of guessing an outcome.
* `make_file_template` reads its static string `tag` past the terminator; the
  bytes found there are a parameter of the embedding, and no result depends
  on them.
-/

namespace TT2Rom

/-! ## Constants (`rom.h`, `tt2rom.c`) -/

def DATA_REC : Nat := 0
def END_REC : Nat := 1
def OFFSET_REC : Nat := 2
def CHUNK_SIZE : Nat := 16
def MAXBITS : Nat := 20
def NUM_ROMS : Nat := 10
def BINARY_FMT : Nat := 1
def TEXT_FMT : Nat := 2
def INTEL_FMT : Nat := 3
def OUTPUT_DC : Char := '-'
def UCHAR_MAX : Nat := 255
def CHAR_BIT : Nat := 8

/-- Width of `unsigned int`: arithmetic on `address` wraps at this modulus. -/
def UINT_MOD : Nat := 2 ^ 32

/-! ## `<ctype.h>` in the "C" locale -/

def isdigit (c : Char) : Bool := decide (48 ≤ c.toNat ∧ c.toNat ≤ 57)

def isspace (c : Char) : Bool := decide (c.toNat = 32 ∨ (9 ≤ c.toNat ∧ c.toNat ≤ 13))

def tolower (c : Char) : Char :=
  if 65 ≤ c.toNat ∧ c.toNat ≤ 90 then Char.ofNat (c.toNat + 32) else c

/-! ## `text.c` -/

/-- Source `strip_comment`: the string is cut at the first hash mark. -/
def strip_comment : List Char → List Char
  | [] => []
  | c :: cs => if c = '#' then [] else c :: strip_comment cs

/-- Source `is_blank`: skip white space, then test for the terminator. -/
def is_blank : List Char → Bool
  | [] => true
  | c :: cs => if isspace c then is_blank cs else false

/-- Control states of `strip_whitespace`: the initial scan for the first white
space (`spc` advancing), the skip over white space (`non` advancing), and the
packing loop (copying `*non` to `*spc`). -/
inductive StripMode
  | scan
  | skip
  | pack
deriving DecidableEq

/-- The loops of `strip_whitespace`, run over the unread tail of the buffer; the
result is what the buffer holds below `spc` when the function returns.  Since
`spc ≤ non` throughout, a store through `spc` never changes an unread character. -/
def strip_run : StripMode → List Char → List Char
  | _, [] => []
  | StripMode.scan, c :: cs =>
      if isspace c then strip_run StripMode.skip cs else c :: strip_run StripMode.scan cs
  | StripMode.skip, c :: cs =>
      if isspace c then strip_run StripMode.skip cs else c :: strip_run StripMode.pack cs
  | StripMode.pack, c :: cs =>
      if isspace c then strip_run StripMode.skip cs else c :: strip_run StripMode.pack cs

def strip_whitespace (line : List Char) : List Char :=
  strip_run StripMode.scan line

/-- C library `strspn`: length of the longest initial segment made of `comp`. -/
def strspn (str comp : List Char) : Nat :=
  (str.takeWhile (fun c => comp.contains c)).length

def valid_string (str comp : List Char) : Bool :=
  decide (strspn str comp = str.length)

def translate (str : List Char) (src dst : Char) : List Char :=
  str.map (fun c => if c = src then dst else c)

/-- One pass of the loop of `count_roms` over the variable `maxrom`. -/
def count_roms_step (maxrom : Int) (c : Char) : Int :=
  if isdigit c then
    let off : Int := (c.toNat : Int) - 48
    if off > maxrom then off else maxrom
  else maxrom

/-- Source `count_roms`: `maxrom` starts at `-1`; the result is `maxrom + 1`. -/
def count_roms (hdr : List Char) : Int :=
  hdr.foldl count_roms_step (-1) + 1

/-- One pass of the loop of `count_addr` over the variable `nbits`. -/
def count_addr_step (nbits : Nat) (c : Char) : Nat :=
  if tolower c = 'a' then nbits + 1 else nbits

def count_addr (hdr : List Char) : Nat :=
  hdr.foldl count_addr_step 0

/-- Source `copy_string`: `NULL` for the empty string, a copy otherwise. -/
def copy_string (str : List Char) : Option (List Char) :=
  if str.length = 0 then none else some str

/-! ## `printf` conversions used by the codecs -/

def hexDigit (d : Nat) : Char :=
  if d < 10 then Char.ofNat (48 + d) else Char.ofNat (55 + d)

/-- Upper-case hexadecimal digits of `n`, most significant first, pushed in
front of `acc`; `fuel` bounds the number of digits. -/
def hexDigitsAux : Nat → Nat → List Char → List Char
  | 0, _, acc => acc
  | fuel + 1, n, acc =>
      if n / 16 = 0 then hexDigit (n % 16) :: acc
      else hexDigitsAux fuel (n / 16) (hexDigit (n % 16) :: acc)

/-- The conversion `%0wX`: at least `w` digits, padded with zeros on the left. -/
def fmtX (w n : Nat) : List Char :=
  let ds := hexDigitsAux (n + 1) n []
  List.replicate (w - ds.length) '0' ++ ds

/-! ## `rom.c` -/

/-- Source macro `SEGMENT`: bits 16-19 of the address, left-justified. -/
def SEGMENT (a : Nat) : Nat := ((a >>> 16) &&& 0xF) <<< 12

/-- Conversion of the `int` value `~out + 1` to `byte`. -/
def negate_byte (out : Nat) : Nat :=
  (((-(out : Int) - 1) + 1) % 256).toNat

def compute_data_checksum (count addr : Nat) (data : List Nat) : Nat :=
  let sum := count
  let sum := (sum + ((addr >>> CHAR_BIT) &&& UCHAR_MAX)) % UINT_MOD
  let sum := (sum + (addr &&& UCHAR_MAX)) % UINT_MOD
  let sum := (sum + DATA_REC) % UINT_MOD
  let sum := (List.range count).foldl (fun s ix => (s + data.getD ix 0) % UINT_MOD) sum
  negate_byte (sum &&& UCHAR_MAX)

def compute_offset_checksum (offset : Nat) : Nat :=
  let sum := 0
  let sum := (sum + 2) % UINT_MOD
  let sum := (sum + ((offset >>> CHAR_BIT) &&& UCHAR_MAX)) % UINT_MOD
  let sum := (sum + (offset &&& UCHAR_MAX)) % UINT_MOD
  let sum := (sum + OFFSET_REC) % UINT_MOD
  negate_byte (sum &&& UCHAR_MAX)

def compute_end_checksum : Nat :=
  (((-(END_REC : Int) - 1) + 1) % 256).toNat

/-- One pass of the first loop of `write_range` over the variable `base`. -/
def range_base_step (base : Nat) (c : Char) : Nat :=
  let base := (base <<< 1) % UINT_MOD
  if c = '1' then base ||| 1 else base

/-- First loop of `write_range`, the `base` variable. -/
def range_base (addr : List Char) (alen : Nat) : Nat :=
  (addr.take alen).foldl range_base_step 0

/-- First loop of `write_range`, the `wild` array. -/
def range_wild (addr : List Char) (alen : Nat) : List Bool :=
  (addr.take alen).map (fun c => decide (tolower c = 'x'))

/-- One pass of the inner loop of `write_range`; the state is `(off, kx)`. -/
def range_offset_step (ix : Nat) (st : Nat × Nat) (w : Bool) : Nat × Nat :=
  let off := (st.1 <<< 1) % UINT_MOD
  if w then (off ||| ((ix >>> st.2) &&& 1), st.2 + 1) else (off, st.2)

/-- Inner loop of `write_range`: the offset for counter value `ix`. -/
def range_offset (wild : List Bool) (ix : Nat) : Nat :=
  (wild.foldl (range_offset_step ix) (0, 0)).1

/-- Addresses stored to by `write_range`, in the order of the stores. -/
def range_addrs (addr : List Char) (alen : Nat) : List Nat :=
  let wild := range_wild addr alen
  let count := 1 <<< (wild.count true)
  (List.range count).map (fun ix => range_base addr alen + range_offset wild ix)

/-- Source `write_range`; a store past the end of `rom` is dropped.  The source
returns without a store when `calloc (alen, 1)` yields `NULL`, which an
implementation may do for `alen = 0`; `process_file` always passes `alen ≥ 1`. -/
def write_range (rom : List Nat) (addr : List Char) (alen : Nat) (val : Nat) : List Nat :=
  (range_addrs addr alen).foldl (fun rom a => rom.set a val) rom

def dump_raw (rom : List Nat) (rlen : Nat) : List Nat :=
  rom.take rlen

def dump_text (rom : List Nat) (rlen : Nat) : List Char :=
  let st := (List.range rlen).foldl (fun (st : List Char × Nat) pos =>
    let out := if st.2 = 0 then st.1 ++ fmtX 5 pos ++ [':'] else st.1
    let out := out ++ ' ' :: fmtX 2 (rom.getD pos 0)
    let brk := (st.2 + 1) &&& 15
    (if brk = 0 then out ++ ['\n'] else out, brk)) ([], 0)
  if st.2 ≠ 0 then st.1 ++ ['\n'] else st.1

def write_data_record (data : List Nat) (len addr : Nat) : List Char :=
  ':' :: fmtX 2 len ++ (fmtX 4 addr ++ fmtX 2 DATA_REC)
    ++ ((List.range len).map (fun ix => fmtX 2 (data.getD ix 0))).flatten
    ++ fmtX 2 (compute_data_checksum (len % 256) addr data) ++ ['\n']

def write_offset_record (offset : Nat) : List Char :=
  [':', '0', '2', '0', '0', '0', '0'] ++ fmtX 2 OFFSET_REC
    ++ fmtX 4 offset ++ fmtX 2 (compute_offset_checksum offset) ++ ['\n']

def write_end_record : List Char :=
  [':', '0', '0', '0', '0', '0', '0'] ++ fmtX 2 END_REC ++ fmtX 2 compute_end_checksum ++ ['\n']

/-- The `while` loop of `dump_intel`; returns the text written together with
the final `cur` and `seg`.  `rlen` is a C `int`, so `cur + CHUNK_SIZE` stays
below `2 ^ 32` and natural-number arithmetic is exact. -/
def dump_intel_loop (rom : List Nat) (rlen cur seg : Nat) : List Char × Nat × Nat :=
  if cur + CHUNK_SIZE ≤ rlen then
    let seg1 := if SEGMENT cur ≠ seg then SEGMENT cur else seg
    let pre := if SEGMENT cur ≠ seg then write_offset_record (SEGMENT cur) else []
    let rec1 := write_data_record (rom.drop cur) CHUNK_SIZE (cur &&& 0xFFFF)
    let r := dump_intel_loop rom rlen (cur + CHUNK_SIZE) seg1
    (pre ++ rec1 ++ r.1, r.2)
  else ([], cur, seg)
termination_by rlen - cur
decreasing_by simp [CHUNK_SIZE] at *; omega

def dump_intel (rom : List Nat) (rlen : Nat) : List Char :=
  let r := dump_intel_loop rom rlen 0 0
  let cur := r.2.1
  let seg := r.2.2
  let tail :=
    if cur < rlen then
      (if SEGMENT cur ≠ seg then write_offset_record (SEGMENT cur) else [])
        ++ write_data_record (rom.drop cur) (rlen - cur) (cur &&& 0xFFFF)
    else []
  write_offset_record 0 ++ r.1 ++ tail ++ write_end_record

/-! ## `tt2rom.c` -/

/-- Diagnostics written to `stderr` by `process_file` and `parse_data`. -/
inductive Diag
  | config_invalid_char (line : Nat)
  | no_rom_number (line : Nat)
  | too_many_roms (line : Nat)
  | state_bits_range (line : Nat)
  | no_memory
  | data_invalid_char (line : Nat)
  | wrong_field_count (line wanted got : Nat)
  | illegal_dont_care (line : Nat)
  | no_config
deriving DecidableEq

/-- Ways in which `process_file` stops early: `goto CLEANUP` with `res` set and
a diagnostic printed, or a store outside the accumulator array. -/
inductive Abort
  | error (res : Nat) (msg : Diag)
  | fault
deriving DecidableEq

/-- Result of `parse_data`: the accumulators and return value 1, return value
0 after the "illegal don't-care bit" diagnostic, or an out-of-range store. -/
inductive ParseResult
  | ok (accum : List Nat)
  | illegal
  | fault
deriving DecidableEq

/-- The `while` loop of `parse_data`, run over the characters of `str` from
index `pos` on. -/
def parse_data_loop (config : List Char) : List Char → Nat → List Nat → ParseResult
  | [], _, accum => ParseResult.ok accum
  | c :: cs, pos, accum =>
      if isdigit c then
        let bit : Nat := c.toNat - 48
        let rnum : Int := ((config.getD pos (Char.ofNat 0)).toNat : Int) - 48
        if 0 ≤ rnum ∧ rnum.toNat < accum.length then
          parse_data_loop config cs (pos + 1)
            (accum.set rnum.toNat (((accum.getD rnum.toNat 0 <<< 1) ||| bit) % 256))
        else ParseResult.fault
      else ParseResult.illegal

def parse_data (str config : List Char) (abits : Nat) (accum : List Nat) : ParseResult :=
  parse_data_loop config (str.drop abits) abits accum

/-- One pass of the loop of `alloc_roms` over the table `*romp`: a digit whose
entry is still `NULL` gets a zero-filled image of `1 << abits` bytes. -/
def alloc_roms_step (abits : Nat) (rom : List (Option (List Nat))) (c : Char) :
    List (Option (List Nat)) :=
  if isdigit c then
    let rnum := c.toNat - 48
    if rom.getD rnum none = none then rom.set rnum (some (List.replicate (1 <<< abits) 0))
    else rom
  else rom

/-- Source `alloc_roms`: the table of image pointers, `none` for `NULL`. -/
def alloc_roms (nroms : Nat) (config : List Char) (abits : Nat) : List (Option (List Nat)) :=
  config.foldl (alloc_roms_step abits) (List.replicate nroms none)

/-- The `switch` of `dump_roms`: the bytes written to the file of one image. -/
def dump_rom (fmt : Nat) (img : List Nat) (romsize : Nat) : List Nat :=
  if fmt = BINARY_FMT then dump_raw img romsize
  else if fmt = TEXT_FMT then (dump_text img romsize).map Char.toNat
  else (dump_intel img romsize).map Char.toNat

/-- Source `dump_roms`: the files written, each with its ROM number. -/
def dump_roms (rom : List (Option (List Nat))) (nroms abits fmt : Nat) : List (Nat × List Nat) :=
  (List.range nroms).filterMap (fun ix =>
    match rom.getD ix none with
    | some img => some (ix, dump_rom fmt img (1 <<< abits))
    | none => none)

/-- Local variables of `process_file` that live across lines. -/
structure Session where
  line : Nat
  first : Bool
  config : List Char
  nroms : Nat
  abits : Nat
  length : Nat
  rom : List (Option (List Nat))
  data : List Nat
deriving DecidableEq

def Session.init : Session :=
  { line := 0, first := true, config := [], nroms := 0, abits := 0, length := 0,
    rom := [], data := [] }

/-- The `for` loop of `process_file` that commits one row to every allocated image. -/
def write_roms (rom : List (Option (List Nat))) (ibuf : List Char) (abits : Nat)
    (data : List Nat) : List (Option (List Nat)) :=
  rom.mapIdx (fun ix r => r.map (fun img => write_range img ibuf abits (data.getD ix 0)))

/-- The `if(first)` block of `process_file`. -/
def process_config (s : Session) (ibuf : List Char) : Except Abort Session :=
  if !valid_string ibuf ['0', '1', '2', '3', '4', '5', '6', '7', '8', '9', 'A', 'a'] then
    Except.error (Abort.error 1 (Diag.config_invalid_char s.line))
  else
    let nroms := count_roms ibuf
    let abits := count_addr ibuf
    if nroms < 1 then Except.error (Abort.error 2 (Diag.no_rom_number s.line))
    else if nroms > NUM_ROMS then Except.error (Abort.error 2 (Diag.too_many_roms s.line))
    else if abits < 1 ∨ abits > MAXBITS then
      Except.error (Abort.error 3 (Diag.state_bits_range s.line))
    else
      match copy_string ibuf with
      | none => Except.error (Abort.error 1 Diag.no_memory)
      | some config =>
          Except.ok { s with
            first := false, config := config, nroms := nroms.toNat, abits := abits,
            length := config.length,
            rom := alloc_roms nroms.toNat config abits,
            data := List.replicate nroms.toNat 0 }

/-- The part of the loop body of `process_file` that handles a data line. -/
def process_row (odcv : Char) (s : Session) (ibuf : List Char) : Except Abort Session :=
  let ibuf := translate ibuf OUTPUT_DC odcv
  if !valid_string ibuf ['0', '1', 'X', 'x'] then
    Except.error (Abort.error 1 (Diag.data_invalid_char s.line))
  else if ibuf.length ≠ s.length then
    Except.error (Abort.error 4 (Diag.wrong_field_count s.line s.length ibuf.length))
  else
    match parse_data ibuf s.config s.abits s.data with
    | ParseResult.illegal => Except.error (Abort.error 5 (Diag.illegal_dont_care s.line))
    | ParseResult.fault => Except.error Abort.fault
    | ParseResult.ok data =>
        Except.ok { s with
          rom := write_roms s.rom ibuf s.abits data,
          data := List.replicate s.nroms 0 }

/-- One iteration of the `while(read_line(...))` loop of `process_file`;
`raw` is the line as `read_line` returned it and `odcv` is `g_odcv`. -/
def process_line (odcv : Char) (s : Session) (raw : List Char) : Except Abort Session :=
  let s := { s with line := s.line + 1 }
  let ibuf := strip_comment raw
  if is_blank ibuf then Except.ok s
  else
    let ibuf := strip_whitespace ibuf
    if s.first then process_config s ibuf else process_row odcv s ibuf

/-- The `while(read_line(...))` loop of `process_file`. -/
def process_lines (odcv : Char) : Session → List (List Char) → Except Abort Session
  | s, [] => Except.ok s
  | s, raw :: rest =>
      match process_line odcv s raw with
      | Except.error e => Except.error e
      | Except.ok s1 => process_lines odcv s1 rest

/-- Source `process_file` on the lines of the input; `odcv` is `g_odcv`, `fmt`
is `g_fmt`.  The result is the list of files written (return value 0), or the
reason for stopping. -/
def process_file (odcv : Char) (fmt : Nat) (lines : List (List Char)) :
    Except Abort (List (Nat × List Nat)) :=
  match process_lines odcv Session.init lines with
  | Except.error e => Except.error e
  | Except.ok s =>
      if s.first then Except.error (Abort.error 7 Diag.no_config)
      else Except.ok (dump_roms s.rom s.nroms s.abits fmt)


/-! ## Specification-side definitions -/

/-- Address `a` matches pattern `p`: reading the bits of `a` most significant
first over `p.length` positions, the bit at every position holding `0` or `1`
equals that character; other positions are unconstrained. -/
def addr_matches (p : List Char) (a : Nat) : Prop :=
  ∀ i, i < p.length →
    (p.getD i 'x' = '0' → a / 2 ^ (p.length - 1 - i) % 2 = 0) ∧
    (p.getD i 'x' = '1' → a / 2 ^ (p.length - 1 - i) % 2 = 1)

instance (p : List Char) (a : Nat) : Decidable (addr_matches p a) := by
  unfold addr_matches; infer_instance

/-- The characters allowed in an address pattern. -/
def is_addr_char (c : Char) : Prop := c = '0' ∨ c = '1' ∨ c = 'x' ∨ c = 'X'

instance (c : Char) : Decidable (is_addr_char c) := by
  unfold is_addr_char; infer_instance

/-- The address stored to by `write_range` for counter value `k`. -/
def range_addr (p : List Char) (k : Nat) : Nat :=
  range_base p p.length + range_offset (range_wild p p.length) k

/-- Value of a digit character, as `parse_data` and `alloc_roms` compute it. -/
def digit_val (c : Char) : Nat := c.toNat - 48

/-- The bits of row `r` in the columns that header `h` labels with digit `i`,
in left-to-right order. -/
def row_bits (h r : List Char) (i : Nat) : List Nat :=
  ((h.zip r).filter (fun p => isdigit p.1 && decide (digit_val p.1 = i))).map
    (fun p => digit_val p.2)

/-- Most-significant-bit-first binary value of a list of bits. -/
def msb_value (bits : List Nat) : Nat :=
  bits.foldl (fun v b => 2 * v + b) 0

/-- The last row of `rows` whose address pattern, its first `n` characters,
matches address `a`. -/
def last_match (n : Nat) (rows : List (List Char)) (a : Nat) : Option (List Char) :=
  rows.reverse.find? (fun r => decide (addr_matches (r.take n) a))

/-- The byte the truth table assigns to address `a` of image `i`: the value of
the image bits of the last matching row, 0 when no row matches. -/
def expected_byte (h : List Char) (n : Nat) (rows : List (List Char)) (i a : Nat) : Nat :=
  match last_match n rows a with
  | some r => msb_value (row_bits h r i)
  | none => 0

/-- A data row for a header of `n` address columns followed by `m` image
columns: `n + m` characters, the first `n` among `0 1 x X`, the others `0` or `1`. -/
def valid_row (n m : Nat) (r : List Char) : Prop :=
  r.length = n + m ∧ (∀ c ∈ r.take n, is_addr_char c) ∧ (∀ c ∈ r.drop n, c = '0' ∨ c = '1')

instance (n m : Nat) (r : List Char) : Decidable (valid_row n m r) := by
  unfold valid_row; infer_instance

/-- Digit `i` labels some column of header `h`. -/
def has_image (h : List Char) (i : Nat) : Bool :=
  h.any (fun d => isdigit d && decide (digit_val d = i))

/-- The image the truth table `rows` describes for ROM `i`: the expected byte
at every address below `2 ^ n`. -/
def image_of (h : List Char) (n : Nat) (rows : List (List Char)) (i : Nat) : List Nat :=
  (List.range (2 ^ n)).map (expected_byte h n rows i)

/-- State of `process_file` once the header `h` with `n` address bits and the
rows `done` have been consumed. -/
def rows_inv (h : List Char) (n : Nat) (done : List (List Char)) (s : Session) : Prop :=
  s.first = false ∧ s.config = h ∧ s.abits = n ∧ s.length = h.length ∧
  s.data = List.replicate s.nroms 0 ∧
  (∀ d ∈ h, isdigit d = true → digit_val d < s.nroms) ∧
  (∀ i, s.rom.getD i none = if has_image h i then some (image_of h n done i) else none)

/-- Every element of an image is a byte. -/
def is_bytes (rom : List Nat) : Prop := ∀ b ∈ rom, b < 256

instance (rom : List Nat) : Decidable (is_bytes rom) := by
  unfold is_bytes; infer_instance

/-- Value of an upper-case hexadecimal digit. -/
def hex_val (c : Char) : Option Nat :=
  if 48 ≤ c.toNat ∧ c.toNat ≤ 57 then some (c.toNat - 48)
  else if 65 ≤ c.toNat ∧ c.toNat ≤ 70 then some (c.toNat - 55)
  else none

/-- Read hexadecimal digits two at a time as bytes. -/
def hex_bytes : List Char → Option (List Nat)
  | [] => some []
  | [_] => none
  | a :: b :: rest =>
      match hex_val a, hex_val b, hex_bytes rest with
      | some x, some y, some bs => some ((16 * x + y) :: bs)
      | _, _, _ => none

/-- The bytes of an Intel HEX line: the hexadecimal digits after the colon. -/
def record_bytes : List Char → Option (List Nat)
  | [] => none
  | c :: rest => if c = ':' then hex_bytes rest else none

/-- Split a character stream into lines; `acc` is the line being read. -/
def split_lines_aux : List Char → List Char → List (List Char)
  | acc, [] => if acc = [] then [] else [acc]
  | acc, c :: cs =>
      if c = '\n' then acc :: split_lines_aux [] cs else split_lines_aux (acc ++ [c]) cs

/-- The lines of a character stream, without their line breaks. -/
def split_lines (s : List Char) : List (List Char) :=
  split_lines_aux [] s

/-- The stream made of the given lines, each followed by a line break. -/
def lines_of (bodies : List (List Char)) : List Char :=
  (bodies.map (fun b => b ++ ['\n'])).flatten

/-- Exactly `w` hexadecimal digits of `n`, most significant first. -/
def hex_fixed : Nat → Nat → List Char
  | 0, _ => []
  | w + 1, n => hex_fixed w (n / 16) ++ [hexDigit (n % 16)]

/-- A character that can occur inside an Intel HEX record. -/
def is_record_char (c : Char) : Prop := c ≠ '\n'

/-- The text of a data record without its line break. -/
def data_line (data : List Nat) (len addr : Nat) : List Char :=
  ':' :: fmtX 2 len ++ (fmtX 4 addr ++ fmtX 2 DATA_REC)
    ++ ((List.range len).map (fun ix => fmtX 2 (data.getD ix 0))).flatten
    ++ fmtX 2 (compute_data_checksum (len % 256) addr data)

/-- The text of an offset record without its line break. -/
def offset_line (offset : Nat) : List Char :=
  [':', '0', '2', '0', '0', '0', '0'] ++ fmtX 2 OFFSET_REC
    ++ fmtX 4 offset ++ fmtX 2 (compute_offset_checksum offset)

/-- The text of the end record without its line break. -/
def end_line : List Char :=
  [':', '0', '0', '0', '0', '0', '0'] ++ fmtX 2 END_REC ++ fmtX 2 compute_end_checksum

/-- The lines written for the chunk of `len` bytes at offset `c`: an offset
record when `c` is a positive multiple of 65536, then the data record. -/
def chunk_lines (rom : List Nat) (c len : Nat) : List (List Char) :=
  (if 0 < c ∧ c % 65536 = 0 then [offset_line (SEGMENT c)] else [])
    ++ [data_line (rom.drop c) len (c % 65536)]

/-- The lines of an Intel HEX dump of the first `rlen` bytes of `rom`, described
chunk by chunk. -/
def intel_lines (rom : List Nat) (rlen : Nat) : List (List Char) :=
  [offset_line 0]
    ++ (List.range (rlen / 16)).flatMap (fun j => chunk_lines rom (16 * j) 16)
    ++ (if rlen % 16 ≠ 0 then chunk_lines rom (16 * (rlen / 16)) (rlen % 16) else [])
    ++ [end_line]

/-- A decoded Intel HEX record: a data record with its 16-bit address field and
payload, an extended segment address record with its value, or the end record. -/
inductive Record
  | data (addr : Nat) (bytes : List Nat)
  | offset (value : Nat)
  | eof
deriving DecidableEq

/-- Decode one line as an Intel HEX record: the length field must count the
payload bytes and the bytes must sum to 0 modulo 256. -/
def parse_record (line : List Char) : Option Record :=
  match record_bytes line with
  | some (len :: ah :: al :: typ :: rest) =>
      if rest.length = len + 1 ∧ (len + ah + al + typ + rest.sum) % 256 = 0 then
        if typ = 0 then some (Record.data (256 * ah + al) rest.dropLast)
        else if typ = 1 ∧ len = 0 then some Record.eof
        else if typ = 2 ∧ len = 2 then
          some (Record.offset (256 * rest.getD 0 0 + rest.getD 1 0))
        else none
      else none
  | _ => none

def Record.is_offset : Record → Bool
  | Record.offset _ => true
  | _ => false

def Record.payload? : Record → Option (List Nat)
  | Record.data _ bytes => some bytes
  | _ => none

/-- The records for the chunk at offset `c` of an image of length `len`: an
offset record carrying `((c >> 16) & 0xF) << 12` exactly when `c` is a positive
multiple of 65536, then the data record with the chunk's bytes. -/
def chunk_records (rom : List Nat) (len c : Nat) : List Record :=
  (if 0 < c ∧ c % 65536 = 0 then [Record.offset (((c >>> 16) &&& 0xF) <<< 12)] else [])
    ++ [Record.data (c % 65536) ((List.range' c (min 16 (len - c))).map (fun a => rom.getD a 0))]

/-- The records of an Intel HEX dump as the specification describes them: the
initial offset record 0, the chunks at offsets 0, 16, 32, ... in order, and
the end record. -/
def intel_records (rom : List Nat) (len : Nat) : List Record :=
  Record.offset 0
    :: (List.range ((len + 15) / 16)).flatMap (fun j => chunk_records rom len (16 * j))
    ++ [Record.eof]

/-- Address field and payload of a data record. -/
def Record.data? : Record → Option (Nat × List Nat)
  | Record.data addr bytes => some (addr, bytes)
  | _ => none

/-- Read records as an Intel HEX loader does: an offset record sets the
segment for the records after it, the end record stops the reading; the result
lists every data record with the segment in force, its address field and its
payload. -/
def data_with_segment : Nat → List Record → List (Nat × Nat × List Nat)
  | _, [] => []
  | seg, Record.data addr bytes :: rs => (seg, addr, bytes) :: data_with_segment seg rs
  | _, Record.offset value :: rs => data_with_segment value rs
  | _, Record.eof :: _ => []

/-- The absolute address and value of every byte of a data record: byte `k`
goes to `16 * seg + (addr + k) mod 65536`. -/
def place (seg addr : Nat) (bytes : List Nat) : List (Nat × Nat) :=
  (List.range bytes.length).map (fun k => (16 * seg + (addr + k) % 65536, bytes.getD k 0))

/-- The (address, byte) pairs a list of records loads, in order. -/
def decode_records (recs : List Record) : List (Nat × Nat) :=
  (data_with_segment 0 recs).flatMap (fun e => place e.1 e.2.1 e.2.2)

/-- Decode every line, failing when one line is not a record. -/
def parse_all : List (List Char) → Option (List Record)
  | [] => some []
  | l :: ls =>
      match parse_record l, parse_all ls with
      | some r, some rs => some (r :: rs)
      | _, _ => none

/-- Decoder for Intel HEX text with extended segment address records. -/
def decode_intel (text : List Char) : Option (List (Nat × Nat)) :=
  (parse_all (split_lines text)).map decode_records

/-- State of `process_file` after the header `h` with `n` address bits has been
accepted, as far as the handling of the next line depends on it. -/
def config_inv (h : List Char) (n : Nat) (s : Session) : Prop :=
  s.first = false ∧ s.config = h ∧ s.abits = n ∧ s.length = h.length ∧
  s.data = List.replicate s.nroms 0 ∧
  (∀ d ∈ h, isdigit d = true → digit_val d < s.nroms)

/-- The data row held by line `l`: the line after comment and white-space
stripping and after substitution of the output don't-care marker by `odcv`. -/
def row_text (odcv : Char) (l : List Char) : List Char :=
  translate (strip_whitespace (strip_comment l)) OUTPUT_DC odcv

/-- Number of wildcard characters (`x` or `X`) of an address pattern. -/
def wild_count (p : List Char) : Nat :=
  p.countP (fun c => decide (c = 'x' ∨ c = 'X'))

/-- One pass of the loop of `dump_text`; the state is the text written so far
and the variable `brk`. -/
def dump_text_step (rom : List Nat) (st : List Char × Nat) (pos : Nat) : List Char × Nat :=
  let out := if st.2 = 0 then st.1 ++ fmtX 5 pos ++ [':'] else st.1
  let out := out ++ ' ' :: fmtX 2 (rom.getD pos 0)
  let brk := (st.2 + 1) &&& 15
  (if brk = 0 then out ++ ['\n'] else out, brk)

/-- The first `m` bytes of line `j` of a hex dump: the 5-digit address
`16 * j`, a colon, and for each byte a space and two hexadecimal digits. -/
def text_line_part (rom : List Nat) (j m : Nat) : List Char :=
  hex_fixed 5 (16 * j)
    ++ ':' :: (List.range' (16 * j) m).flatMap (fun a => ' ' :: hex_fixed 2 (rom.getD a 0))

/-- The lines of a hex dump of the first `len` bytes of `rom`. -/
def text_lines (rom : List Nat) (len : Nat) : List (List Char) :=
  (List.range ((len + 15) / 16)).map (fun j => text_line_part rom j (min 16 (len - 16 * j)))

/-- Initial value of the global `g_odcv`, the output don't-care value in force
when no `output-dc` option is given. -/
def g_odcv_init : Char := '1'

/-- The `output-dc` branch of the option loop of `main`.  `value` is the option
value (`none` for `NULL`); `bitval` and `endp` are what the C library call
`strtol(value, &endp, 2)` returned and left unread.  `Except.error 1` is
`return 1`, otherwise the result is the new `g_odcv`. -/
def set_output_dc (value : Option (List Char)) (bitval : Int) (endp : List Char) :
    Except Nat Char :=
  match value with
  | none => Except.error 1
  | some [] => Except.error 1
  | some (_ :: _) =>
      if bitval < 0 ∨ bitval > 1 then Except.error 1
      else if endp ≠ [] then Except.error 1
      else Except.ok (if bitval ≠ 0 then '1' else '0')

/-- The data row `row` with the marker `-` replaced by `d` in the output
columns, that is in the columns whose header character is a digit. -/
def replace_output_dc : List Char → Char → List Char → List Char
  | _, _, [] => []
  | [], _, c :: cs => c :: cs
  | h :: hs, d, c :: cs =>
      (if isdigit h = true ∧ c = OUTPUT_DC then d else c) :: replace_output_dc hs d cs

/-- The loop of source `template_valid` with the variable `has_num`; reading
the character after a `%` at the end of the string reads the terminator, which
takes the `default` branch. -/
def template_valid_loop : Nat → List Char → Bool
  | has_num, [] => decide (has_num = 1)
  | has_num, [c] => if c = '%' then false else decide (has_num = 1)
  | has_num, c :: d :: rest =>
      if c = '%' then
        if d = 'd' then
          if has_num ≠ 0 then false else template_valid_loop 1 rest
        else if d = '%' then template_valid_loop has_num rest
        else false
      else template_valid_loop has_num (d :: rest)

def template_valid (str : List Char) : Bool :=
  template_valid_loop 0 str

/-- The directives of a format string, scanned left to right: each `%` is
taken together with the character that follows it, `none` standing for a `%`
that is the last character. -/
def directives : List Char → List (Option Char)
  | [] => []
  | [c] => if c = '%' then [none] else []
  | c :: d :: rest =>
      if c = '%' then some d :: directives rest else directives (d :: rest)

/-- Size of the static buffers `namebuf` and `valbuf` of `parse_option`. -/
def OPTBUF_SIZE : Nat := 256

/-- Source `is_prefix`: the empty string is an initial part of any string;
otherwise both strings are walked while their characters agree. -/
def is_prefix : List Char → List Char → Bool
  | [], _ => true
  | _ :: _, [] => false
  | a :: str, b :: target => if a = b then is_prefix str target else false

/-- First loop of `parse_option`: characters are copied to `namebuf` from index
`pos` on while the string lasts, the character is not `=` and `pos` is below
`sizeof(namebuf) - 1`.  The result is what was copied and the unread rest. -/
def parse_name_loop : Nat → List Char → List Char × List Char
  | _, [] => ([], [])
  | pos, c :: cs =>
      if c ≠ '=' ∧ pos < OPTBUF_SIZE - 1 then
        ((c :: (parse_name_loop (pos + 1) cs).1), (parse_name_loop (pos + 1) cs).2)
      else ([], c :: cs)

/-- Second loop of `parse_option`: characters are copied to `valbuf` from index
`pos` on while the string lasts and `pos` is below `sizeof(valbuf) - 1`. -/
def parse_value_loop : Nat → List Char → List Char
  | _, [] => []
  | pos, c :: cs =>
      if pos < OPTBUF_SIZE - 1 then c :: parse_value_loop (pos + 1) cs else []

/-- Source `parse_option`, called with both output pointers: `none` is return
value 0; `some (name, value)` is return value 1 with the strings stored through
the pointers, `value = none` standing for `NULL`. -/
def parse_option (opt : List Char) : Option (List Char × Option (List Char)) :=
  if is_prefix ['-', '-'] opt = false then none
  else
    match (parse_name_loop 0 (opt.drop 2)).2 with
    | [] => some ((parse_name_loop 0 (opt.drop 2)).1, none)
    | _ :: rest => some ((parse_name_loop 0 (opt.drop 2)).1, some (parse_value_loop 0 rest))

/-- The indices of the wildcard characters (`x` or `X`) of pattern `p`, counted
from the left starting at 0, in increasing order. -/
def wild_positions (p : List Char) : List Nat :=
  (List.range p.length).filter (fun i => decide (p.getD i '0' = 'x' ∨ p.getD i '0' = 'X'))

/-- The value of pattern `p` read as a binary number, most significant bit
first, with every wildcard read as 0. -/
def pattern_base (p : List Char) : Nat :=
  msb_value (p.map (fun c => if c = '1' then 1 else 0))

/-- The sum over the wildcards of `p` of bit `i` of `k`, counted from the least
significant, times the place value `2 ^ (n - 1 - p_i)` of wildcard `i`. -/
def wild_sum (p : List Char) (k : Nat) : Nat :=
  ((List.range (wild_positions p).length).map
    (fun i => k / 2 ^ i % 2 * 2 ^ (p.length - 1 - (wild_positions p).getD i 0))).sum

def MAXFILENAME : Nat := 32
def PREFIXLEN : Nat := 6

/-- The terminator of a C string. -/
def NUL : Char := Char.ofNat 0

/-- The string held by a character buffer: its characters before the first NUL. -/
def c_string (buf : List Char) : List Char :=
  buf.takeWhile (fun c => decide (c ≠ NUL))

/-- The `for` loop of `make_file_template`: characters of `fname` are copied
from index `ix` on while `ix < PREFIXLEN`, the name lasts and the character is
not a dot. -/
def template_stem : Nat → List Char → List Char
  | _, [] => []
  | ix, c :: cs => if ix < PREFIXLEN ∧ c ≠ '.' then c :: template_stem (ix + 1) cs else []

/-- The byte `tag[pos]` of the static string `tag = "%d.hex"` of
`make_file_template`: its six characters, its terminator, and, past the end of
the string, whatever the memory after it holds (`beyond`). -/
def tag_byte (beyond : Nat → Char) (pos : Nat) : Char :=
  if pos < 6 then ['%', 'd', '.', 'h', 'e', 'x'].getD pos NUL
  else if pos = 6 then NUL
  else beyond pos

/-- Source `make_file_template`: the contents of `tmpl[0 .. tlen - 1]` when the
function returns, for `tlen ≥ 7`.  The copy loop runs until `ix = tlen - 1`
whatever the length of `tag`, so it also copies the terminator of `tag` and
the bytes that follow it in memory. -/
def make_file_template (fname : List Char) (tlen : Nat) (beyond : Nat → Char) : List Char :=
  let stem :=
    if fname.head? = none ∨ fname.head? = some '.' then ['o', 'u', 't', 'p', 'u', 't']
    else template_stem 0 fname
  stem ++ (List.range (tlen - 1 - stem.length)).map (tag_byte beyond) ++ [NUL]

/-- The file-name stem the built-in template starts with: `output` for an empty
name or a name that starts with a dot, otherwise the characters of the name
before its first dot, at most the first six. -/
def template_stem_spec (fname : List Char) : List Char :=
  if fname = [] ∨ fname.head? = some '.' then "output".toList
  else (fname.takeWhile (fun c => decide (c ≠ '.'))).take 6

/-! ## The codecs of `rom.c` as transformers of the program state -/

/-- The part of the program state a codec can touch: the bytes of the buffer
its argument `rom` points to, and the bytes written to the stream `ofp` so
far. -/
structure Store where
  rom : List Nat
  ofp : List Nat
deriving DecidableEq

/-- The calls `fprintf (ofp, ...)` and `fputc (c, ofp)`, given the text they
produce: the text is appended to the stream. -/
def fprintf_st (text : List Char) (s : Store) : Store :=
  { s with ofp := s.ofp ++ text.map Char.toNat }

/-- The call `fwrite (rom, sizeof (byte), count, ofp)`. -/
def fwrite_st (count : Nat) (s : Store) : Store :=
  { s with ofp := s.ofp ++ s.rom.take count }

/-- Source `dump_raw` on the program state. -/
def dump_raw_run (rlen : Nat) (s : Store) : Store :=
  fwrite_st rlen s

/-- One pass of the loop of `dump_text` on the program state; the second
component is the variable `brk`. -/
def dump_text_run_step (st : Store × Nat) (pos : Nat) : Store × Nat :=
  let s := if st.2 = 0 then fprintf_st (fmtX 5 pos ++ [':']) st.1 else st.1
  let s := fprintf_st (' ' :: fmtX 2 (s.rom.getD pos 0)) s
  let brk := (st.2 + 1) &&& 15
  (if brk = 0 then fprintf_st ['\n'] s else s, brk)

/-- Source `dump_text` on the program state. -/
def dump_text_run (rlen : Nat) (s : Store) : Store :=
  let st := (List.range rlen).foldl dump_text_run_step (s, 0)
  if st.2 ≠ 0 then fprintf_st ['\n'] st.1 else st.1

/-- Source `write_data_record` on the program state, called with
`data = rom + base`. -/
def write_data_record_run (base len addr : Nat) (s : Store) : Store :=
  let s := fprintf_st (':' :: fmtX 2 len) s
  let s := fprintf_st (fmtX 4 addr ++ fmtX 2 DATA_REC) s
  let s := (List.range len).foldl
    (fun (s : Store) ix => fprintf_st (fmtX 2 ((s.rom.drop base).getD ix 0)) s) s
  let chk := compute_data_checksum (len % 256) addr (s.rom.drop base)
  fprintf_st (fmtX 2 chk ++ ['\n']) s

/-- Source `write_offset_record` on the program state. -/
def write_offset_record_run (offset : Nat) (s : Store) : Store :=
  let s := fprintf_st ([':', '0', '2', '0', '0', '0', '0'] ++ fmtX 2 OFFSET_REC) s
  let s := fprintf_st (fmtX 4 offset) s
  let chk := compute_offset_checksum offset
  fprintf_st (fmtX 2 chk ++ ['\n']) s

/-- Source `write_end_record` on the program state. -/
def write_end_record_run (s : Store) : Store :=
  let chk := compute_end_checksum
  fprintf_st ([':', '0', '0', '0', '0', '0', '0'] ++ fmtX 2 END_REC ++ fmtX 2 chk ++ ['\n']) s

/-- The `while` loop of `dump_intel` on the program state; returns the state
together with the final `cur` and `seg`. -/
def dump_intel_loop_run (rlen cur seg : Nat) (s : Store) : Store × Nat × Nat :=
  if cur + CHUNK_SIZE ≤ rlen then
    let seg1 := if SEGMENT cur ≠ seg then SEGMENT cur else seg
    let s1 := if SEGMENT cur ≠ seg then write_offset_record_run (SEGMENT cur) s else s
    let s2 := write_data_record_run cur CHUNK_SIZE (cur &&& 0xFFFF) s1
    dump_intel_loop_run rlen (cur + CHUNK_SIZE) seg1 s2
  else (s, cur, seg)
termination_by rlen - cur
decreasing_by simp [CHUNK_SIZE] at *; omega

/-- Source `dump_intel` on the program state. -/
def dump_intel_run (rlen : Nat) (s : Store) : Store :=
  let s := write_offset_record_run 0 s
  let r := dump_intel_loop_run rlen 0 0 s
  let cur := r.2.1
  let seg := r.2.2
  let s :=
    if cur < rlen then
      write_data_record_run cur (rlen - cur) (cur &&& 0xFFFF)
        (if SEGMENT cur ≠ seg then write_offset_record_run (SEGMENT cur) r.1 else r.1)
    else r.1
  write_end_record_run s

/-- The `switch` of `dump_roms` on the program state. -/
def dump_rom_run (fmt : Nat) (romsize : Nat) (s : Store) : Store :=
  if fmt = BINARY_FMT then dump_raw_run romsize s
  else if fmt = TEXT_FMT then dump_text_run romsize s
  else dump_intel_run romsize s

/-! # Theorems -/

/-! ## Bit-level helper lemmas -/

theorem shl1_or_bit (b bit : Nat) (hb : bit < 2) : (b <<< 1) ||| bit = 2 * b + bit := by
  rw [Nat.shiftLeft_eq, pow_one, Nat.mul_comm]
  have h := Nat.mul_add_lt_is_or (i := 1) (b := bit) (by simpa using hb) b
  simpa using h.symm

theorem shl1_eq (b : Nat) : b <<< 1 = 2 * b := by
  rw [Nat.shiftLeft_eq, pow_one, Nat.mul_comm]

theorem shr_and_one (ix k : Nat) : (ix >>> k) &&& 1 = ix / 2 ^ k % 2 := by
  rw [Nat.and_one_is_mod, Nat.shiftRight_eq_div_pow]

theorem one_shl (n : Nat) : 1 <<< n = 2 ^ n := by
  rw [Nat.shiftLeft_eq, one_mul]

theorem tolower_eq_x (c : Char) : tolower c = 'x' ↔ (c = 'x' ∨ c = 'X') := by
  unfold tolower
  constructor
  · intro h
    split at h
    · rename_i hc
      right
      have h1 : (Char.ofNat (c.toNat + 32)).toNat = 120 := by rw [h]; rfl
      have h2 : c.toNat = 88 := by
        have : ∀ n, 65 ≤ n ∧ n ≤ 90 → (Char.ofNat (n + 32)).toNat = 120 → n = 88 := by
          intro n hn
          have hn2 : n < 91 := by omega
          interval_cases n <;> decide
        exact this _ hc h1
      rw [← Char.ofNat_toNat c, h2]
    · left; exact h
  · rintro (h | h) <;> subst h <;> decide

theorem bit_of_mod_eq (x y c j : Nat) (hj : j < c) (h : x % 2 ^ c = y % 2 ^ c) :
    x / 2 ^ j % 2 = y / 2 ^ j % 2 := by
  have hx := Nat.testBit_mod_two_pow x c j
  have hy := Nat.testBit_mod_two_pow y c j
  rw [h, hy] at hx
  simp only [hj, decide_True, Bool.true_and] at hx
  rw [Nat.testBit_to_div_mod, Nat.testBit_to_div_mod] at hx
  have h1 := Nat.mod_two_eq_zero_or_one (x / 2 ^ j)
  have h2 := Nat.mod_two_eq_zero_or_one (y / 2 ^ j)
  rcases h1 with h1 | h1 <;> rcases h2 with h2 | h2 <;> simp_all

/-! ## `write_range`: the two loops -/

theorem range_base_snoc (p : List Char) (c : Char) :
    range_base (p ++ [c]) (p.length + 1) = range_base_step (range_base p p.length) c := by
  unfold range_base
  rw [List.take_of_length_le (by simp), List.take_of_length_le (by simp), List.foldl_append]
  rfl

theorem range_base_step_val (b : Nat) (c : Char) (hb : b < 2 ^ 31) :
    range_base_step b c = 2 * b + (if c = '1' then 1 else 0) := by
  have h1 := shl1_or_bit b 1 (by norm_num)
  rw [shl1_eq] at h1
  simp only [range_base_step, UINT_MOD, shl1_eq]
  rw [Nat.mod_eq_of_lt (by omega)]
  split
  · rw [h1]
  · rfl

theorem range_base_lt (p : List Char) (h : p.length ≤ 32) :
    range_base p p.length < 2 ^ p.length := by
  induction p using List.reverseRecOn with
  | nil => simp [range_base]
  | append_singleton l c ih =>
    have hl : l.length + 1 ≤ 32 := by simpa using h
    have ih := ih (by omega)
    have hpow : 2 ^ l.length ≤ 2 ^ 31 := Nat.pow_le_pow_right (by norm_num) (by omega)
    rw [List.length_append, List.length_singleton, range_base_snoc,
      range_base_step_val _ _ (by omega), pow_succ]
    split <;> omega

theorem range_base_snoc_val (p : List Char) (c : Char) (h : p.length < 32) :
    range_base (p ++ [c]) (p.length + 1)
      = 2 * range_base p p.length + (if c = '1' then 1 else 0) := by
  have hb := range_base_lt p (by omega)
  have hpow : 2 ^ p.length ≤ 2 ^ 31 := Nat.pow_le_pow_right (by norm_num) (by omega)
  rw [range_base_snoc, range_base_step_val _ _ (by omega)]

theorem range_offset_kx (ix : Nat) (wild : List Bool) (st : Nat × Nat) :
    (wild.foldl (range_offset_step ix) st).2 = st.2 + wild.count true := by
  induction wild generalizing st with
  | nil => simp
  | cons w ws ih =>
    rw [List.foldl_cons, ih]
    cases w
    · simp [range_offset_step, List.count_cons]
    · simp [range_offset_step, List.count_cons]; omega

theorem range_offset_snoc (wild : List Bool) (w : Bool) (ix : Nat) :
    range_offset (wild ++ [w]) ix
      = (range_offset_step ix (range_offset wild ix, wild.count true) w).1 := by
  have hk := range_offset_kx ix wild (0, 0)
  simp only [Nat.zero_add] at hk
  have hst : wild.foldl (range_offset_step ix) (0, 0)
      = (range_offset wild ix, wild.count true) := by
    apply Prod.ext
    · rfl
    · exact hk
  unfold range_offset
  rw [List.foldl_append, List.foldl_cons, List.foldl_nil, hst]

theorem range_offset_step_val (ix o k : Nat) (w : Bool) (ho : o < 2 ^ 31) :
    (range_offset_step ix (o, k) w).1 = 2 * o + (if w then ix / 2 ^ k % 2 else 0) := by
  have hbit : ix / 2 ^ k % 2 < 2 := Nat.mod_lt _ (by norm_num)
  have h1 := shl1_or_bit o _ hbit
  rw [shl1_eq] at h1
  simp only [range_offset_step, UINT_MOD, shl1_eq, shr_and_one]
  rw [Nat.mod_eq_of_lt (by omega)]
  cases w
  · simp
  · simp only [if_true]; rw [h1]

theorem range_offset_lt (wild : List Bool) (ix : Nat) (h : wild.length ≤ 32) :
    range_offset wild ix < 2 ^ wild.length := by
  induction wild using List.reverseRecOn with
  | nil => simp [range_offset]
  | append_singleton l w ih =>
    have hl : l.length + 1 ≤ 32 := by simpa using h
    have ih := ih (by omega)
    have hpow : 2 ^ l.length ≤ 2 ^ 31 := Nat.pow_le_pow_right (by norm_num) (by omega)
    rw [List.length_append, List.length_singleton, range_offset_snoc,
      range_offset_step_val _ _ _ _ (by omega), pow_succ]
    have hbit : ix / 2 ^ l.count true % 2 < 2 := Nat.mod_lt _ (by norm_num)
    split <;> omega

theorem range_offset_snoc_val (wild : List Bool) (w : Bool) (ix : Nat) (h : wild.length < 32) :
    range_offset (wild ++ [w]) ix
      = 2 * range_offset wild ix + (if w then ix / 2 ^ wild.count true % 2 else 0) := by
  have hb := range_offset_lt wild ix (by omega)
  have hpow : 2 ^ wild.length ≤ 2 ^ 31 := Nat.pow_le_pow_right (by norm_num) (by omega)
  rw [range_offset_snoc, range_offset_step_val _ _ _ _ (by omega)]

theorem range_offset_congr (wild : List Bool) (ix iy : Nat)
    (h : ix % 2 ^ wild.count true = iy % 2 ^ wild.count true) :
    range_offset wild ix = range_offset wild iy := by
  induction wild using List.reverseRecOn with
  | nil => simp [range_offset]
  | append_singleton l w ih =>
    rw [range_offset_snoc, range_offset_snoc]
    cases w
    · have h2 : ix % 2 ^ l.count true = iy % 2 ^ l.count true := by simpa using h
      simp [ih h2, range_offset_step]
    · have hc : (l ++ [true]).count true = l.count true + 1 := by simp
      rw [hc] at h
      have h2 : ix % 2 ^ l.count true = iy % 2 ^ l.count true := by
        have hx := Nat.mod_mod_of_dvd ix (pow_dvd_pow 2 (Nat.le_succ (l.count true)))
        have hy := Nat.mod_mod_of_dvd iy (pow_dvd_pow 2 (Nat.le_succ (l.count true)))
        rw [← hx, ← hy, h]
      have hb := bit_of_mod_eq ix iy (l.count true + 1) (l.count true) (by omega) h
      simp only [range_offset_step, if_true]
      rw [ih h2, shr_and_one, shr_and_one, hb]

theorem range_wild_snoc (p : List Char) (c : Char) :
    range_wild (p ++ [c]) (p.length + 1)
      = range_wild p p.length ++ [decide (tolower c = 'x')] := by
  unfold range_wild
  rw [List.take_of_length_le (by simp), List.take_of_length_le (by simp)]
  simp

theorem range_wild_length (p : List Char) : (range_wild p p.length).length = p.length := by
  simp [range_wild]

theorem addr_matches_snoc (p : List Char) (c : Char) (a : Nat) :
    addr_matches (p ++ [c]) a ↔
      addr_matches p (a / 2) ∧ (c = '0' → a % 2 = 0) ∧ (c = '1' → a % 2 = 1) := by
  unfold addr_matches
  have hexp : ∀ i, i < p.length →
      a / 2 ^ ((p ++ [c]).length - 1 - i) = a / 2 / 2 ^ (p.length - 1 - i) := by
    intro i hi
    have : (p ++ [c]).length - 1 - i = (p.length - 1 - i) + 1 := by simp; omega
    rw [this, pow_succ, Nat.mul_comm, Nat.div_div_eq_div_mul]
  constructor
  · intro h
    refine ⟨fun i hi => ?_, ?_, ?_⟩
    · have hh := h i (by simp; omega)
      rw [List.getD_append _ _ _ _ hi, hexp i hi] at hh
      exact hh
    · have hh := (h p.length (by simp)).1
      rw [List.getD_append_right _ _ _ _ (le_refl _)] at hh
      simpa using hh
    · have hh := (h p.length (by simp)).2
      rw [List.getD_append_right _ _ _ _ (le_refl _)] at hh
      simpa using hh
  · rintro ⟨h1, h2, h3⟩ i hi
    have hi2 : i < p.length + 1 := by simpa using hi
    rcases Nat.lt_succ_iff_lt_or_eq.mp hi2 with hlt | heq
    · rw [List.getD_append _ _ _ _ hlt, hexp i hlt]
      exact h1 i hlt
    · subst heq
      rw [List.getD_append_right _ _ _ _ (le_refl _)]
      simpa using ⟨h2, h3⟩

theorem range_addr_snoc (p : List Char) (c : Char) (k : Nat) (h : p.length < 32) :
    range_addr (p ++ [c]) k
      = 2 * range_addr p k + ((if c = '1' then 1 else 0)
          + (if tolower c = 'x' then k / 2 ^ (range_wild p p.length).count true % 2 else 0)) := by
  unfold range_addr
  rw [List.length_append, List.length_singleton, range_base_snoc_val p c h, range_wild_snoc,
    range_offset_snoc_val _ _ _ (by rw [range_wild_length]; exact h)]
  simp only [decide_eq_true_eq]
  ring

/-- Every address `write_range` stores to lies in the image and matches the pattern. -/
theorem range_addr_sound (p : List Char) (hlen : p.length ≤ 32)
    (hp : ∀ c ∈ p, is_addr_char c) (k : Nat) :
    range_addr p k < 2 ^ p.length ∧ addr_matches p (range_addr p k) := by
  induction p using List.reverseRecOn with
  | nil => simp [range_addr, range_base, range_offset, range_wild, addr_matches]
  | append_singleton l c ih =>
    have hl : l.length + 1 ≤ 32 := by simpa using hlen
    have ih := ih (by omega) (fun c hc => hp c (by simp [hc]))
    have hc : is_addr_char c := hp c (by simp)
    have hbit : k / 2 ^ (range_wild l l.length).count true % 2 < 2 := Nat.mod_lt _ (by norm_num)
    rw [range_addr_snoc l c k (by omega), addr_matches_snoc, List.length_append,
      List.length_singleton, pow_succ]
    rcases hc with hc | hc | hc | hc <;> subst hc
    · have e1 : ¬ ('0' : Char) = '1' := by decide
      have e2 : ¬ tolower '0' = 'x' := by decide
      simp only [e1, e2, if_false, Nat.add_zero]
      refine ⟨by omega, ?_, by omega, by intro h; exact absurd h (by decide)⟩
      rw [Nat.mul_div_cancel_left _ (by norm_num)]; exact ih.2
    · have e2 : ¬ tolower '1' = 'x' := by decide
      simp only [e2, if_true, if_false, Nat.add_zero]
      refine ⟨by omega, ?_, (by intro h; exact absurd h (by decide)), by omega⟩
      have : (2 * range_addr l k + 1) / 2 = range_addr l k := by omega
      rw [this]; exact ih.2
    · have e1 : ¬ ('x' : Char) = '1' := by decide
      have e2 : tolower 'x' = 'x' := by decide
      simp only [e1, e2, if_true, if_false, Nat.zero_add]
      refine ⟨by omega, ?_, (by intro h; exact absurd h (by decide)), by intro h; exact absurd h (by decide)⟩
      have : (2 * range_addr l k + k / 2 ^ (range_wild l l.length).count true % 2) / 2
          = range_addr l k := by omega
      rw [this]; exact ih.2
    · have e1 : ¬ ('X' : Char) = '1' := by decide
      have e2 : tolower 'X' = 'x' := by decide
      simp only [e1, e2, if_true, if_false, Nat.zero_add]
      refine ⟨by omega, ?_, (by intro h; exact absurd h (by decide)), by intro h; exact absurd h (by decide)⟩
      have : (2 * range_addr l k + k / 2 ^ (range_wild l l.length).count true % 2) / 2
          = range_addr l k := by omega
      rw [this]; exact ih.2

/-- Every matching address is stored to for some counter value below `2 ^ w`. -/
theorem range_addr_complete (p : List Char) (hlen : p.length ≤ 32)
    (hp : ∀ c ∈ p, is_addr_char c) (a : Nat) (ha : a < 2 ^ p.length)
    (hm : addr_matches p a) :
    ∃ k, k < 2 ^ (range_wild p p.length).count true ∧ range_addr p k = a := by
  induction p using List.reverseRecOn generalizing a with
  | nil =>
    refine ⟨0, by simp [range_wild], ?_⟩
    simp at ha
    simp [range_addr, range_base, range_offset, range_wild, ha]
  | append_singleton l c ih =>
    have hl : l.length + 1 ≤ 32 := by simpa using hlen
    have hc : is_addr_char c := hp c (by simp)
    rw [addr_matches_snoc] at hm
    rw [List.length_append, List.length_singleton, pow_succ] at ha
    obtain ⟨k, hk, hka⟩ := ih (by omega) (fun c hc => hp c (by simp [hc])) (a / 2)
      (by omega) hm.1
    rw [List.length_append, List.length_singleton, range_wild_snoc]
    rcases hc with hc | hc | hc | hc <;> subst hc
    · refine ⟨k, by simpa using hk, ?_⟩
      have e1 : ¬ ('0' : Char) = '1' := by decide
      have e2 : ¬ tolower '0' = 'x' := by decide
      rw [range_addr_snoc l _ k (by omega), hka]
      simp only [e1, e2, if_false, Nat.add_zero]
      have := hm.2.1 rfl
      omega
    · refine ⟨k, by simpa using hk, ?_⟩
      have e2 : ¬ tolower '1' = 'x' := by decide
      rw [range_addr_snoc l _ k (by omega), hka]
      simp only [e2, if_true, if_false, Nat.add_zero]
      have := hm.2.2 rfl
      omega
    · have hw : (range_wild l l.length ++ [decide (tolower 'x' = 'x')]).count true
          = (range_wild l l.length).count true + 1 := by simp; decide
      have hpos : 0 < 2 ^ (range_wild l l.length).count true := Nat.two_pow_pos _
      have hbit : a % 2 < 2 := Nat.mod_lt _ (by norm_num)
      refine ⟨k + a % 2 * 2 ^ (range_wild l l.length).count true, ?_, ?_⟩
      · rw [hw, pow_succ]
        have : a % 2 * 2 ^ (range_wild l l.length).count true
            ≤ 1 * 2 ^ (range_wild l l.length).count true :=
          Nat.mul_le_mul_right _ (by omega)
        omega
      · have e1 : ¬ ('x' : Char) = '1' := by decide
        have e2 : tolower 'x' = 'x' := by decide
        have hcg : range_addr l (k + a % 2 * 2 ^ (range_wild l l.length).count true)
            = range_addr l k := by
          unfold range_addr
          rw [range_offset_congr _ _ k (Nat.add_mul_mod_self_right _ _ _)]
        rw [range_addr_snoc l _ _ (by omega), hcg, hka]
        simp only [e1, e2, if_true, if_false, Nat.zero_add]
        rw [Nat.add_mul_div_right _ _ hpos, Nat.div_eq_of_lt hk]
        omega
    · have hw : (range_wild l l.length ++ [decide (tolower 'X' = 'x')]).count true
          = (range_wild l l.length).count true + 1 := by simp; decide
      have hpos : 0 < 2 ^ (range_wild l l.length).count true := Nat.two_pow_pos _
      have hbit : a % 2 < 2 := Nat.mod_lt _ (by norm_num)
      refine ⟨k + a % 2 * 2 ^ (range_wild l l.length).count true, ?_, ?_⟩
      · rw [hw, pow_succ]
        have : a % 2 * 2 ^ (range_wild l l.length).count true
            ≤ 1 * 2 ^ (range_wild l l.length).count true :=
          Nat.mul_le_mul_right _ (by omega)
        omega
      · have e1 : ¬ ('X' : Char) = '1' := by decide
        have e2 : tolower 'X' = 'x' := by decide
        have hcg : range_addr l (k + a % 2 * 2 ^ (range_wild l l.length).count true)
            = range_addr l k := by
          unfold range_addr
          rw [range_offset_congr _ _ k (Nat.add_mul_mod_self_right _ _ _)]
        rw [range_addr_snoc l _ _ (by omega), hcg, hka]
        simp only [e1, e2, if_true, if_false, Nat.zero_add]
        rw [Nat.add_mul_div_right _ _ hpos, Nat.div_eq_of_lt hk]
        omega

theorem foldl_set_getElem? (l : List Nat) (rom : List Nat) (v a : Nat) :
    (l.foldl (fun r x => r.set x v) rom)[a]?
      = if a ∈ l ∧ a < rom.length then some v else rom[a]? := by
  induction l generalizing rom with
  | nil => simp
  | cons x xs ih =>
    rw [List.foldl_cons, ih, List.length_set, List.getElem?_set]
    by_cases hx : x = a
    · subst hx
      by_cases hlt : x < rom.length
      · simp [hlt]
      · simp [hlt, List.getElem?_eq_none (Nat.le_of_not_lt hlt)]
    · have hx2 : ¬ a = x := fun h => hx h.symm
      simp [hx, hx2]

theorem foldl_set_length (l : List Nat) (rom : List Nat) (v : Nat) :
    (l.foldl (fun r x => r.set x v) rom).length = rom.length := by
  induction l generalizing rom with
  | nil => rfl
  | cons x xs ih => rw [List.foldl_cons, ih, List.length_set]

theorem write_range_length (rom : List Nat) (addr : List Char) (alen v : Nat) :
    (write_range rom addr alen v).length = rom.length :=
  foldl_set_length _ _ _

theorem write_range_take (rom : List Nat) (addr : List Char) (alen v : Nat) :
    write_range rom addr alen v
      = write_range rom (addr.take alen) (addr.take alen).length v := by
  have h : (addr.take alen).take (addr.take alen).length = addr.take alen :=
    List.take_of_length_le (le_refl _)
  unfold write_range range_addrs range_wild range_base
  rw [h]

theorem mem_range_addrs (p : List Char) (a : Nat) :
    a ∈ range_addrs p p.length
      ↔ ∃ k, k < 2 ^ (range_wild p p.length).count true ∧ range_addr p k = a := by
  unfold range_addrs range_addr
  simp only [List.mem_map, List.mem_range, one_shl]

theorem mem_range_addrs_iff (p : List Char) (hlen : p.length ≤ 32)
    (hp : ∀ c ∈ p, is_addr_char c) (a : Nat) (ha : a < 2 ^ p.length) :
    a ∈ range_addrs p p.length ↔ addr_matches p a := by
  rw [mem_range_addrs]
  constructor
  · rintro ⟨k, _, hk⟩
    rw [← hk]
    exact (range_addr_sound p hlen hp k).2
  · exact range_addr_complete p hlen hp a ha

theorem write_range_getElem? (p : List Char) (rom : List Nat) (v a : Nat)
    (hlen : p.length ≤ 32) (hp : ∀ c ∈ p, is_addr_char c)
    (hrom : rom.length = 2 ^ p.length) (ha : a < 2 ^ p.length) :
    (write_range rom p p.length v)[a]?
      = some (if addr_matches p a then v else rom.getD a 0) := by
  have hget : rom[a]? = some (rom.getD a 0) := by
    rw [List.getD_eq_getElem?_getD, List.getElem?_eq_getElem (by omega)]
    rfl
  unfold write_range
  rw [foldl_set_getElem?]
  have hiff := mem_range_addrs_iff p hlen hp a ha
  by_cases hm : addr_matches p a
  · rw [if_pos ⟨hiff.mpr hm, by omega⟩, if_pos hm]
  · rw [if_neg (fun h => hm (hiff.mp h.1)), if_neg hm, hget]

/-! ## C1 -/

/-- C1: for a pattern `p` of 1 to 20 characters over `0`, `1`, `x`, `X`, an
image of `2 ^ p.length` bytes and a value `v`, after `write_range` the byte at
every address `a < 2 ^ p.length` is `v` when `a` matches `p` and is the previous
byte otherwise. -/
theorem write_range_spec (p : List Char) (rom : List Nat) (v a : Nat)
    (_hn1 : 1 ≤ p.length) (hlen : p.length ≤ 20) (hp : ∀ c ∈ p, is_addr_char c)
    (hrom : rom.length = 2 ^ p.length) (ha : a < 2 ^ p.length) :
    (write_range rom p p.length v)[a]?
      = some (if addr_matches p a then v else rom.getD a 0) :=
  write_range_getElem? p rom v a (by omega) hp hrom ha

theorem write_range_spec_witness :
    (write_range [5, 6, 7, 8] ['x', '1'] 2 9)[3]?
      = some (if addr_matches ['x', '1'] 3 then 9 else [5, 6, 7, 8].getD 3 0) :=
  write_range_spec ['x', '1'] [5, 6, 7, 8] 9 3 (by decide) (by decide) (by decide) (by decide)
    (by decide)

/-! ## Text helpers on well-formed lines -/

theorem valid_string_iff (str comp : List Char) :
    valid_string str comp = true ↔ ∀ c ∈ str, c ∈ comp := by
  unfold valid_string strspn
  rw [decide_eq_true_eq]
  induction str with
  | nil => simp
  | cons c cs ih =>
    by_cases hc : c ∈ comp
    · simp [List.takeWhile_cons, hc] at ih ⊢
      exact ih
    · simp [List.takeWhile_cons, hc]

theorem strip_comment_id (l : List Char) (h : ∀ c ∈ l, c ≠ '#') : strip_comment l = l := by
  induction l with
  | nil => rfl
  | cons c cs ih =>
    have hc : c ≠ '#' := h c (by simp)
    simp [strip_comment, hc, ih (fun x hx => h x (by simp [hx]))]

theorem strip_run_id (m : StripMode) (l : List Char) (hm : m ≠ StripMode.skip)
    (h : ∀ c ∈ l, isspace c = false) : strip_run m l = l := by
  induction l generalizing m with
  | nil => cases m <;> rfl
  | cons c cs ih =>
    have hc : isspace c = false := h c (by simp)
    have hcs : ∀ x ∈ cs, isspace x = false := fun x hx => h x (by simp [hx])
    cases m
    · simp [strip_run, hc, ih StripMode.scan (by decide) hcs]
    · exact absurd rfl hm
    · simp [strip_run, hc, ih StripMode.pack (by decide) hcs]

theorem strip_whitespace_id (l : List Char) (h : ∀ c ∈ l, isspace c = false) :
    strip_whitespace l = l :=
  strip_run_id StripMode.scan l (by decide) h

theorem is_blank_cons (c : Char) (cs : List Char) (h : isspace c = false) :
    is_blank (c :: cs) = false := by
  simp [is_blank, h]

theorem translate_id (l : List Char) (src dst : Char) (h : ∀ c ∈ l, c ≠ src) :
    translate l src dst = l := by
  unfold translate
  induction l with
  | nil => rfl
  | cons c cs ih =>
    have hc : c ≠ src := h c (by simp)
    simp only [List.map_cons, if_neg hc]
    rw [ih (fun x hx => h x (by simp [hx]))]

/-! ## `count_roms` and `count_addr` -/

theorem isdigit_iff (c : Char) : isdigit c = true ↔ 48 ≤ c.toNat ∧ c.toNat ≤ 57 := by
  simp [isdigit]

theorem digit_val_cast (c : Char) (h : isdigit c = true) :
    ((c.toNat : Int) - 48) = (digit_val c : Int) := by
  rw [isdigit_iff] at h
  unfold digit_val
  omega

theorem digit_val_lt (c : Char) (h : isdigit c = true) : digit_val c < 10 := by
  rw [isdigit_iff] at h
  unfold digit_val
  omega

theorem count_roms_fold (l : List Char) (m : Int) :
    m ≤ l.foldl count_roms_step m ∧
    (∀ c ∈ l, isdigit c = true → (digit_val c : Int) ≤ l.foldl count_roms_step m) ∧
    (l.foldl count_roms_step m = m ∨
      ∃ c ∈ l, isdigit c = true ∧ l.foldl count_roms_step m = (digit_val c : Int)) := by
  induction l generalizing m with
  | nil => simp
  | cons c cs ih =>
    rw [List.foldl_cons]
    obtain ⟨h1, h2, h3⟩ := ih (count_roms_step m c)
    have hstep : m ≤ count_roms_step m c := by
      unfold count_roms_step
      split
      · simp only []
        split <;> omega
      · exact le_refl _
    refine ⟨le_trans hstep h1, ?_, ?_⟩
    · intro x hx hd
      rcases List.mem_cons.mp hx with hxc | hxc
      · subst hxc
        have : (digit_val x : Int) ≤ count_roms_step m x := by
          unfold count_roms_step
          rw [if_pos hd, digit_val_cast x hd]
          simp only []
          split <;> omega
        exact le_trans this h1
      · exact h2 x hxc hd
    · rcases h3 with h3 | ⟨x, hx, hd, hv⟩
      · by_cases hd : isdigit c = true
        · by_cases hgt : (digit_val c : Int) > m
          · right
            refine ⟨c, by simp, hd, ?_⟩
            rw [h3]
            unfold count_roms_step
            rw [if_pos hd, digit_val_cast c hd]
            simp [hgt]
          · left
            rw [h3]
            unfold count_roms_step
            rw [if_pos hd, digit_val_cast c hd]
            simp [hgt]
        · left
          rw [h3]
          unfold count_roms_step
          rw [if_neg hd]
      · right
        exact ⟨x, by simp [hx], hd, hv⟩

theorem tolower_eq_a (c : Char) : tolower c = 'a' ↔ (c = 'A' ∨ c = 'a') := by
  unfold tolower
  constructor
  · intro h
    split at h
    · rename_i hc
      left
      have h1 : (Char.ofNat (c.toNat + 32)).toNat = 97 := by rw [h]; rfl
      have h2 : c.toNat = 65 := by
        have : ∀ n, 65 ≤ n ∧ n ≤ 90 → (Char.ofNat (n + 32)).toNat = 97 → n = 65 := by
          intro n hn
          have hn2 : n < 91 := by omega
          interval_cases n <;> decide
        exact this _ hc h1
      rw [← Char.ofNat_toNat c, h2]
    · right; exact h
  · rintro (h | h) <;> subst h <;> decide

theorem count_addr_fold (l : List Char) (m : Nat) :
    l.foldl count_addr_step m = m + l.countP (fun c => decide (c = 'A' ∨ c = 'a')) := by
  induction l generalizing m with
  | nil => simp
  | cons c cs ih =>
    rw [List.foldl_cons, ih, List.countP_cons]
    unfold count_addr_step
    by_cases h : tolower c = 'a'
    · have h2 := (tolower_eq_a c).mp h
      simp [h, h2]; omega
    · have h2 : ¬ (c = 'A' ∨ c = 'a') := fun hh => h ((tolower_eq_a c).mpr hh)
      simp [h, h2]

theorem count_addr_eq (hdr : List Char) :
    count_addr hdr = hdr.countP (fun c => decide (c = 'A' ∨ c = 'a')) := by
  unfold count_addr
  rw [count_addr_fold, Nat.zero_add]

theorem count_roms_no_digit (hdr : List Char) (h : ∀ c ∈ hdr, isdigit c = false) :
    count_roms hdr = 0 := by
  unfold count_roms
  rcases (count_roms_fold hdr (-1)).2.2 with h3 | ⟨c, hc, hd, _⟩
  · rw [h3]; rfl
  · rw [h c hc] at hd
    exact absurd hd (by decide)

theorem count_roms_max (hdr : List Char) (h : ∃ c ∈ hdr, isdigit c = true) :
    ∃ c ∈ hdr, isdigit c = true ∧ count_roms hdr = 1 + (digit_val c : Int) ∧
      ∀ d ∈ hdr, isdigit d = true → digit_val d ≤ digit_val c := by
  obtain ⟨c0, hc0, hd0⟩ := h
  obtain ⟨_, h2, h3⟩ := count_roms_fold hdr (-1)
  have hge := h2 c0 hc0 hd0
  rcases h3 with h3 | ⟨c, hc, hd, hv⟩
  · omega
  · refine ⟨c, hc, hd, ?_, ?_⟩
    · unfold count_roms
      rw [hv]; ring
    · intro d hdm hdd
      have := h2 d hdm hdd
      rw [hv] at this
      exact_mod_cast this

/-! ## C7 -/

/-- C7: `count_roms` returns 0 for a header without a digit and otherwise one
more than the largest digit occurring in the header; `count_addr` returns the
number of characters of the header that are `A` or `a`. -/
theorem count_roms_count_addr_spec (hdr : List Char) :
    ((∀ c ∈ hdr, isdigit c = false) → count_roms hdr = 0) ∧
    ((∃ c ∈ hdr, isdigit c = true) →
      ∃ c ∈ hdr, isdigit c = true ∧ count_roms hdr = 1 + (digit_val c : Int) ∧
        ∀ d ∈ hdr, isdigit d = true → digit_val d ≤ digit_val c) ∧
    count_addr hdr = hdr.countP (fun c => decide (c = 'A' ∨ c = 'a')) :=
  ⟨count_roms_no_digit hdr, count_roms_max hdr, count_addr_eq hdr⟩

/-! ## `parse_data` -/

theorem row_bits_cons (d c : Char) (ds cs : List Char) (i : Nat) (hd : isdigit d = true) :
    row_bits (d :: ds) (c :: cs) i
      = if digit_val d = i then digit_val c :: row_bits ds cs i else row_bits ds cs i := by
  unfold row_bits
  by_cases h : digit_val d = i
  · simp [List.filter_cons, hd, h]
  · simp [List.filter_cons, hd, h]

theorem bit_char_val (c : Char) (h : c = '0' ∨ c = '1') :
    isdigit c = true ∧ digit_val c < 2 := by
  rcases h with h | h <;> subst h <;> decide

theorem getD_set_eq (l : List Nat) (j i v : Nat) (hj : j < l.length) :
    (l.set j v).getD i 0 = if j = i then v else l.getD i 0 := by
  rw [List.getD_eq_getElem?_getD, List.getElem?_set, List.getD_eq_getElem?_getD]
  by_cases h : j = i
  · subst h
    simp [hj]
  · simp [h]

theorem parse_data_loop_spec (config : List Char) (cs : List Char) :
    ∀ (ds : List Char) (pos : Nat) (accum : List Nat),
      config.drop pos = ds → cs.length = ds.length →
      (∀ c ∈ cs, c = '0' ∨ c = '1') →
      (∀ d ∈ ds, isdigit d = true ∧ digit_val d < accum.length) →
      ∃ out, parse_data_loop config cs pos accum = ParseResult.ok out ∧
        out.length = accum.length ∧
        ∀ i, out.getD i 0
          = (row_bits ds cs i).foldl (fun v b => (2 * v + b) % 256) (accum.getD i 0) := by
  induction cs with
  | nil =>
    intro ds pos accum _ hlen _ _
    refine ⟨accum, rfl, rfl, fun i => ?_⟩
    simp [row_bits]
  | cons c cs ih =>
    intro ds pos accum hdrop hlen hcs hds
    cases ds with
    | nil => simp at hlen
    | cons d ds =>
      have hc := bit_char_val c (hcs c (by simp))
      have hd := hds d (by simp)
      have hget : config.getD pos (Char.ofNat 0) = d := by
        have h0 : (config.drop pos)[0]? = some d := by rw [hdrop]; simp
        rw [List.getElem?_drop, Nat.add_zero] at h0
        rw [List.getD_eq_getElem?_getD, h0]; rfl
      have hdrop1 : config.drop (pos + 1) = ds := by
        have := congrArg (List.drop 1) hdrop
        rw [List.drop_drop] at this
        simpa [Nat.add_comm] using this
      have hrnum : ((d.toNat : Int) - 48) = (digit_val d : Int) := digit_val_cast d hd.1
      have hset : ((accum.getD (digit_val d) 0 <<< 1) ||| (c.toNat - 48)) % 256
          = (2 * accum.getD (digit_val d) 0 + digit_val c) % 256 := by
        have := shl1_or_bit (accum.getD (digit_val d) 0) (digit_val c) hc.2
        unfold digit_val at this ⊢
        rw [this]
      obtain ⟨out, ho, hol, hov⟩ := ih ds (pos + 1)
        (accum.set (digit_val d) ((2 * accum.getD (digit_val d) 0 + digit_val c) % 256))
        hdrop1 (by simpa using hlen) (fun x hx => hcs x (by simp [hx]))
        (fun x hx => by
          rw [List.length_set]
          exact hds x (by simp [hx]))
      refine ⟨out, ?_, ?_, ?_⟩
      · rw [parse_data_loop, if_pos hc.1]
        simp only [hget, hrnum]
        rw [if_pos ⟨by omega, by simpa using hd.2⟩]
        simp only [Int.toNat_ofNat, hset]
        exact ho
      · rw [hol, List.length_set]
      · intro i
        rw [hov i, row_bits_cons d c ds cs i hd.1, getD_set_eq _ _ _ _ hd.2]
        by_cases h : digit_val d = i
        · simp [h]
        · simp [h]

theorem foldl_mod_256 (bits : List Nat) (v : Nat) :
    bits.foldl (fun v b => (2 * v + b) % 256) (v % 256)
      = bits.foldl (fun v b => 2 * v + b) v % 256 := by
  induction bits generalizing v with
  | nil => rfl
  | cons b bs ih =>
    rw [List.foldl_cons, List.foldl_cons, ← ih]
    congr 1
    omega

theorem foldl_bits_lt (bits : List Nat) (v : Nat) (h : ∀ b ∈ bits, b < 2) :
    bits.foldl (fun v b => 2 * v + b) v + 1 ≤ (v + 1) * 2 ^ bits.length := by
  induction bits generalizing v with
  | nil => simp
  | cons b bs ih =>
    have hb : b < 2 := h b (by simp)
    have := ih (2 * v + b) (fun x hx => h x (by simp [hx]))
    rw [List.foldl_cons, List.length_cons, pow_succ]
    calc bs.foldl (fun v b => 2 * v + b) (2 * v + b) + 1
        ≤ (2 * v + b + 1) * 2 ^ bs.length := this
      _ ≤ (2 * (v + 1)) * 2 ^ bs.length := Nat.mul_le_mul_right _ (by omega)
      _ = (v + 1) * (2 ^ bs.length * 2) := by ring

theorem msb_value_lt (bits : List Nat) (h : ∀ b ∈ bits, b < 2) :
    msb_value bits < 2 ^ bits.length := by
  have := foldl_bits_lt bits 0 h
  unfold msb_value
  omega

theorem row_bits_lt_two (ds cs : List Char) (i : Nat) (hcs : ∀ c ∈ cs, c = '0' ∨ c = '1') :
    ∀ b ∈ row_bits ds cs i, b < 2 := by
  intro b hb
  unfold row_bits at hb
  rw [List.mem_map] at hb
  obtain ⟨p, hp, rfl⟩ := hb
  have hp2 := (List.mem_filter.mp hp).1
  exact (bit_char_val p.2 (hcs p.2 (List.of_mem_zip hp2).2)).2

theorem row_bits_length_le (ds cs : List Char) (i : Nat) :
    (row_bits ds cs i).length ≤ ds.countP (fun d => decide (digit_val d = i)) := by
  induction ds generalizing cs with
  | nil => simp [row_bits]
  | cons d ds ih =>
    cases cs with
    | nil => simp [row_bits]
    | cons c cs =>
      have := ih cs
      unfold row_bits at this ⊢
      rw [List.zip_cons_cons, List.filter_cons, List.countP_cons]
      by_cases h : digit_val d = i
      · by_cases hd : isdigit d = true
        · simp [h, hd] at this ⊢; omega
        · simp [h, hd] at this ⊢; omega
      · simp [h] at this ⊢; omega

/-! ## `alloc_roms` -/

theorem getD_set_gen {α : Type} (l : List α) (j i : Nat) (v d : α) :
    (l.set j v).getD i d = if j = i ∧ j < l.length then v else l.getD i d := by
  rw [List.getD_eq_getElem?_getD, List.getElem?_set, List.getD_eq_getElem?_getD]
  by_cases h : j = i
  · subst h
    by_cases hj : j < l.length
    · simp [hj]
    · simp [hj, List.getElem?_eq_none (Nat.le_of_not_lt hj)]
  · simp [h]

theorem has_image_snoc (l : List Char) (c : Char) (i : Nat) :
    has_image (l ++ [c]) i = (has_image l i || (isdigit c && decide (digit_val c = i))) := by
  simp [has_image]

theorem alloc_roms_snoc (nroms abits : Nat) (l : List Char) (c : Char) :
    alloc_roms nroms (l ++ [c]) abits = alloc_roms_step abits (alloc_roms nroms l abits) c := by
  unfold alloc_roms
  rw [List.foldl_append]
  rfl

theorem alloc_roms_spec (nroms abits : Nat) (l : List Char) :
    (alloc_roms nroms l abits).length = nroms ∧
    ∀ i, (alloc_roms nroms l abits).getD i none
      = if has_image l i = true ∧ i < nroms then some (List.replicate (2 ^ abits) 0)
        else none := by
  induction l using List.reverseRecOn with
  | nil =>
    refine ⟨by simp [alloc_roms], fun i => ?_⟩
    simp only [alloc_roms, List.foldl_nil, has_image, List.any_nil]
    rw [List.getD_eq_getElem?_getD, List.getElem?_replicate]
    by_cases h : i < nroms <;> simp [h]
  | append_singleton l c ih =>
    obtain ⟨hlen, hget⟩ := ih
    rw [alloc_roms_snoc]
    unfold alloc_roms_step
    by_cases hd : isdigit c = true
    · rw [if_pos hd]
      simp only []
      by_cases hnone : (alloc_roms nroms l abits).getD (c.toNat - 48) none = none
      · rw [if_pos hnone]
        refine ⟨by rw [List.length_set, hlen], fun i => ?_⟩
        rw [getD_set_gen, hget i, has_image_snoc, hlen, one_shl]
        have hdv : digit_val c = c.toNat - 48 := rfl
        by_cases hi : c.toNat - 48 = i
        · subst hi
          by_cases hlt : c.toNat - 48 < nroms
          · simp [hd, hdv, hlt]
          · simp [hd, hdv, hlt]
        · simp [hd, hdv, hi]
      · rw [if_neg hnone]
        refine ⟨hlen, fun i => ?_⟩
        rw [hget i, has_image_snoc]
        have hdv : digit_val c = c.toNat - 48 := rfl
        by_cases hi : c.toNat - 48 = i
        · subst hi
          rw [hget] at hnone
          by_cases hh : has_image l (c.toNat - 48) = true ∧ c.toNat - 48 < nroms
          · simp [hh.1, hh.2]
          · rw [if_neg hh] at hnone
            exact absurd rfl hnone
        · simp [hd, hdv, hi]
    · rw [if_neg hd]
      refine ⟨hlen, fun i => ?_⟩
      rw [hget i, has_image_snoc]
      simp [hd]

/-! ## The configuration line -/

theorem isdigit_mem (c : Char) (h : isdigit c = true) :
    c ∈ ['0', '1', '2', '3', '4', '5', '6', '7', '8', '9'] := by
  rw [isdigit_iff] at h
  have hc := Char.ofNat_toNat c
  have : ∀ n, 48 ≤ n ∧ n ≤ 57 →
      Char.ofNat n ∈ ['0', '1', '2', '3', '4', '5', '6', '7', '8', '9'] := by
    intro n hn
    have hn2 : n < 58 := by omega
    obtain ⟨hn1, _⟩ := hn
    interval_cases n <;> decide
  rw [← hc]
  exact this _ h

theorem has_image_iff (h : List Char) (i : Nat) :
    has_image h i = true ↔ ∃ d ∈ h, isdigit d = true ∧ digit_val d = i := by
  simp [has_image, List.any_eq_true]

theorem image_of_getElem? (h : List Char) (n : Nat) (rows : List (List Char)) (i a : Nat) :
    (image_of h n rows i)[a]?
      = if a < 2 ^ n then some (expected_byte h n rows i a) else none := by
  unfold image_of
  rw [List.getElem?_map]
  by_cases ha : a < 2 ^ n
  · rw [List.getElem?_range ha, if_pos ha]; rfl
  · rw [List.getElem?_eq_none (by simpa using ha), if_neg ha]; rfl

theorem image_of_nil (h : List Char) (n i : Nat) :
    image_of h n [] i = List.replicate (2 ^ n) 0 := by
  apply List.ext_getElem?
  intro a
  rw [image_of_getElem?, List.getElem?_replicate]
  rfl

theorem config_chars (as ds : List Char) (has : ∀ c ∈ as, c = 'A' ∨ c = 'a')
    (hds : ∀ c ∈ ds, isdigit c = true) :
    ∀ c ∈ as ++ ds, c ∈ ['0', '1', '2', '3', '4', '5', '6', '7', '8', '9', 'A', 'a'] := by
  intro c hc
  rcases List.mem_append.mp hc with h | h
  · rcases has c h with h | h <;> subst h <;> decide
  · have := isdigit_mem c (hds c h)
    simp only [List.mem_cons] at this ⊢
    tauto

theorem count_addr_header (as ds : List Char) (has : ∀ c ∈ as, c = 'A' ∨ c = 'a')
    (hds : ∀ c ∈ ds, isdigit c = true) : count_addr (as ++ ds) = as.length := by
  rw [count_addr_eq, List.countP_append]
  have h1 : as.countP (fun c => decide (c = 'A' ∨ c = 'a')) = as.length := by
    rw [List.countP_eq_length]
    intro c hc
    simpa using has c hc
  have h2 : ds.countP (fun c => decide (c = 'A' ∨ c = 'a')) = 0 := by
    rw [List.countP_eq_zero]
    intro c hc
    have hd := hds c hc
    have : ¬ (c = 'A' ∨ c = 'a') := by
      rintro (h | h) <;> subst h <;> exact absurd hd (by decide)
    simpa using this
  rw [h1, h2, Nat.add_zero]

/-- The alphabet of a configuration line. -/
theorem config_alphabet_iff (c : Char) :
    c ∈ ['0', '1', '2', '3', '4', '5', '6', '7', '8', '9', 'A', 'a']
      ↔ (isdigit c = true ∨ c = 'A' ∨ c = 'a') := by
  constructor
  · intro h
    have : ∀ x ∈ ['0', '1', '2', '3', '4', '5', '6', '7', '8', '9', 'A', 'a'],
        (isdigit x = true ∨ x = 'A' ∨ x = 'a') := by decide
    exact this c h
  · rintro (h | h | h)
    · have := isdigit_mem c h
      simp only [List.mem_cons] at this ⊢
      tauto
    · subst h; decide
    · subst h; decide

theorem count_roms_bounds (h : List Char) (hd : ∃ c ∈ h, isdigit c = true) :
    1 ≤ count_roms h ∧ count_roms h ≤ 10 ∧
      ∀ d ∈ h, isdigit d = true → digit_val d < (count_roms h).toNat := by
  obtain ⟨cm, _, hcmd, hcr, hmax⟩ := count_roms_max h hd
  have hcm10 := digit_val_lt cm hcmd
  refine ⟨by omega, by omega, fun d hd hdd => ?_⟩
  have := hmax d hd hdd
  omega

theorem process_config_invalid (s : Session) (h : List Char)
    (hv : ¬ ∀ c ∈ h, (isdigit c = true ∨ c = 'A' ∨ c = 'a')) :
    process_config s h = Except.error (Abort.error 1 (Diag.config_invalid_char s.line)) := by
  have hvalid : valid_string h ['0', '1', '2', '3', '4', '5', '6', '7', '8', '9', 'A', 'a']
      = false := by
    rw [Bool.eq_false_iff]
    intro hh
    rw [valid_string_iff] at hh
    exact hv (fun c hc => (config_alphabet_iff c).mp (hh c hc))
  simp [process_config, hvalid]

theorem process_config_no_digit (s : Session) (h : List Char)
    (hv : ∀ c ∈ h, (isdigit c = true ∨ c = 'A' ∨ c = 'a'))
    (hd : ∀ c ∈ h, isdigit c = false) :
    process_config s h = Except.error (Abort.error 2 (Diag.no_rom_number s.line)) := by
  have hvalid := (valid_string_iff h _).mpr (fun c hc => (config_alphabet_iff c).mpr (hv c hc))
  simp [process_config, hvalid, count_roms_no_digit h hd]

theorem process_config_bits (s : Session) (h : List Char)
    (hv : ∀ c ∈ h, (isdigit c = true ∨ c = 'A' ∨ c = 'a'))
    (hd : ∃ c ∈ h, isdigit c = true)
    (hb : count_addr h < 1 ∨ count_addr h > 20) :
    process_config s h = Except.error (Abort.error 3 (Diag.state_bits_range s.line)) := by
  have hvalid := (valid_string_iff h _).mpr (fun c hc => (config_alphabet_iff c).mpr (hv c hc))
  obtain ⟨h1, h2, _⟩ := count_roms_bounds h hd
  have h1' : ¬ count_roms h < 1 := by omega
  have h2' : ¬ count_roms h > (NUM_ROMS : Int) := by simp only [NUM_ROMS]; omega
  have h3 : count_addr h < 1 ∨ count_addr h > MAXBITS := by simpa only [MAXBITS] using hb
  simp only [process_config, hvalid, Bool.not_true, Bool.false_eq_true, if_false, h1', h2',
    if_pos h3]

theorem process_config_ok (s : Session) (h : List Char)
    (hv : ∀ c ∈ h, (isdigit c = true ∨ c = 'A' ∨ c = 'a'))
    (hd : ∃ c ∈ h, isdigit c = true)
    (hb1 : 1 ≤ count_addr h) (hb2 : count_addr h ≤ 20) :
    process_config s h = Except.ok { s with
      first := false, config := h, nroms := (count_roms h).toNat, abits := count_addr h,
      length := h.length,
      rom := alloc_roms (count_roms h).toNat h (count_addr h),
      data := List.replicate (count_roms h).toNat 0 } := by
  have hvalid := (valid_string_iff h _).mpr (fun c hc => (config_alphabet_iff c).mpr (hv c hc))
  obtain ⟨h1, h2, _⟩ := count_roms_bounds h hd
  have h1' : ¬ count_roms h < 1 := by omega
  have h2' : ¬ count_roms h > (NUM_ROMS : Int) := by simp only [NUM_ROMS]; omega
  have h3 : ¬ (count_addr h < 1 ∨ count_addr h > MAXBITS) := by simp only [MAXBITS]; omega
  have hcopy : copy_string h = some h := by
    obtain ⟨c, hc, _⟩ := hd
    unfold copy_string
    rw [if_neg]
    intro h0
    rw [List.length_eq_zero] at h0
    rw [h0] at hc
    exact absurd hc (by simp)
  simp only [process_config, hvalid, Bool.not_true, Bool.false_eq_true, if_false, h1', h2', h3,
    hcopy]

theorem process_line_blank (odcv : Char) (s : Session) (l : List Char)
    (hb : is_blank (strip_comment l) = true) :
    process_line odcv s l = Except.ok { s with line := s.line + 1 } := by
  simp only [process_line, hb, if_true]

theorem process_line_first (odcv : Char) (s : Session) (l : List Char)
    (hb : is_blank (strip_comment l) = false) (hf : s.first = true) :
    process_line odcv s l
      = process_config { s with line := s.line + 1 } (strip_whitespace (strip_comment l)) := by
  simp only [process_line, hb, hf, if_true, Bool.false_eq_true, if_false]

theorem process_line_row (odcv : Char) (s : Session) (l : List Char)
    (hb : is_blank (strip_comment l) = false) (hf : s.first = false) :
    process_line odcv s l
      = process_row odcv { s with line := s.line + 1 } (strip_whitespace (strip_comment l)) := by
  simp only [process_line, hb, hf, Bool.false_eq_true, if_false]

theorem process_header_ok (odcv : Char) (as ds : List Char)
    (has : ∀ c ∈ as, c = 'A' ∨ c = 'a') (hn1 : 1 ≤ as.length) (hn : as.length ≤ 20)
    (hds : ∀ c ∈ ds, isdigit c = true) (hne : ds ≠ []) :
    ∃ s, process_line odcv Session.init (as ++ ds) = Except.ok s ∧
      rows_inv (as ++ ds) as.length [] s := by
  have hchars := config_chars as ds has hds
  have hhash : ∀ c ∈ as ++ ds, c ≠ '#' := by
    intro c hc
    have : ∀ x ∈ ['0', '1', '2', '3', '4', '5', '6', '7', '8', '9', 'A', 'a'], x ≠ '#' := by
      decide
    exact this c (hchars c hc)
  have hspace : ∀ c ∈ as ++ ds, isspace c = false := by
    intro c hc
    have : ∀ x ∈ ['0', '1', '2', '3', '4', '5', '6', '7', '8', '9', 'A', 'a'],
        isspace x = false := by decide
    exact this c (hchars c hc)
  have hblank : is_blank (as ++ ds) = false := by
    cases as with
    | nil => simp at hn1
    | cons a as' => exact is_blank_cons a _ (hspace a (by simp))
  obtain ⟨d0, hd0⟩ := List.exists_mem_of_ne_nil ds hne
  have hdig : ∃ c ∈ as ++ ds, isdigit c = true := ⟨d0, by simp [hd0], hds d0 hd0⟩
  have hca := count_addr_header as ds has hds
  have hv : ∀ c ∈ as ++ ds, (isdigit c = true ∨ c = 'A' ∨ c = 'a') :=
    fun c hc => (config_alphabet_iff c).mp (hchars c hc)
  have hbounds := count_roms_bounds (as ++ ds) hdig
  have hpc := process_config_ok { Session.init with line := Session.init.line + 1 } (as ++ ds)
    hv hdig (by omega) (by omega)
  rw [process_line_first odcv _ _ (by rw [strip_comment_id _ hhash]; exact hblank) rfl,
    strip_comment_id _ hhash, strip_whitespace_id _ hspace, hpc]
  refine ⟨_, rfl, ?_⟩
  · refine ⟨rfl, rfl, hca, rfl, rfl, hbounds.2.2, ?_⟩
    intro i
    show (alloc_roms (count_roms (as ++ ds)).toNat (as ++ ds) (count_addr (as ++ ds))).getD
      i none = _
    rw [(alloc_roms_spec _ _ _).2 i, image_of_nil, hca]
    by_cases hi : has_image (as ++ ds) i = true
    · obtain ⟨d, hd, hdd, hdv⟩ := (has_image_iff _ _).mp hi
      have := hbounds.2.2 d hd hdd
      have hlt : i < (count_roms (as ++ ds)).toNat := by omega
      simp [hi, hlt]
    · simp [hi]

/-! ## One data row -/

theorem addr_char_facts (c : Char) (h : is_addr_char c) :
    c ≠ '#' ∧ isspace c = false ∧ c ≠ OUTPUT_DC ∧ c ∈ ['0', '1', 'X', 'x'] := by
  rcases h with h | h | h | h <;> subst h <;> decide

theorem row_chars (n m : Nat) (r : List Char) (hr : valid_row n m r) :
    ∀ c ∈ r, is_addr_char c := by
  intro c hc
  rw [← List.take_append_drop n r] at hc
  rcases List.mem_append.mp hc with h | h
  · exact hr.2.1 c h
  · rcases hr.2.2 c h with h | h
    · exact Or.inl h
    · exact Or.inr (Or.inl h)

theorem row_bits_append (as ds ra rd : List Char) (i : Nat)
    (hlen : ra.length = as.length) (has : ∀ c ∈ as, isdigit c = false) :
    row_bits (as ++ ds) (ra ++ rd) i = row_bits ds rd i := by
  unfold row_bits
  rw [List.zip_append hlen.symm, List.filter_append]
  have : (as.zip ra).filter (fun p => isdigit p.1 && decide (digit_val p.1 = i)) = [] := by
    rw [List.filter_eq_nil_iff]
    intro p hp
    have := has p.1 (List.of_mem_zip hp).1
    simp [this]
  rw [this, List.nil_append]

theorem expected_byte_snoc (h : List Char) (n : Nat) (done : List (List Char))
    (r : List Char) (i a : Nat) :
    expected_byte h n (done ++ [r]) i a
      = if addr_matches (r.take n) a then msb_value (row_bits h r i)
        else expected_byte h n done i a := by
  unfold expected_byte last_match
  rw [List.reverse_append, List.reverse_singleton, List.singleton_append, List.find?_cons]
  by_cases hm : addr_matches (r.take n) a
  · simp [hm]
  · simp [hm]

theorem write_range_image (h : List Char) (n : Nat) (done : List (List Char))
    (r : List Char) (i : Nat) (hn : n ≤ 20) (hlen : n ≤ r.length)
    (hr : ∀ c ∈ r.take n, is_addr_char c) :
    write_range (image_of h n done i) r n (msb_value (row_bits h r i))
      = image_of h n (done ++ [r]) i := by
  have hpl : (r.take n).length = n := by rw [List.length_take]; omega
  have himg : (image_of h n done i).length = 2 ^ n := by simp [image_of]
  apply List.ext_getElem?
  intro a
  rw [image_of_getElem?]
  by_cases ha : a < 2 ^ n
  · rw [if_pos ha, write_range_take,
      write_range_getElem? (r.take n) _ _ a (by omega) hr (by rw [hpl]; exact himg)
        (by rw [hpl]; exact ha),
      expected_byte_snoc]
    have hold : (image_of h n done i).getD a 0 = expected_byte h n done i a := by
      rw [List.getD_eq_getElem?_getD, image_of_getElem?, if_pos ha]; rfl
    rw [hold]
  · rw [if_neg ha, List.getElem?_eq_none]
    rw [write_range_length, himg]
    omega

theorem write_roms_getD (rom : List (Option (List Nat))) (ibuf : List Char) (abits : Nat)
    (data : List Nat) (i : Nat) :
    (write_roms rom ibuf abits data).getD i none
      = (rom.getD i none).map (fun img => write_range img ibuf abits (data.getD i 0)) := by
  unfold write_roms
  have h1 := List.getD_eq_getElem?_getD
    (rom.mapIdx (fun ix r => r.map (fun img => write_range img ibuf abits (data.getD ix 0))))
    i none
  have h2 := List.getD_eq_getElem?_getD rom i none
  rw [h1, h2, List.getElem?_mapIdx]
  cases rom[i]? <;> rfl

theorem process_row_valid (odcv : Char) (as ds : List Char) (done : List (List Char))
    (s : Session) (r : List Char)
    (has : ∀ c ∈ as, c = 'A' ∨ c = 'a') (hn1 : 1 ≤ as.length) (hn : as.length ≤ 20)
    (hds : ∀ c ∈ ds, isdigit c = true)
    (h8 : ∀ i, ds.countP (fun d => decide (digit_val d = i)) ≤ 8)
    (hinv : rows_inv (as ++ ds) as.length done s)
    (hr : valid_row as.length ds.length r) :
    ∃ s1, process_line odcv s r = Except.ok s1 ∧
      rows_inv (as ++ ds) as.length (done ++ [r]) s1 := by
  obtain ⟨hfirst, hconfig, habits, hlength, hdata, hnroms, hrom⟩ := hinv
  have hchars := row_chars _ _ r hr
  have hhash : ∀ c ∈ r, c ≠ '#' := fun c hc => (addr_char_facts c (hchars c hc)).1
  have hspace : ∀ c ∈ r, isspace c = false := fun c hc => (addr_char_facts c (hchars c hc)).2.1
  have hdc : ∀ c ∈ r, c ≠ OUTPUT_DC := fun c hc => (addr_char_facts c (hchars c hc)).2.2.1
  have hvalid := (valid_string_iff r ['0', '1', 'X', 'x']).mpr
    (fun c hc => (addr_char_facts c (hchars c hc)).2.2.2)
  have hblank : is_blank r = false := by
    cases r with
    | nil =>
      have := hr.1
      simp at this
      omega
    | cons c cs => exact is_blank_cons c _ (hspace c (by simp))
  have hasd : ∀ c ∈ as, isdigit c = false := by
    intro c hc
    rcases has c hc with h | h <;> subst h <;> decide
  have hsplit : r = r.take as.length ++ r.drop as.length := (List.take_append_drop _ _).symm
  have htl : (r.take as.length).length = as.length := by
    rw [List.length_take, hr.1]; omega
  have hdl : (r.drop as.length).length = ds.length := by
    rw [List.length_drop, hr.1]; omega
  obtain ⟨out, hout, houtl, houtv⟩ := parse_data_loop_spec (as ++ ds) (r.drop as.length) ds
    as.length (List.replicate s.nroms 0) (List.drop_left _ _) hdl hr.2.2
    (fun d hd => ⟨hds d hd, by
      rw [List.length_replicate]
      exact hnroms d (by simp [hd]) (hds d hd)⟩)
  have hval : ∀ i, out.getD i 0 = msb_value (row_bits (as ++ ds) r i) := by
    intro i
    have hrb : row_bits (as ++ ds) r i = row_bits ds (r.drop as.length) i := by
      conv_lhs => rw [hsplit]
      exact row_bits_append as ds _ _ i htl hasd
    have hz : (List.replicate s.nroms 0).getD i 0 = 0 % 256 := by
      rw [List.getD_eq_getElem?_getD, List.getElem?_replicate]
      by_cases h : i < s.nroms <;> simp [h]
    have hb2 := row_bits_lt_two ds (r.drop as.length) i hr.2.2
    have hlt := msb_value_lt _ hb2
    have hle := row_bits_length_le ds (r.drop as.length) i
    have hpow : 2 ^ (row_bits ds (r.drop as.length) i).length ≤ 2 ^ 8 :=
      Nat.pow_le_pow_right (by norm_num) (le_trans hle (h8 i))
    rw [houtv i, hz, foldl_mod_256, hrb]
    unfold msb_value at hlt ⊢
    exact Nat.mod_eq_of_lt (by omega)
  have hparse : parse_data r (as ++ ds) as.length (List.replicate s.nroms 0)
      = ParseResult.ok out := hout
  have hlen2 : ¬ r.length ≠ (as ++ ds).length := by
    rw [hr.1, List.length_append]; simp
  rw [process_line_row odcv s r (by rw [strip_comment_id _ hhash]; exact hblank) hfirst,
    strip_comment_id _ hhash, strip_whitespace_id _ hspace]
  simp only [process_row, translate_id _ _ _ hdc, hvalid, Bool.not_true, Bool.false_eq_true,
    if_false, hlength, hlen2, hconfig, habits, hdata, hparse]
  refine ⟨_, rfl, ?_⟩
  refine ⟨hfirst, rfl, rfl, rfl, rfl, hnroms, ?_⟩
  intro i
  show (write_roms s.rom r as.length out).getD i none = _
  rw [write_roms_getD, hrom i, hval i]
  by_cases hi : has_image (as ++ ds) i = true
  · rw [if_pos hi, if_pos hi, Option.map_some',
      write_range_image _ _ _ _ _ hn (by rw [hr.1]; omega) hr.2.1]
  · rw [if_neg hi, if_neg hi]; rfl

theorem process_rows_ok (odcv : Char) (as ds : List Char)
    (has : ∀ c ∈ as, c = 'A' ∨ c = 'a') (hn1 : 1 ≤ as.length) (hn : as.length ≤ 20)
    (hds : ∀ c ∈ ds, isdigit c = true)
    (h8 : ∀ i, ds.countP (fun d => decide (digit_val d = i)) ≤ 8)
    (rows : List (List Char)) :
    ∀ (done : List (List Char)) (s : Session),
      rows_inv (as ++ ds) as.length done s →
      (∀ r ∈ rows, valid_row as.length ds.length r) →
      ∃ s1, process_lines odcv s rows = Except.ok s1 ∧
        rows_inv (as ++ ds) as.length (done ++ rows) s1 := by
  induction rows with
  | nil =>
    intro done s hinv _
    exact ⟨s, rfl, by simpa using hinv⟩
  | cons r rest ih =>
    intro done s hinv hrows
    obtain ⟨s1, hs1, hinv1⟩ := process_row_valid odcv as ds done s r has hn1 hn hds h8 hinv
      (hrows r (by simp))
    obtain ⟨s2, hs2, hinv2⟩ := ih (done ++ [r]) s1 hinv1 (fun x hx => hrows x (by simp [hx]))
    refine ⟨s2, ?_, by simpa using hinv2⟩
    simp only [process_lines, hs1]
    exact hs2

/-! ## C2 -/

/-- C2: for a header of `n` address columns (`1 ≤ n ≤ 20`) followed by image
digits, each image having at most 8 columns, and any sequence of valid data
rows, the row loop of `process_file` ends normally; every image named in the
header is allocated, and every allocated image `i` has `2 ^ n` bytes whose
value at each address `a < 2 ^ n` is the most-significant-bit-first value of
the image-`i` bits of the last row whose address pattern matches `a`, and 0
when no row matches. -/
theorem process_lines_images (odcv : Char) (as ds : List Char) (rows : List (List Char))
    (has : ∀ c ∈ as, c = 'A' ∨ c = 'a') (hn1 : 1 ≤ as.length) (hn : as.length ≤ 20)
    (hds : ∀ c ∈ ds, isdigit c = true) (hne : ds ≠ [])
    (h8 : ∀ i, ds.countP (fun d => decide (digit_val d = i)) ≤ 8)
    (hrows : ∀ r ∈ rows, valid_row as.length ds.length r) :
    ∃ s, process_lines odcv Session.init ((as ++ ds) :: rows) = Except.ok s ∧
      (∀ d ∈ ds, ∃ img, s.rom.getD (digit_val d) none = some img) ∧
      ∀ i img, s.rom.getD i none = some img →
        img.length = 2 ^ as.length ∧
        ∀ a, a < 2 ^ as.length →
          img.getD a 0 = expected_byte (as ++ ds) as.length rows i a := by
  obtain ⟨s0, hs0, hinv0⟩ := process_header_ok odcv as ds has hn1 hn hds hne
  obtain ⟨s, hs, hinv⟩ := process_rows_ok odcv as ds has hn1 hn hds h8 rows [] s0 hinv0 hrows
  rw [List.nil_append] at hinv
  refine ⟨s, ?_, ?_, ?_⟩
  · simp only [process_lines, hs0]
    exact hs
  · intro d hd
    have hi : has_image (as ++ ds) (digit_val d) = true :=
      (has_image_iff _ _).mpr ⟨d, by simp [hd], hds d hd, rfl⟩
    exact ⟨_, by rw [hinv.2.2.2.2.2.2 (digit_val d), if_pos hi]⟩
  · intro i img himg
    rw [hinv.2.2.2.2.2.2 i] at himg
    by_cases hi : has_image (as ++ ds) i = true
    · rw [if_pos hi] at himg
      have himg2 : image_of (as ++ ds) as.length rows i = img := Option.some.inj himg
      subst himg2
      refine ⟨by simp [image_of], fun a ha => ?_⟩
      rw [List.getD_eq_getElem?_getD, image_of_getElem?, if_pos ha]
      rfl
    · rw [if_neg hi] at himg
      exact absurd himg (by simp)

theorem process_lines_images_witness :
    ∃ s, process_lines '1' Session.init
        ((['A', 'A'] ++ ['0', '1']) :: [['0', '0', '1', '0'], ['1', 'x', '1', '1']])
          = Except.ok s ∧
      (∀ d ∈ ['0', '1'], ∃ img, s.rom.getD (digit_val d) none = some img) ∧
      ∀ i img, s.rom.getD i none = some img →
        img.length = 2 ^ ['A', 'A'].length ∧
        ∀ a, a < 2 ^ ['A', 'A'].length →
          img.getD a 0 = expected_byte (['A', 'A'] ++ ['0', '1']) ['A', 'A'].length
            [['0', '0', '1', '0'], ['1', 'x', '1', '1']] i a :=
  process_lines_images '1' ['A', 'A'] ['0', '1']
    [['0', '0', '1', '0'], ['1', 'x', '1', '1']]
    (by decide) (by decide) (by decide) (by decide) (by decide)
    (fun _ => le_trans (List.countP_le_length _) (by decide : ['0', '1'].length ≤ 8))
    (by decide)

/-- The example of the specification: header `AA01` with rows `0010` and `1x11`
gives image 0 = `[1, 0, 1, 1]` and image 1 = `[0, 0, 1, 1]`. -/
theorem process_lines_example :
    (process_lines '1' Session.init
        [['A', 'A', '0', '1'], ['0', '0', '1', '0'], ['1', 'x', '1', '1']]).toOption.map
          (fun s => s.rom)
      = some [some [1, 0, 1, 1], some [0, 0, 1, 1]] := by
  decide

/-! ## Hexadecimal output -/

theorem hexDigit_zero : hexDigit 0 = '0' := by decide

theorem hex_val_hexDigit (d : Nat) (h : d < 16) : hex_val (hexDigit d) = some d := by
  interval_cases d <;> decide

theorem hexDigit_ne_newline (d : Nat) (h : d < 16) : hexDigit d ≠ '\n' := by
  interval_cases d <;> decide

theorem hex_fixed_zero (w : Nat) : hex_fixed w 0 = List.replicate w '0' := by
  induction w with
  | zero => rfl
  | succ w ih =>
    rw [hex_fixed, Nat.zero_div, ih, Nat.zero_mod, hexDigit_zero, List.replicate_succ']

theorem hex_fixed_length (w n : Nat) : (hex_fixed w n).length = w := by
  induction w generalizing n with
  | zero => rfl
  | succ w ih => rw [hex_fixed, List.length_append, ih]; rfl

theorem hexDigitsAux_spec (fuel : Nat) :
    ∀ (n w : Nat) (acc : List Char), n < fuel → n < 16 ^ w → 1 ≤ w →
      (hexDigitsAux fuel n acc).length ≤ w + acc.length ∧
      List.replicate (w + acc.length - (hexDigitsAux fuel n acc).length) '0'
          ++ hexDigitsAux fuel n acc
        = hex_fixed w n ++ acc := by
  induction fuel with
  | zero => intro n w acc h; omega
  | succ fuel ih =>
    intro n w acc hfuel hn hw
    obtain ⟨w1, rfl⟩ : ∃ w1, w = w1 + 1 := ⟨w - 1, by omega⟩
    rw [hexDigitsAux]
    by_cases h0 : n / 16 = 0
    · rw [if_pos h0]
      have hsmall : n % 16 = n := by omega
      have hpad : w1 + 1 + acc.length - (hexDigit (n % 16) :: acc).length = w1 := by
        rw [List.length_cons]; omega
      refine ⟨by rw [List.length_cons]; omega, ?_⟩
      rw [hpad, hex_fixed, h0, hex_fixed_zero, hsmall]
      simp
    · rw [if_neg h0]
      have hn16 : n / 16 < 16 ^ w1 := by
        rw [pow_succ] at hn
        omega
      have hw1 : 1 ≤ w1 := by
        rcases Nat.eq_zero_or_pos w1 with h | h
        · subst h; simp at hn16; omega
        · exact h
      obtain ⟨hl, he⟩ := ih (n / 16) w1 (hexDigit (n % 16) :: acc) (by omega) hn16 hw1
      rw [List.length_cons] at hl he
      refine ⟨by omega, ?_⟩
      have : w1 + 1 + acc.length = w1 + (acc.length + 1) := by omega
      rw [this, he, hex_fixed]
      simp

theorem fmtX_eq_fixed (w n : Nat) (hw : 1 ≤ w) (hn : n < 16 ^ w) :
    fmtX w n = hex_fixed w n := by
  have := (hexDigitsAux_spec (n + 1) n w [] (by omega) hn hw).2
  simpa [fmtX] using this

theorem fmtX2 (b : Nat) (h : b < 256) :
    fmtX 2 b = [hexDigit (b / 16), hexDigit (b % 16)] := by
  rw [fmtX_eq_fixed 2 b (by norm_num) (by norm_num; omega)]
  have : b / 16 % 16 = b / 16 := by omega
  simp [hex_fixed, this]

theorem fmtX4 (n : Nat) (h : n < 65536) :
    fmtX 4 n = [hexDigit (n / 4096), hexDigit (n / 256 % 16),
      hexDigit (n / 16 % 16), hexDigit (n % 16)] := by
  rw [fmtX_eq_fixed 4 n (by norm_num) (by norm_num; omega)]
  have h1 : n / 16 / 16 / 16 % 16 = n / 4096 := by omega
  have h2 : n / 16 / 16 % 16 = n / 256 % 16 := by omega
  simp [hex_fixed, h1, h2]

theorem hex_bytes_pair (a b : Char) (x y : Nat) (rest : List Char)
    (ha : hex_val a = some x) (hb : hex_val b = some y) :
    hex_bytes (a :: b :: rest) = (hex_bytes rest).map (fun bs => (16 * x + y) :: bs) := by
  rw [hex_bytes, ha, hb]
  cases hex_bytes rest <;> rfl

theorem hex_bytes_fmtX2 (b : Nat) (h : b < 256) (rest : List Char) :
    hex_bytes (fmtX 2 b ++ rest) = (hex_bytes rest).map (fun bs => b :: bs) := by
  rw [fmtX2 b h]
  have : 16 * (b / 16) + b % 16 = b := by omega
  rw [List.cons_append, List.cons_append, List.nil_append,
    hex_bytes_pair _ _ _ _ rest (hex_val_hexDigit (b / 16) (by omega))
      (hex_val_hexDigit (b % 16) (by omega)), this]

theorem hex_bytes_fmtX4 (n : Nat) (h : n < 65536) (rest : List Char) :
    hex_bytes (fmtX 4 n ++ rest)
      = (hex_bytes rest).map (fun bs => n / 256 :: n % 256 :: bs) := by
  rw [fmtX4 n h]
  have h1 : 16 * (n / 4096) + n / 256 % 16 = n / 256 := by omega
  have h2 : 16 * (n / 16 % 16) + n % 16 = n % 256 := by omega
  simp only [List.cons_append, List.nil_append]
  rw [hex_bytes_pair _ _ _ _ _ (hex_val_hexDigit (n / 4096) (by omega))
      (hex_val_hexDigit (n / 256 % 16) (by omega)),
    hex_bytes_pair _ _ _ _ _ (hex_val_hexDigit (n / 16 % 16) (by omega))
      (hex_val_hexDigit (n % 16) (by omega)), h1, h2]
  cases hex_bytes rest <;> rfl

theorem fmtX_no_newline (w n : Nat) (hw : 1 ≤ w) (hn : n < 16 ^ w) :
    ∀ c ∈ fmtX w n, c ≠ '\n' := by
  rw [fmtX_eq_fixed w n hw hn]
  clear hn hw
  induction w generalizing n with
  | zero => simp [hex_fixed]
  | succ w ih =>
    intro c hc
    rw [hex_fixed, List.mem_append] at hc
    rcases hc with hc | hc
    · exact ih _ c hc
    · rw [List.mem_singleton] at hc
      rw [hc]
      exact hexDigit_ne_newline _ (Nat.mod_lt _ (by norm_num))

/-! ## Lines of a stream -/

theorem split_lines_aux_line (body rest acc : List Char) (h : ∀ c ∈ body, c ≠ '\n') :
    split_lines_aux acc (body ++ '\n' :: rest) = (acc ++ body) :: split_lines_aux [] rest := by
  induction body generalizing acc with
  | nil => simp [split_lines_aux]
  | cons c cs ih =>
    have hc : c ≠ '\n' := h c (by simp)
    rw [List.cons_append, split_lines_aux, if_neg hc, ih _ (fun x hx => h x (by simp [hx]))]
    simp

theorem split_lines_lines_of (bodies : List (List Char))
    (h : ∀ b ∈ bodies, ∀ c ∈ b, c ≠ '\n') : split_lines (lines_of bodies) = bodies := by
  induction bodies with
  | nil => rfl
  | cons b bs ih =>
    have hb := h b (by simp)
    have := ih (fun x hx => h x (by simp [hx]))
    unfold split_lines lines_of at this ⊢
    rw [List.map_cons, List.flatten_cons, List.append_assoc, List.singleton_append,
      split_lines_aux_line _ _ _ hb, this, List.nil_append]

theorem lines_of_append (a b : List (List Char)) :
    lines_of (a ++ b) = lines_of a ++ lines_of b := by
  simp [lines_of]

/-! ## Bit masks as arithmetic -/

theorem and_255 (x : Nat) : x &&& 255 = x % 256 :=
  Nat.and_pow_two_sub_one_eq_mod x 8

theorem and_FFFF (x : Nat) : x &&& 0xFFFF = x % 65536 :=
  Nat.and_pow_two_sub_one_eq_mod x 16

theorem SEGMENT_eq (a : Nat) : SEGMENT a = a / 65536 % 16 * 4096 := by
  unfold SEGMENT
  rw [Nat.shiftLeft_eq, Nat.shiftRight_eq_div_pow]
  have : (a / 2 ^ 16) &&& 0xF = a / 2 ^ 16 % 16 := Nat.and_pow_two_sub_one_eq_mod _ 4
  rw [this]
  norm_num

theorem SEGMENT_lt (a : Nat) : SEGMENT a < 65536 := by
  rw [SEGMENT_eq]; omega

theorem SEGMENT_change (j : Nat) :
    SEGMENT (16 * j) ≠ SEGMENT (16 * j - 16) ↔ (0 < 16 * j ∧ 16 * j % 65536 = 0) := by
  rw [SEGMENT_eq, SEGMENT_eq]
  omega

theorem negate_byte_eq (out : Nat) (h : out < 256) : negate_byte out = (256 - out) % 256 := by
  unfold negate_byte
  omega

/-! ## The loop of `dump_intel` -/

theorem write_data_record_eq (data : List Nat) (len addr : Nat) :
    write_data_record data len addr = data_line data len addr ++ ['\n'] := rfl

theorem write_offset_record_eq (offset : Nat) :
    write_offset_record offset = offset_line offset ++ ['\n'] := rfl

theorem write_end_record_eq : write_end_record = end_line ++ ['\n'] := rfl

theorem chunk_text_eq (rom : List Nat) (j len : Nat) :
    (if SEGMENT (16 * j) ≠ SEGMENT (16 * j - 16) then write_offset_record (SEGMENT (16 * j))
      else [])
      ++ write_data_record (rom.drop (16 * j)) len ((16 * j) &&& 0xFFFF)
    = lines_of (chunk_lines rom (16 * j) len) := by
  unfold chunk_lines
  rw [and_FFFF, write_data_record_eq, write_offset_record_eq]
  by_cases h : SEGMENT (16 * j) ≠ SEGMENT (16 * j - 16)
  · rw [if_pos h, if_pos ((SEGMENT_change j).mp h)]
    simp [lines_of]
  · rw [if_neg h, if_neg (fun hh => h ((SEGMENT_change j).mpr hh))]
    simp [lines_of]

theorem dump_intel_loop_spec (rom : List Nat) (rlen : Nat) (n : Nat) :
    ∀ j, j + n = rlen / 16 →
      dump_intel_loop rom rlen (16 * j) (SEGMENT (16 * j - 16))
        = (lines_of ((List.range' j n).flatMap (fun i => chunk_lines rom (16 * i) 16)),
            16 * (rlen / 16), SEGMENT (16 * (rlen / 16) - 16)) := by
  induction n with
  | zero =>
    intro j hj
    rw [dump_intel_loop, if_neg (by simp only [CHUNK_SIZE]; omega)]
    have : j = rlen / 16 := by omega
    subst this
    rfl
  | succ n ih =>
    intro j hj
    have hcond : 16 * j + CHUNK_SIZE ≤ rlen := by simp only [CHUNK_SIZE]; omega
    have hnext : 16 * j + CHUNK_SIZE = 16 * (j + 1) := by simp only [CHUNK_SIZE]; omega
    have hseg : (if SEGMENT (16 * j) ≠ SEGMENT (16 * j - 16) then SEGMENT (16 * j)
        else SEGMENT (16 * j - 16)) = SEGMENT (16 * (j + 1) - 16) := by
      have : 16 * (j + 1) - 16 = 16 * j := by omega
      rw [this]
      by_cases h : SEGMENT (16 * j) ≠ SEGMENT (16 * j - 16)
      · rw [if_pos h]
      · rw [if_neg h]; exact (not_not.mp h).symm
    rw [dump_intel_loop, if_pos hcond]
    simp only [hseg, hnext]
    rw [ih (j + 1) (by omega)]
    simp only [CHUNK_SIZE]
    rw [chunk_text_eq, List.range'_succ, List.flatMap_cons, lines_of_append]

theorem dump_intel_eq_lines (rom : List Nat) (rlen : Nat) :
    dump_intel rom rlen = lines_of (intel_lines rom rlen) := by
  have hloop := dump_intel_loop_spec rom rlen (rlen / 16) 0 (by omega)
  have h0 : SEGMENT (16 * 0 - 16) = 0 := by decide
  rw [h0, Nat.mul_zero] at hloop
  unfold dump_intel intel_lines
  simp only [hloop]
  rw [write_offset_record_eq, write_end_record_eq, List.range_eq_range']
  by_cases hr : rlen % 16 ≠ 0
  · rw [if_pos (by omega), if_pos hr]
    have hlen : rlen - 16 * (rlen / 16) = rlen % 16 := by omega
    rw [hlen, chunk_text_eq]
    simp [lines_of]
  · rw [if_neg (by omega), if_neg hr]
    simp [lines_of]

/-! ## Bytes and checksums of the records -/

theorem hex_bytes_payload (bs : List Nat) (h : ∀ b ∈ bs, b < 256) (rest : List Char) :
    hex_bytes ((bs.map (fmtX 2)).flatten ++ rest)
      = (hex_bytes rest).map (fun t => bs ++ t) := by
  induction bs with
  | nil => simp
  | cons b bs ih =>
    rw [List.map_cons, List.flatten_cons, List.append_assoc,
      hex_bytes_fmtX2 b (h b (by simp)), ih (fun x hx => h x (by simp [hx]))]
    cases hex_bytes rest <;> rfl

theorem foldl_sum_mod (l : List Nat) (f : Nat → Nat) (s0 : Nat) :
    (l.foldl (fun s ix => (s + f ix) % UINT_MOD) s0) % 256 = (s0 + (l.map f).sum) % 256 := by
  induction l generalizing s0 with
  | nil => simp
  | cons x xs ih =>
    rw [List.foldl_cons, ih, List.map_cons, List.sum_cons]
    simp only [UINT_MOD]
    omega

theorem negate_byte_lt (out : Nat) : negate_byte out < 256 := by
  unfold negate_byte
  omega

theorem getD_lt_of_bytes (data : List Nat) (h : is_bytes data) (ix : Nat) :
    data.getD ix 0 < 256 := by
  rw [List.getD_eq_getElem?_getD]
  by_cases hix : ix < data.length
  · rw [List.getElem?_eq_getElem hix]
    exact h _ (List.getElem_mem hix)
  · rw [List.getElem?_eq_none (by omega)]
    simp

theorem is_bytes_drop (rom : List Nat) (h : is_bytes rom) (c : Nat) : is_bytes (rom.drop c) :=
  fun b hb => h b (List.mem_of_mem_drop hb)

theorem data_checksum_sum (data : List Nat) (len addr : Nat) (hl : len < 256) :
    (len + addr / 256 + addr % 256 + DATA_REC
        + ((List.range len).map (fun ix => data.getD ix 0)).sum
        + compute_data_checksum (len % 256) addr data) % 256 = 0 := by
  have hfold := foldl_sum_mod (List.range len) (fun ix => data.getD ix 0)
    ((((len + addr / 256 % 256) % UINT_MOD + addr % 256) % UINT_MOD + DATA_REC) % UINT_MOD)
  simp only [compute_data_checksum, Nat.mod_eq_of_lt hl, and_255, Nat.shiftRight_eq_div_pow,
    CHAR_BIT, UCHAR_MAX]
  rw [negate_byte_eq _ (Nat.mod_lt _ (by norm_num))]
  norm_num at hfold ⊢
  rw [hfold]
  simp only [UINT_MOD, DATA_REC]
  omega

theorem offset_checksum_sum (v : Nat) :
    (2 + 0 + 0 + OFFSET_REC + v / 256 + v % 256 + compute_offset_checksum v) % 256 = 0 := by
  simp only [compute_offset_checksum, and_255, Nat.shiftRight_eq_div_pow, CHAR_BIT, UCHAR_MAX]
  rw [negate_byte_eq _ (Nat.mod_lt _ (by norm_num))]
  simp only [UINT_MOD, OFFSET_REC]
  omega

theorem compute_data_checksum_lt (count addr : Nat) (data : List Nat) :
    compute_data_checksum count addr data < 256 := negate_byte_lt _

theorem compute_offset_checksum_lt (v : Nat) : compute_offset_checksum v < 256 :=
  negate_byte_lt _

theorem record_bytes_colon (rest : List Char) : record_bytes (':' :: rest) = hex_bytes rest := by
  simp [record_bytes]

theorem data_line_bytes (data : List Nat) (len addr : Nat) (hl : len < 256)
    (ha : addr < 65536) (hd : is_bytes data) :
    record_bytes (data_line data len addr)
      = some (len :: addr / 256 :: addr % 256 :: DATA_REC ::
          ((List.range len).map (fun ix => data.getD ix 0)
            ++ [compute_data_checksum (len % 256) addr data])) := by
  have hpay : (List.range len).map (fun ix => fmtX 2 (data.getD ix 0))
      = ((List.range len).map (fun ix => data.getD ix 0)).map (fmtX 2) := by
    rw [List.map_map]; rfl
  have hpb : ∀ b ∈ (List.range len).map (fun ix => data.getD ix 0), b < 256 := by
    intro b hb
    rw [List.mem_map] at hb
    obtain ⟨ix, _, rfl⟩ := hb
    exact getD_lt_of_bytes data hd ix
  have hlast : hex_bytes (fmtX 2 (compute_data_checksum (len % 256) addr data))
      = some [compute_data_checksum (len % 256) addr data] := by
    have := hex_bytes_fmtX2 _ (compute_data_checksum_lt (len % 256) addr data) []
    rw [List.append_nil] at this
    rw [this]; rfl
  unfold data_line
  rw [hpay]
  simp only [List.append_assoc, List.cons_append]
  rw [record_bytes_colon, hex_bytes_fmtX2 len hl, hex_bytes_fmtX4 addr ha,
    hex_bytes_fmtX2 DATA_REC (by decide), hex_bytes_payload _ hpb, hlast]
  rfl

theorem offset_line_bytes (v : Nat) (hv : v < 65536) :
    record_bytes (offset_line v)
      = some [2, 0, 0, OFFSET_REC, v / 256, v % 256, compute_offset_checksum v] := by
  have hlast : hex_bytes (fmtX 2 (compute_offset_checksum v))
      = some [compute_offset_checksum v] := by
    have := hex_bytes_fmtX2 _ (compute_offset_checksum_lt v) []
    rw [List.append_nil] at this
    rw [this]; rfl
  have h0 : hex_val '0' = some 0 := by decide
  have h2 : hex_val '2' = some 2 := by decide
  unfold offset_line
  simp only [List.append_assoc, List.cons_append, List.nil_append]
  rw [record_bytes_colon, hex_bytes_pair _ _ _ _ _ h0 h2, hex_bytes_pair _ _ _ _ _ h0 h0,
    hex_bytes_pair _ _ _ _ _ h0 h0, hex_bytes_fmtX2 OFFSET_REC (by decide),
    hex_bytes_fmtX4 v hv, hlast]
  rfl

theorem end_line_bytes : record_bytes end_line = some [0, 0, 0, END_REC, 255] := by
  decide

theorem data_line_no_newline (data : List Nat) (len addr : Nat) (hl : len < 256)
    (ha : addr < 65536) (hd : is_bytes data) :
    ∀ c ∈ data_line data len addr, c ≠ '\n' := by
  have f2 : ∀ b, b < 256 → ∀ c ∈ fmtX 2 b, c ≠ '\n' :=
    fun b hb => fmtX_no_newline 2 b (by norm_num) (by norm_num; omega)
  have f4 := fmtX_no_newline 4 addr (by norm_num) (by norm_num; omega)
  intro c hc
  unfold data_line at hc
  simp only [List.mem_append, List.mem_cons, List.mem_flatten, List.mem_map,
    List.mem_range] at hc
  rcases hc with (((rfl | hc) | (hc | hc)) | ⟨l, ⟨ix, _, rfl⟩, hc⟩) | hc
  · decide
  · exact f2 len hl c hc
  · exact f4 c hc
  · exact f2 DATA_REC (by decide) c hc
  · exact f2 _ (getD_lt_of_bytes data hd ix) c hc
  · exact f2 _ (compute_data_checksum_lt _ _ _) c hc

theorem offset_line_no_newline (v : Nat) (hv : v < 65536) :
    ∀ c ∈ offset_line v, c ≠ '\n' := by
  have f2 : ∀ b, b < 256 → ∀ c ∈ fmtX 2 b, c ≠ '\n' :=
    fun b hb => fmtX_no_newline 2 b (by norm_num) (by norm_num; omega)
  have f4 := fmtX_no_newline 4 v (by norm_num) (by norm_num; omega)
  intro c hc
  unfold offset_line at hc
  simp only [List.mem_append, List.mem_cons] at hc
  rcases hc with ((hc | hc) | hc) | hc
  · have : ∀ x ∈ [':', '0', '2', '0', '0', '0', '0'], x ≠ '\n' := by decide
    exact this c (by simpa using hc)
  · exact f2 OFFSET_REC (by decide) c hc
  · exact f4 c hc
  · exact f2 _ (compute_offset_checksum_lt v) c hc

theorem end_line_no_newline : ∀ c ∈ end_line, c ≠ '\n' := by
  decide

/-! ## The lines of `dump_intel` -/

theorem chunk_lines_cases (rom : List Nat) (c len : Nat) (line : List Char)
    (h : line ∈ chunk_lines rom c len) :
    (∃ v, v < 65536 ∧ line = offset_line v) ∨
      line = data_line (rom.drop c) len (c % 65536) := by
  unfold chunk_lines at h
  rw [List.mem_append] at h
  rcases h with h | h
  · split at h
    · rw [List.mem_singleton] at h
      exact Or.inl ⟨_, SEGMENT_lt c, h⟩
    · simp at h
  · rw [List.mem_singleton] at h
    exact Or.inr h

theorem intel_lines_cases (rom : List Nat) (rlen : Nat) (line : List Char)
    (h : line ∈ intel_lines rom rlen) :
    (∃ v, v < 65536 ∧ line = offset_line v) ∨
      (∃ c len, len ≤ 16 ∧ line = data_line (rom.drop c) len (c % 65536)) ∨
      line = end_line := by
  unfold intel_lines at h
  simp only [List.mem_append, List.mem_singleton, List.mem_flatMap, List.mem_range] at h
  rcases h with ((h | ⟨j, _, h⟩) | h) | h
  · exact Or.inl ⟨0, by norm_num, h⟩
  · rcases chunk_lines_cases _ _ _ _ h with h | h
    · exact Or.inl h
    · exact Or.inr (Or.inl ⟨_, 16, le_refl _, h⟩)
  · split at h
    · rcases chunk_lines_cases _ _ _ _ h with h | h
      · exact Or.inl h
      · exact Or.inr (Or.inl ⟨_, rlen % 16, by omega, h⟩)
    · simp at h
  · exact Or.inr (Or.inr h)

theorem intel_lines_no_newline (rom : List Nat) (rlen : Nat) (hb : is_bytes rom) :
    ∀ b ∈ intel_lines rom rlen, ∀ c ∈ b, c ≠ '\n' := by
  intro b hbm
  rcases intel_lines_cases rom rlen b hbm with ⟨v, hv, rfl⟩ | ⟨c, len, hl, rfl⟩ | rfl
  · exact offset_line_no_newline v hv
  · exact data_line_no_newline _ len _ (by omega) (Nat.mod_lt _ (by norm_num))
      (is_bytes_drop rom hb c)
  · exact end_line_no_newline

theorem split_lines_dump_intel (rom : List Nat) (rlen : Nat) (hb : is_bytes rom) :
    split_lines (dump_intel rom rlen) = intel_lines rom rlen := by
  rw [dump_intel_eq_lines, split_lines_lines_of _ (intel_lines_no_newline rom rlen hb)]

/-! ## C3 -/

/-- C3: every line `dump_intel` writes, read as a colon followed by
hexadecimal byte pairs (length, two address bytes, type, payload, checksum),
has bytes that sum to 0 modulo 256. -/
theorem dump_intel_checksum (rom : List Nat) (rlen : Nat) (hb : is_bytes rom) :
    ∀ line ∈ split_lines (dump_intel rom rlen),
      ∃ bs, record_bytes line = some bs ∧ bs.sum % 256 = 0 := by
  intro line hline
  rw [split_lines_dump_intel rom rlen hb] at hline
  rcases intel_lines_cases rom rlen line hline with ⟨v, hv, rfl⟩ | ⟨c, len, hl, rfl⟩ | rfl
  · refine ⟨_, offset_line_bytes v hv, ?_⟩
    have := offset_checksum_sum v
    simp only [List.sum_cons, List.sum_nil] at this ⊢
    omega
  · refine ⟨_, data_line_bytes _ len _ (by omega) (Nat.mod_lt _ (by norm_num))
      (is_bytes_drop rom hb c), ?_⟩
    have := data_checksum_sum (rom.drop c) len (c % 65536) (by omega)
    simp only [List.sum_cons, List.sum_append, List.sum_nil] at this ⊢
    omega
  · exact ⟨_, end_line_bytes, by decide⟩

theorem dump_intel_checksum_witness :
    is_bytes [1, 2, 3] ∧
      ∀ line ∈ split_lines (dump_intel [1, 2, 3] 3),
        ∃ bs, record_bytes line = some bs ∧ bs.sum % 256 = 0 :=
  ⟨by decide, dump_intel_checksum [1, 2, 3] 3 (by decide)⟩

/-! ## Decoding the lines of `dump_intel` -/

theorem parse_offset_line (v : Nat) (hv : v < 65536) :
    parse_record (offset_line v) = some (Record.offset v) := by
  have hsum := offset_checksum_sum v
  have hval : 256 * (v / 256) + v % 256 = v := by omega
  unfold parse_record
  rw [offset_line_bytes v hv]
  simp only [OFFSET_REC] at hsum ⊢
  simp only [List.length_cons, List.length_nil, List.sum_cons, List.sum_nil, List.getD_cons_zero,
    List.getD_cons_succ]
  rw [if_pos ⟨by norm_num, by omega⟩]
  simp [hval]

theorem parse_end_line : parse_record end_line = some Record.eof := by
  decide

theorem getD_drop (rom : List Nat) (c ix : Nat) : (rom.drop c).getD ix 0 = rom.getD (c + ix) 0 := by
  rw [List.getD_eq_getElem?_getD, List.getD_eq_getElem?_getD, List.getElem?_drop]

theorem payload_eq (rom : List Nat) (c len : Nat) :
    (List.range len).map (fun ix => (rom.drop c).getD ix 0)
      = (List.range' c len).map (fun a => rom.getD a 0) := by
  rw [List.range'_eq_map_range, List.map_map]
  apply List.map_congr_left
  intro ix _
  simp only [Function.comp, getD_drop]

theorem parse_data_line (rom : List Nat) (c len : Nat) (hl : len < 256) (hb : is_bytes rom) :
    parse_record (data_line (rom.drop c) len (c % 65536))
      = some (Record.data (c % 65536) ((List.range' c len).map (fun a => rom.getD a 0))) := by
  have ha : c % 65536 < 65536 := Nat.mod_lt _ (by norm_num)
  have hsum := data_checksum_sum (rom.drop c) len (c % 65536) hl
  have hval : 256 * (c % 65536 / 256) + c % 65536 % 256 = c % 65536 := by omega
  unfold parse_record
  rw [data_line_bytes _ len _ hl ha (is_bytes_drop rom hb c)]
  simp only [DATA_REC] at hsum ⊢
  simp only [List.length_append, List.length_map, List.length_range, List.length_cons,
    List.length_nil, List.sum_append, List.sum_cons, List.sum_nil]
  rw [if_pos ⟨by norm_num, by omega⟩]
  rw [if_pos trivial, hval, List.dropLast_concat, payload_eq]

theorem chunk_parse (rom : List Nat) (len c l : Nat) (hl : l = min 16 (len - c))
    (hb : is_bytes rom) :
    (chunk_lines rom c l).map parse_record = (chunk_records rom len c).map some := by
  have hl16 : l < 256 := by omega
  unfold chunk_lines chunk_records
  rw [List.map_append, List.map_append, List.map_singleton, List.map_singleton,
    parse_data_line rom c l hl16 hb, hl]
  congr 1
  by_cases h : 0 < c ∧ c % 65536 = 0
  · rw [if_pos h, if_pos h, List.map_singleton, List.map_singleton,
      parse_offset_line _ (SEGMENT_lt c)]
    rfl
  · rw [if_neg h, if_neg h]; rfl

theorem range_chunks (len : Nat) :
    List.range ((len + 15) / 16)
      = List.range (len / 16) ++ (if len % 16 ≠ 0 then [len / 16] else []) := by
  by_cases h : len % 16 ≠ 0
  · have : (len + 15) / 16 = len / 16 + 1 := by omega
    rw [if_pos h, this, List.range_succ]
  · have : (len + 15) / 16 = len / 16 := by omega
    rw [if_neg h, this, List.append_nil]

theorem parse_intel_lines (rom : List Nat) (len : Nat) (hb : is_bytes rom) :
    (intel_lines rom len).map parse_record = (intel_records rom len).map some := by
  have h1 : ((List.range (len / 16)).flatMap (fun j => chunk_lines rom (16 * j) 16)).map
      parse_record
      = ((List.range (len / 16)).flatMap (fun j => chunk_records rom len (16 * j))).map
        some := by
    rw [List.map_flatMap, List.map_flatMap]
    apply List.flatMap_congr
    intro j hj
    rw [List.mem_range] at hj
    exact chunk_parse rom len (16 * j) 16 (by omega) hb
  have h2 : (if len % 16 ≠ 0 then chunk_lines rom (16 * (len / 16)) (len % 16) else []).map
      parse_record
      = ((if len % 16 ≠ 0 then [len / 16] else []).flatMap
          (fun j => chunk_records rom len (16 * j))).map some := by
    by_cases h : len % 16 ≠ 0
    · rw [if_pos h, if_pos h, List.flatMap_singleton]
      exact chunk_parse rom len (16 * (len / 16)) (len % 16) (by omega) hb
    · rw [if_neg h, if_neg h]; rfl
  unfold intel_lines intel_records
  rw [range_chunks, List.flatMap_append]
  simp only [List.map_append, List.map_cons, List.map_nil, List.singleton_append,
    List.cons_append, List.append_assoc, parse_offset_line 0 (by norm_num), parse_end_line]
  rw [h1, h2, List.nil_append]

/-- Decoding the lines of the output of `dump_intel` gives the records of the
chunk-by-chunk description. -/
theorem parse_dump_intel (rom : List Nat) (len : Nat) (hb : is_bytes rom) :
    (split_lines (dump_intel rom len)).map parse_record = (intel_records rom len).map some := by
  rw [split_lines_dump_intel rom len hb, parse_intel_lines rom len hb]

/-! ## C4 -/

theorem chunk_offsets_length (rom : List Nat) (len c : Nat) :
    ((chunk_records rom len c).filter Record.is_offset).length
      = if 0 < c ∧ c % 65536 = 0 then 1 else 0 := by
  unfold chunk_records
  by_cases h : 0 < c ∧ c % 65536 = 0
  · rw [if_pos h, if_pos h]; rfl
  · rw [if_neg h, if_neg h]; rfl

theorem offsets_length (rom : List Nat) (len n : Nat) :
    (((List.range n).flatMap (fun j => chunk_records rom len (16 * j))).filter
        Record.is_offset).length
      = if n = 0 then 0 else (n - 1) / 4096 := by
  induction n with
  | zero => rfl
  | succ n ih =>
    rw [List.range_succ, List.flatMap_append, List.filter_append, List.length_append, ih,
      List.flatMap_singleton, chunk_offsets_length, if_neg (Nat.succ_ne_zero n)]
    by_cases h0 : n = 0
    · subst h0; rfl
    · rw [if_neg h0]
      by_cases h : 0 < 16 * n ∧ 16 * n % 65536 = 0
      · rw [if_pos h]; omega
      · rw [if_neg h]; omega

/-- C4: the decoded output of `dump_intel` is the initial offset record 0, then
for each chunk offset `c = 0, 16, 32, ...` an offset record carrying
`((c >> 16) & 0xF) << 12` exactly when `c > 0` and `c` is a multiple of 65536,
immediately followed by the data record of the chunk, then the end record; the
output holds exactly `max 1 (ceil (len / 65536))` offset records. -/
theorem dump_intel_offset_records (rom : List Nat) (len : Nat) (hb : is_bytes rom) :
    (split_lines (dump_intel rom len)).map parse_record = (intel_records rom len).map some ∧
    ((intel_records rom len).filter Record.is_offset).length
      = max 1 ((len + 65535) / 65536) := by
  refine ⟨parse_dump_intel rom len hb, ?_⟩
  unfold intel_records
  have h1 : Record.is_offset (Record.offset 0) = true := rfl
  have h2 : ([Record.eof].filter Record.is_offset).length = 0 := rfl
  rw [List.filter_append, List.length_append, h2, List.filter_cons, if_pos h1,
    List.length_cons, offsets_length]
  split_ifs <;> omega

theorem dump_intel_offset_records_witness :
    (split_lines (dump_intel [1, 2, 3] 3)).map parse_record
        = (intel_records [1, 2, 3] 3).map some ∧
    ((intel_records [1, 2, 3] 3).filter Record.is_offset).length
      = max 1 ((3 + 65535) / 65536) :=
  dump_intel_offset_records [1, 2, 3] 3 (by decide)

/-! ## C5 -/

theorem range'_map_getD (rom : List Nat) (c m : Nat) (h : c + m ≤ rom.length) :
    (List.range' c m).map (fun a => rom.getD a 0) = (rom.drop c).take m := by
  apply List.ext_getElem?
  intro i
  rw [List.getElem?_map, List.getElem?_take]
  by_cases hi : i < m
  · rw [List.getElem?_range' _ _ hi, if_pos hi, List.getElem?_drop, Option.map_some',
      List.getD_eq_getElem?_getD, List.getElem?_eq_getElem (by omega)]
    simp
  · rw [if_neg hi, List.getElem?_eq_none (by simpa using hi)]
    rfl

theorem chunk_data (rom : List Nat) (len c : Nat) :
    (chunk_records rom len c).filterMap Record.data?
      = [(c % 65536, (List.range' c (min 16 (len - c))).map (fun a => rom.getD a 0))] := by
  unfold chunk_records
  by_cases h : 0 < c ∧ c % 65536 = 0
  · rw [if_pos h]; rfl
  · rw [if_neg h]; rfl

theorem chunks_data (rom : List Nat) (len n : Nat) :
    ((List.range n).flatMap (fun j => chunk_records rom len (16 * j))).filterMap Record.data?
      = (List.range n).map (fun j => (16 * j % 65536,
          (List.range' (16 * j) (min 16 (len - 16 * j))).map (fun a => rom.getD a 0))) := by
  induction n with
  | zero => rfl
  | succ n ih =>
    rw [List.range_succ, List.flatMap_append, List.filterMap_append, ih,
      List.flatMap_singleton, chunk_data, List.map_append, List.map_singleton]

theorem intel_records_data (rom : List Nat) (len : Nat) :
    (intel_records rom len).filterMap Record.data?
      = (List.range ((len + 15) / 16)).map (fun j => (16 * j % 65536,
          (List.range' (16 * j) (min 16 (len - 16 * j))).map (fun a => rom.getD a 0))) := by
  unfold intel_records
  rw [List.filterMap_append, List.filterMap_cons]
  simp only [Record.data?, List.filterMap_cons, List.filterMap_nil, List.append_nil]
  exact chunks_data rom len _

theorem chunks_flatten (rom : List Nat) (len n : Nat) :
    ((List.range n).map (fun j => (rom.drop (16 * j)).take (min 16 (len - 16 * j)))).flatten
      = rom.take (min (16 * n) len) := by
  induction n with
  | zero => simp
  | succ n ih =>
    rw [List.range_succ, List.map_append, List.flatten_append, ih, List.map_singleton,
      List.flatten_singleton]
    by_cases h : 16 * n ≤ len
    · have e1 : min (16 * n) len = 16 * n := by omega
      have e2 : min (16 * (n + 1)) len = 16 * n + min 16 (len - 16 * n) := by omega
      rw [e1, e2, List.take_add]
    · have e1 : min (16 * n) len = len := by omega
      have e2 : min (16 * (n + 1)) len = len := by omega
      have e3 : min 16 (len - 16 * n) = 0 := by omega
      rw [e1, e2, e3, List.take_zero, List.append_nil]

/-- C5: the output of `dump_intel` for an image of `len` bytes decodes to
exactly `ceil (len / 16)` data records; the `j`-th one carries the address
field `16 * j mod 65536` and the bytes `16 * j ..` of the image, 16 of them
except that the last record carries `len mod 16` bytes when `len` is not a
multiple of 16; the payloads concatenated in output order are the image bytes
`0 .. len - 1`. -/
theorem dump_intel_data_records (rom : List Nat) (len : Nat) (hb : is_bytes rom)
    (hlen : len ≤ rom.length) :
    ∃ recs : List Record, (split_lines (dump_intel rom len)).map parse_record = recs.map some ∧
      (recs.filterMap Record.data?).length = (len + 15) / 16 ∧
      (∀ j, j < (len + 15) / 16 →
        (recs.filterMap Record.data?)[j]?
          = some (16 * j % 65536, (rom.drop (16 * j)).take (min 16 (len - 16 * j)))) ∧
      (∀ j, j < len / 16 →
        ((recs.filterMap Record.data?)[j]?.map (fun d => d.2.length)) = some 16) ∧
      (len % 16 ≠ 0 →
        ((recs.filterMap Record.data?)[len / 16]?.map (fun d => d.2.length))
          = some (len % 16)) ∧
      ((recs.filterMap Record.data?).map (fun d => d.2)).flatten = rom.take len := by
  have hentry : ∀ j, j < (len + 15) / 16 →
      ((intel_records rom len).filterMap Record.data?)[j]?
        = some (16 * j % 65536, (rom.drop (16 * j)).take (min 16 (len - 16 * j))) := by
    intro j hj
    rw [intel_records_data, List.getElem?_map, List.getElem?_range hj, Option.map_some',
      range'_map_getD rom _ _ (by omega)]
  refine ⟨intel_records rom len, parse_dump_intel rom len hb, ?_, hentry, ?_, ?_, ?_⟩
  · rw [intel_records_data, List.length_map, List.length_range]
  · intro j hj
    rw [hentry j (by omega), Option.map_some', List.length_take, List.length_drop]
    congr 1
    omega
  · intro hr
    rw [hentry (len / 16) (by omega), Option.map_some', List.length_take, List.length_drop]
    congr 1
    omega
  · have hmap : ((intel_records rom len).filterMap Record.data?).map (fun d => d.2)
        = (List.range ((len + 15) / 16)).map
            (fun j => (rom.drop (16 * j)).take (min 16 (len - 16 * j))) := by
      rw [intel_records_data, List.map_map]
      apply List.map_congr_left
      intro j hj
      rw [List.mem_range] at hj
      exact range'_map_getD rom _ _ (by omega)
    rw [hmap, chunks_flatten]
    congr 1
    omega

theorem dump_intel_data_records_witness :
    ∃ recs : List Record, (split_lines (dump_intel [1, 2, 3] 3)).map parse_record = recs.map some ∧
      (recs.filterMap Record.data?).length = (3 + 15) / 16 ∧
      (∀ j, j < (3 + 15) / 16 →
        (recs.filterMap Record.data?)[j]?
          = some (16 * j % 65536, ([1, 2, 3].drop (16 * j)).take (min 16 (3 - 16 * j)))) ∧
      (∀ j, j < 3 / 16 →
        ((recs.filterMap Record.data?)[j]?.map (fun d => d.2.length)) = some 16) ∧
      (3 % 16 ≠ 0 →
        ((recs.filterMap Record.data?)[3 / 16]?.map (fun d => d.2.length))
          = some (3 % 16)) ∧
      ((recs.filterMap Record.data?).map (fun d => d.2)).flatten = [1, 2, 3].take 3 :=
  dump_intel_data_records [1, 2, 3] 3 (by decide) (by decide)

/-! ## C6 -/

theorem parse_all_eq (lines : List (List Char)) (recs : List Record)
    (h : lines.map parse_record = recs.map some) : parse_all lines = some recs := by
  induction lines generalizing recs with
  | nil =>
    cases recs with
    | nil => rfl
    | cons r rs => simp at h
  | cons l ls ih =>
    cases recs with
    | nil => simp at h
    | cons r rs =>
      rw [List.map_cons, List.map_cons, List.cons.injEq] at h
      rw [parse_all, h.1, ih rs h.2]

theorem segments_chunk (rom : List Nat) (len j seg : Nat) (rest : List Record)
    (hseg : seg = SEGMENT (16 * j - 16)) :
    data_with_segment seg (chunk_records rom len (16 * j) ++ rest)
      = (SEGMENT (16 * j), 16 * j % 65536,
          (List.range' (16 * j) (min 16 (len - 16 * j))).map (fun a => rom.getD a 0))
        :: data_with_segment (SEGMENT (16 * j)) rest := by
  unfold chunk_records
  by_cases h : 0 < 16 * j ∧ 16 * j % 65536 = 0
  · rw [if_pos h]
    rfl
  · have hs : SEGMENT (16 * j) = seg := by
      rw [hseg]
      exact not_not.mp (fun hne => h ((SEGMENT_change j).mp hne))
    rw [if_neg h, ← hs]
    rfl

theorem segments_chunks (rom : List Nat) (len n : Nat) :
    ∀ j seg, seg = SEGMENT (16 * j - 16) →
      data_with_segment seg
          ((List.range' j n).flatMap (fun i => chunk_records rom len (16 * i)) ++ [Record.eof])
        = (List.range' j n).map (fun i => (SEGMENT (16 * i), 16 * i % 65536,
            (List.range' (16 * i) (min 16 (len - 16 * i))).map (fun a => rom.getD a 0))) := by
  induction n with
  | zero => intro j seg _; rfl
  | succ n ih =>
    intro j seg hseg
    have hnext : SEGMENT (16 * j) = SEGMENT (16 * (j + 1) - 16) := by
      have : 16 * (j + 1) - 16 = 16 * j := by omega
      rw [this]
    rw [List.range'_succ, List.flatMap_cons, List.map_cons, List.append_assoc,
      segments_chunk rom len j seg _ hseg, ih (j + 1) _ hnext]

theorem intel_records_segments (rom : List Nat) (len : Nat) :
    data_with_segment 0 (intel_records rom len)
      = (List.range ((len + 15) / 16)).map (fun i => (SEGMENT (16 * i), 16 * i % 65536,
          (List.range' (16 * i) (min 16 (len - 16 * i))).map (fun a => rom.getD a 0))) := by
  unfold intel_records
  rw [List.cons_append, data_with_segment, List.range_eq_range']
  exact segments_chunks rom len _ 0 0 (by decide)

theorem segment_address (c : Nat) (h : c < 2 ^ 20) :
    16 * SEGMENT c + c % 65536 = c := by
  rw [SEGMENT_eq]
  norm_num at h
  omega

theorem place_chunk (rom : List Nat) (c m : Nat) (hc : c % 16 = 0) (hm : m ≤ 16)
    (h20 : c < 2 ^ 20) :
    place (SEGMENT c) (c % 65536) ((List.range' c m).map (fun a => rom.getD a 0))
      = (List.range' c m).map (fun a => (a, rom.getD a 0)) := by
  have hseg := segment_address c h20
  unfold place
  rw [List.length_map, List.length_range', List.range'_eq_map_range, List.map_map,
    List.map_map]
  apply List.map_congr_left
  intro k hk
  rw [List.mem_range] at hk
  have hget : ((List.range m).map ((fun a => rom.getD a 0) ∘ fun x => c + x)).getD k 0
      = rom.getD (c + k) 0 := by
    rw [List.getD_eq_getElem?_getD, List.getElem?_map, List.getElem?_range hk]
    rfl
  have hw : (c % 65536 + k) % 65536 = c % 65536 + k := Nat.mod_eq_of_lt (by omega)
  simp only [Function.comp, hw] at hget ⊢
  rw [hget]
  congr 1
  omega

theorem chunks_pairs (rom : List Nat) (len n : Nat) :
    ((List.range n).flatMap (fun j =>
        (List.range' (16 * j) (min 16 (len - 16 * j))).map (fun a => (a, rom.getD a 0))))
      = (List.range (min (16 * n) len)).map (fun a => (a, rom.getD a 0)) := by
  induction n with
  | zero => simp
  | succ n ih =>
    rw [List.range_succ, List.flatMap_append, ih, List.flatMap_singleton]
    by_cases h : 16 * n ≤ len
    · have e1 : min (16 * n) len = 16 * n := by omega
      have e2 : min (16 * (n + 1)) len = 16 * n + min 16 (len - 16 * n) := by omega
      rw [e1, e2, List.range_add, List.map_append, ← List.range'_eq_map_range]
    · have e1 : min (16 * n) len = len := by omega
      have e2 : min (16 * (n + 1)) len = len := by omega
      have e3 : min 16 (len - 16 * n) = 0 := by omega
      rw [e1, e2, e3]
      simp

theorem decode_intel_records (rom : List Nat) (len : Nat) (h20 : len ≤ 2 ^ 20) :
    decode_records (intel_records rom len)
      = (List.range len).map (fun a => (a, rom.getD a 0)) := by
  unfold decode_records
  rw [intel_records_segments, List.flatMap_map]
  have hcongr : (List.range ((len + 15) / 16)).flatMap (fun i =>
        place (SEGMENT (16 * i)) (16 * i % 65536)
          ((List.range' (16 * i) (min 16 (len - 16 * i))).map (fun a => rom.getD a 0)))
      = (List.range ((len + 15) / 16)).flatMap (fun j =>
        (List.range' (16 * j) (min 16 (len - 16 * j))).map (fun a => (a, rom.getD a 0))) := by
    apply List.flatMap_congr
    intro i hi
    rw [List.mem_range] at hi
    have hlt : 16 * i < 2 ^ 20 := by norm_num at h20 ⊢; omega
    exact place_chunk rom (16 * i) _ (by omega) (by omega) hlt
  rw [hcongr, chunks_pairs]
  congr 2
  omega

/-- C6: for an image of at most `2 ^ 20` bytes, the `j`-th data record in the
output of `dump_intel` holds the image bytes from offset `16 * j`, and 16 times
the value of the most recent offset record before it plus its address field is
that offset; decoding the output as Intel HEX with extended segment addresses
loads exactly the byte `rom[a]` at every address `a < len`, in order, and
nothing else. -/
theorem dump_intel_decode (rom : List Nat) (len : Nat) (hb : is_bytes rom)
    (hlen : len ≤ rom.length) (h20 : len ≤ 2 ^ 20) :
    ∃ recs : List Record,
      (split_lines (dump_intel rom len)).map parse_record = recs.map some ∧
      (data_with_segment 0 recs).length = (len + 15) / 16 ∧
      (∀ j seg addr bytes, (data_with_segment 0 recs)[j]? = some (seg, addr, bytes) →
        16 * seg + addr = 16 * j ∧
          bytes = (rom.drop (16 * j)).take (min 16 (len - 16 * j))) ∧
      decode_intel (dump_intel rom len)
        = some ((List.range len).map (fun a => (a, rom.getD a 0))) := by
  refine ⟨intel_records rom len, parse_dump_intel rom len hb, ?_, ?_, ?_⟩
  · rw [intel_records_segments, List.length_map, List.length_range]
  · intro j seg addr bytes hj
    rw [intel_records_segments, List.getElem?_map] at hj
    have hjlt : j < (len + 15) / 16 := by
      by_contra hcon
      rw [List.getElem?_eq_none (by simpa using hcon)] at hj
      simp at hj
    rw [List.getElem?_range hjlt, Option.map_some', Option.some.injEq, Prod.mk.injEq,
      Prod.mk.injEq] at hj
    obtain ⟨h1, h2, h3⟩ := hj
    have hlt : 16 * j < 2 ^ 20 := by norm_num at h20 ⊢; omega
    refine ⟨?_, ?_⟩
    · rw [← h1, ← h2]
      exact segment_address (16 * j) hlt
    · rw [← h3]
      exact range'_map_getD rom _ _ (by omega)
  · unfold decode_intel
    rw [parse_all_eq _ _ (parse_dump_intel rom len hb), Option.map_some',
      decode_intel_records rom len h20]

theorem dump_intel_decode_witness :
    ∃ recs : List Record,
      (split_lines (dump_intel [1, 2, 3] 3)).map parse_record = recs.map some ∧
      (data_with_segment 0 recs).length = (3 + 15) / 16 ∧
      (∀ j seg addr bytes, (data_with_segment 0 recs)[j]? = some (seg, addr, bytes) →
        16 * seg + addr = 16 * j ∧
          bytes = ([1, 2, 3].drop (16 * j)).take (min 16 (3 - 16 * j))) ∧
      decode_intel (dump_intel [1, 2, 3] 3)
        = some ((List.range 3).map (fun a => (a, [1, 2, 3].getD a 0))) :=
  dump_intel_decode [1, 2, 3] 3 (by decide) (by decide) (by norm_num)

/-! ## C8 -/

theorem process_lines_skip_blank (odcv : Char) (pre rest : List (List Char)) :
    ∀ s : Session, (∀ p ∈ pre, is_blank (strip_comment p) = true) →
      process_lines odcv s (pre ++ rest)
        = process_lines odcv { s with line := s.line + pre.length } rest := by
  induction pre with
  | nil => intro s _; rfl
  | cons p ps ih =>
    intro s hpre
    rw [List.cons_append, process_lines, process_line_blank odcv s p (hpre p (by simp))]
    simp only []
    rw [ih _ (fun x hx => hpre x (by simp [hx]))]
    simp only [List.length_cons]
    congr 2
    omega

theorem process_lines_header (odcv : Char) (pre rest : List (List Char)) (l : List Char)
    (hpre : ∀ p ∈ pre, is_blank (strip_comment p) = true)
    (hb : is_blank (strip_comment l) = false) :
    process_lines odcv Session.init (pre ++ l :: rest)
      = match process_config { Session.init with line := pre.length + 1 }
            (strip_whitespace (strip_comment l)) with
        | Except.error e => Except.error e
        | Except.ok s1 => process_lines odcv s1 rest := by
  rw [process_lines_skip_blank odcv pre _ _ hpre, process_lines,
    process_line_first odcv _ l hb rfl]
  simp only [Session.init, Nat.zero_add]

/-- C8: the first non-blank line, after comment and white-space stripping, is
accepted as the configuration exactly when all its characters are digits or
`A`/`a`, it holds a digit, and it holds between 1 and 20 `A`/`a` characters.
Otherwise `process_file` stops with a configuration error whatever lines
follow: an invalid character is reported first (result 1), then a missing
digit (result 2), then an address-bit count out of range (result 3). -/
theorem process_file_header (odcv : Char) (fmt : Nat) (pre : List (List Char))
    (l : List Char) (hpre : ∀ p ∈ pre, is_blank (strip_comment p) = true)
    (hb : is_blank (strip_comment l) = false) :
    ((∃ s1, process_lines odcv Session.init (pre ++ [l]) = Except.ok s1) ↔
      ((∀ c ∈ strip_whitespace (strip_comment l), (isdigit c = true ∨ c = 'A' ∨ c = 'a')) ∧
        (∃ c ∈ strip_whitespace (strip_comment l), isdigit c = true) ∧
        1 ≤ (strip_whitespace (strip_comment l)).countP (fun c => decide (c = 'A' ∨ c = 'a')) ∧
        (strip_whitespace (strip_comment l)).countP (fun c => decide (c = 'A' ∨ c = 'a'))
          ≤ 20)) ∧
    (¬ (∀ c ∈ strip_whitespace (strip_comment l), (isdigit c = true ∨ c = 'A' ∨ c = 'a')) →
      ∀ rest, process_file odcv fmt (pre ++ l :: rest)
        = Except.error (Abort.error 1 (Diag.config_invalid_char (pre.length + 1)))) ∧
    ((∀ c ∈ strip_whitespace (strip_comment l), (isdigit c = true ∨ c = 'A' ∨ c = 'a')) →
      (∀ c ∈ strip_whitespace (strip_comment l), isdigit c = false) →
      ∀ rest, process_file odcv fmt (pre ++ l :: rest)
        = Except.error (Abort.error 2 (Diag.no_rom_number (pre.length + 1)))) ∧
    ((∀ c ∈ strip_whitespace (strip_comment l), (isdigit c = true ∨ c = 'A' ∨ c = 'a')) →
      (∃ c ∈ strip_whitespace (strip_comment l), isdigit c = true) →
      ((strip_whitespace (strip_comment l)).countP (fun c => decide (c = 'A' ∨ c = 'a')) < 1 ∨
        (strip_whitespace (strip_comment l)).countP (fun c => decide (c = 'A' ∨ c = 'a'))
          > 20) →
      ∀ rest, process_file odcv fmt (pre ++ l :: rest)
        = Except.error (Abort.error 3 (Diag.state_bits_range (pre.length + 1)))) := by
  generalize hh : strip_whitespace (strip_comment l) = h
  have hlines := fun rest => process_lines_header odcv pre rest l hpre hb
  rw [hh] at hlines
  have hinv : ¬ (∀ c ∈ h, (isdigit c = true ∨ c = 'A' ∨ c = 'a')) →
      ∀ rest, process_lines odcv Session.init (pre ++ l :: rest)
        = Except.error (Abort.error 1 (Diag.config_invalid_char (pre.length + 1))) := by
    intro hv rest
    rw [hlines rest, process_config_invalid _ h hv]
  have hnod : (∀ c ∈ h, (isdigit c = true ∨ c = 'A' ∨ c = 'a')) →
      (∀ c ∈ h, isdigit c = false) →
      ∀ rest, process_lines odcv Session.init (pre ++ l :: rest)
        = Except.error (Abort.error 2 (Diag.no_rom_number (pre.length + 1))) := by
    intro hv hd rest
    rw [hlines rest, process_config_no_digit _ h hv hd]
  have hbits : (∀ c ∈ h, (isdigit c = true ∨ c = 'A' ∨ c = 'a')) →
      (∃ c ∈ h, isdigit c = true) →
      (h.countP (fun c => decide (c = 'A' ∨ c = 'a')) < 1 ∨
        h.countP (fun c => decide (c = 'A' ∨ c = 'a')) > 20) →
      ∀ rest, process_lines odcv Session.init (pre ++ l :: rest)
        = Except.error (Abort.error 3 (Diag.state_bits_range (pre.length + 1))) := by
    intro hv hd hc rest
    rw [← count_addr_eq] at hc
    rw [hlines rest, process_config_bits _ h hv hd hc]
  refine ⟨⟨?_, ?_⟩, ?_, ?_, ?_⟩
  · rintro ⟨s1, hs1⟩
    by_contra hcon
    by_cases hv : ∀ c ∈ h, (isdigit c = true ∨ c = 'A' ∨ c = 'a')
    · by_cases hd : ∃ c ∈ h, isdigit c = true
      · have hc : h.countP (fun c => decide (c = 'A' ∨ c = 'a')) < 1 ∨
            h.countP (fun c => decide (c = 'A' ∨ c = 'a')) > 20 := by
          by_contra hc
          exact hcon ⟨hv, hd, by omega, by omega⟩
        rw [hbits hv hd hc []] at hs1
        exact absurd hs1 (by simp)
      · have hd2 : ∀ c ∈ h, isdigit c = false := by
          intro c hc
          by_contra hcd
          exact hd ⟨c, hc, by simpa using hcd⟩
        rw [hnod hv hd2 []] at hs1
        exact absurd hs1 (by simp)
    · rw [hinv hv []] at hs1
      exact absurd hs1 (by simp)
  · rintro ⟨hv, hd, hc1, hc2⟩
    rw [← count_addr_eq] at hc1 hc2
    rw [hlines [], process_config_ok _ h hv hd hc1 hc2]
    exact ⟨_, rfl⟩
  · intro hv rest
    unfold process_file
    rw [hinv hv rest]
  · intro hv hd rest
    unfold process_file
    rw [hnod hv hd rest]
  · intro hv hd hc rest
    unfold process_file
    rw [hbits hv hd hc rest]

theorem process_file_header_witness :
    ((∃ s1, process_lines '1' Session.init ([['#', 'A']] ++ [['A', ' ', '0', '#', 'x']]) = Except.ok s1) ↔
      ((∀ c ∈ strip_whitespace (strip_comment ['A', ' ', '0', '#', 'x']), (isdigit c = true ∨ c = 'A' ∨ c = 'a')) ∧
        (∃ c ∈ strip_whitespace (strip_comment ['A', ' ', '0', '#', 'x']), isdigit c = true) ∧
        1 ≤ (strip_whitespace (strip_comment ['A', ' ', '0', '#', 'x'])).countP (fun c => decide (c = 'A' ∨ c = 'a')) ∧
        (strip_whitespace (strip_comment ['A', ' ', '0', '#', 'x'])).countP (fun c => decide (c = 'A' ∨ c = 'a'))
          ≤ 20)) ∧
    (¬ (∀ c ∈ strip_whitespace (strip_comment ['A', ' ', '0', '#', 'x']), (isdigit c = true ∨ c = 'A' ∨ c = 'a')) →
      ∀ rest, process_file '1' 3 ([['#', 'A']] ++ ['A', ' ', '0', '#', 'x'] :: rest)
        = Except.error (Abort.error 1 (Diag.config_invalid_char ([['#', 'A']].length + 1)))) ∧
    ((∀ c ∈ strip_whitespace (strip_comment ['A', ' ', '0', '#', 'x']), (isdigit c = true ∨ c = 'A' ∨ c = 'a')) →
      (∀ c ∈ strip_whitespace (strip_comment ['A', ' ', '0', '#', 'x']), isdigit c = false) →
      ∀ rest, process_file '1' 3 ([['#', 'A']] ++ ['A', ' ', '0', '#', 'x'] :: rest)
        = Except.error (Abort.error 2 (Diag.no_rom_number ([['#', 'A']].length + 1)))) ∧
    ((∀ c ∈ strip_whitespace (strip_comment ['A', ' ', '0', '#', 'x']), (isdigit c = true ∨ c = 'A' ∨ c = 'a')) →
      (∃ c ∈ strip_whitespace (strip_comment ['A', ' ', '0', '#', 'x']), isdigit c = true) →
      ((strip_whitespace (strip_comment ['A', ' ', '0', '#', 'x'])).countP (fun c => decide (c = 'A' ∨ c = 'a')) < 1 ∨
        (strip_whitespace (strip_comment ['A', ' ', '0', '#', 'x'])).countP (fun c => decide (c = 'A' ∨ c = 'a'))
          > 20) →
      ∀ rest, process_file '1' 3 ([['#', 'A']] ++ ['A', ' ', '0', '#', 'x'] :: rest)
        = Except.error (Abort.error 3 (Diag.state_bits_range ([['#', 'A']].length + 1)))) :=
  process_file_header '1' 3 [['#', 'A']] ['A', ' ', '0', '#', 'x'] (by decide) (by decide)

/-! ## C9 -/

/-- C9 (failing input): with the header `0A`, whose address column follows its
image column, the row `1x` is rejected as an "illegal don't-care bit" although
its `x` stands in the address column, and the row `10` makes `parse_data`
index the accumulators with `'A' - '0' = 17`, outside the array. -/
theorem process_file_address_column_last :
    process_file '1' INTEL_FMT [['0', 'A'], ['1', 'x']]
        = Except.error (Abort.error 5 (Diag.illegal_dont_care 2)) ∧
    process_file '1' INTEL_FMT [['0', 'A'], ['1', '0']] = Except.error Abort.fault := by
  constructor <;> rfl

/-! ## C10 -/

theorem rows_inv_config (h : List Char) (n : Nat) (done : List (List Char)) (s : Session)
    (hinv : rows_inv h n done s) : config_inv h n s :=
  ⟨hinv.1, hinv.2.1, hinv.2.2.1, hinv.2.2.2.1, hinv.2.2.2.2.1, hinv.2.2.2.2.2.1⟩

theorem process_row_config_inv (odcv : Char) (h : List Char) (n : Nat) (s s1 : Session)
    (ibuf : List Char) (hinv : config_inv h n s)
    (hok : process_row odcv s ibuf = Except.ok s1) : config_inv h n s1 := by
  unfold process_row at hok
  simp only [] at hok
  split at hok
  · exact absurd hok (by simp)
  · split at hok
    · exact absurd hok (by simp)
    · split at hok
      · exact absurd hok (by simp)
      · exact absurd hok (by simp)
      · rw [Except.ok.injEq] at hok
        subst hok
        exact ⟨hinv.1, hinv.2.1, hinv.2.2.1, hinv.2.2.2.1, rfl, hinv.2.2.2.2.2⟩

theorem process_line_config_inv (odcv : Char) (h : List Char) (n : Nat) (s s1 : Session)
    (l : List Char) (hinv : config_inv h n s)
    (hok : process_line odcv s l = Except.ok s1) : config_inv h n s1 := by
  by_cases hb : is_blank (strip_comment l) = true
  · rw [process_line_blank odcv s l hb, Except.ok.injEq] at hok
    subst hok
    exact hinv
  · rw [process_line_row odcv s l (by simpa using hb) hinv.1] at hok
    exact process_row_config_inv odcv h n { s with line := s.line + 1 } s1 _
      ⟨hinv.1, hinv.2.1, hinv.2.2.1, hinv.2.2.2.1, hinv.2.2.2.2.1, hinv.2.2.2.2.2⟩ hok

theorem process_lines_config_inv (odcv : Char) (h : List Char) (n : Nat)
    (rows : List (List Char)) :
    ∀ s s1 : Session, config_inv h n s → process_lines odcv s rows = Except.ok s1 →
      config_inv h n s1 := by
  induction rows with
  | nil =>
    intro s s1 hinv hok
    rw [process_lines, Except.ok.injEq] at hok
    subst hok
    exact hinv
  | cons r rest ih =>
    intro s s1 hinv hok
    rw [process_lines] at hok
    cases hr : process_line odcv s r with
    | error e => rw [hr] at hok; exact absurd hok (by simp)
    | ok s2 =>
      rw [hr] at hok
      exact ih s2 s1 (process_line_config_inv odcv h n s s2 r hinv hr) hok

theorem addr_char_iff (c : Char) : c ∈ ['0', '1', 'X', 'x'] ↔ is_addr_char c := by
  unfold is_addr_char
  simp only [List.mem_cons, List.mem_singleton, List.mem_nil_iff, or_false]
  tauto

theorem parse_data_loop_illegal (config : List Char) (cs : List Char) :
    ∀ (ds : List Char) (pos : Nat) (accum : List Nat),
      config.drop pos = ds → cs.length = ds.length →
      (∀ d ∈ ds, isdigit d = true ∧ digit_val d < accum.length) →
      (∃ c ∈ cs, isdigit c = false) →
      parse_data_loop config cs pos accum = ParseResult.illegal := by
  induction cs with
  | nil => intro ds pos accum _ _ _ hex; simp at hex
  | cons c cs ih =>
    intro ds pos accum hdrop hlen hds hex
    cases ds with
    | nil => simp at hlen
    | cons d ds =>
      by_cases hc : isdigit c = true
      · have hd := hds d (by simp)
        have hget : config.getD pos (Char.ofNat 0) = d := by
          have h0 : (config.drop pos)[0]? = some d := by rw [hdrop]; simp
          rw [List.getElem?_drop, Nat.add_zero] at h0
          rw [List.getD_eq_getElem?_getD, h0]; rfl
        have hdrop1 : config.drop (pos + 1) = ds := by
          have := congrArg (List.drop 1) hdrop
          rw [List.drop_drop] at this
          simpa [Nat.add_comm] using this
        have hrnum : ((d.toNat : Int) - 48) = (digit_val d : Int) := digit_val_cast d hd.1
        have hex2 : ∃ x ∈ cs, isdigit x = false := by
          obtain ⟨x, hx, hxd⟩ := hex
          rcases List.mem_cons.mp hx with h | h
          · subst h; rw [hc] at hxd; exact absurd hxd (by simp)
          · exact ⟨x, h, hxd⟩
        rw [parse_data_loop, if_pos hc]
        simp only [hget, hrnum]
        rw [if_pos ⟨by omega, by simpa using hd.2⟩]
        exact ih ds (pos + 1) _ hdrop1 (by simpa using hlen)
          (fun x hx => by
            rw [List.length_set]
            exact hds x (by simp [hx])) hex2
      · rw [parse_data_loop, if_neg hc]

theorem process_row_invalid (odcv : Char) (s : Session) (ibuf : List Char)
    (hv : ¬ ∀ c ∈ translate ibuf OUTPUT_DC odcv, is_addr_char c) :
    process_row odcv s ibuf = Except.error (Abort.error 1 (Diag.data_invalid_char s.line)) := by
  have hvalid : valid_string (translate ibuf OUTPUT_DC odcv) ['0', '1', 'X', 'x'] = false := by
    rw [Bool.eq_false_iff]
    intro hh
    rw [valid_string_iff] at hh
    exact hv (fun c hc => (addr_char_iff c).mp (hh c hc))
  simp [process_row, hvalid]

theorem process_row_length (odcv : Char) (s : Session) (ibuf : List Char)
    (hv : ∀ c ∈ translate ibuf OUTPUT_DC odcv, is_addr_char c)
    (hl : (translate ibuf OUTPUT_DC odcv).length ≠ s.length) :
    process_row odcv s ibuf = Except.error (Abort.error 4
      (Diag.wrong_field_count s.line s.length (translate ibuf OUTPUT_DC odcv).length)) := by
  have hvalid := (valid_string_iff (translate ibuf OUTPUT_DC odcv) ['0', '1', 'X', 'x']).mpr
    (fun c hc => (addr_char_iff c).mpr (hv c hc))
  simp only [process_row, hvalid, Bool.not_true, Bool.false_eq_true, if_false, if_pos hl]

theorem process_row_dont_care (odcv : Char) (as ds : List Char) (s : Session)
    (ibuf : List Char) (hinv : config_inv (as ++ ds) as.length s)
    (hds : ∀ c ∈ ds, isdigit c = true)
    (hv : ∀ c ∈ translate ibuf OUTPUT_DC odcv, is_addr_char c)
    (hl : (translate ibuf OUTPUT_DC odcv).length = as.length + ds.length)
    (hx : ¬ ∀ c ∈ (translate ibuf OUTPUT_DC odcv).drop as.length, c = '0' ∨ c = '1') :
    process_row odcv s ibuf = Except.error (Abort.error 5 (Diag.illegal_dont_care s.line)) := by
  obtain ⟨_, hconfig, habits, hlength, hdata, hnroms⟩ := hinv
  have hvalid := (valid_string_iff (translate ibuf OUTPUT_DC odcv) ['0', '1', 'X', 'x']).mpr
    (fun c hc => (addr_char_iff c).mpr (hv c hc))
  have hlen2 : ¬ (translate ibuf OUTPUT_DC odcv).length ≠ s.length := by
    rw [hlength, hl, List.length_append]; simp
  have hex : ∃ c ∈ (translate ibuf OUTPUT_DC odcv).drop as.length, isdigit c = false := by
    by_contra hcon
    apply hx
    intro c hc
    have hcv := hv c (List.mem_of_mem_drop hc)
    rcases hcv with h | h | h | h
    · exact Or.inl h
    · exact Or.inr h
    · subst h; exact absurd ⟨_, hc, by decide⟩ hcon
    · subst h; exact absurd ⟨_, hc, by decide⟩ hcon
  have hparse : parse_data (translate ibuf OUTPUT_DC odcv) (as ++ ds) as.length
      (List.replicate s.nroms 0) = ParseResult.illegal :=
    parse_data_loop_illegal (as ++ ds) _ ds as.length _ (List.drop_left _ _)
      (by rw [List.length_drop, hl]; omega)
      (fun d hd => ⟨hds d hd, by
        rw [List.length_replicate]
        exact hnroms d (by simp [hd]) (hds d hd)⟩) hex
  simp only [process_row, hvalid, Bool.not_true, Bool.false_eq_true, if_false, hlen2, hconfig,
    habits, hdata, hparse]

theorem process_row_accept (odcv : Char) (as ds : List Char) (s : Session)
    (ibuf : List Char) (hinv : config_inv (as ++ ds) as.length s)
    (hds : ∀ c ∈ ds, isdigit c = true)
    (hr : valid_row as.length ds.length (translate ibuf OUTPUT_DC odcv)) :
    ∃ s1, process_row odcv s ibuf = Except.ok s1 := by
  obtain ⟨_, hconfig, habits, hlength, hdata, hnroms⟩ := hinv
  have hvalid := (valid_string_iff (translate ibuf OUTPUT_DC odcv) ['0', '1', 'X', 'x']).mpr
    (fun c hc => (addr_char_iff c).mpr (row_chars _ _ _ hr c hc))
  have hlen2 : ¬ (translate ibuf OUTPUT_DC odcv).length ≠ s.length := by
    rw [hlength, hr.1, List.length_append]; simp
  obtain ⟨out, hout, _, _⟩ := parse_data_loop_spec (as ++ ds)
    ((translate ibuf OUTPUT_DC odcv).drop as.length) ds as.length (List.replicate s.nroms 0)
    (List.drop_left _ _) (by rw [List.length_drop, hr.1]; omega) hr.2.2
    (fun d hd => ⟨hds d hd, by
      rw [List.length_replicate]
      exact hnroms d (by simp [hd]) (hds d hd)⟩)
  have hparse : parse_data (translate ibuf OUTPUT_DC odcv) (as ++ ds) as.length
      (List.replicate s.nroms 0) = ParseResult.ok out := hout
  simp only [process_row, hvalid, Bool.not_true, Bool.false_eq_true, if_false, hlen2, hconfig,
    habits, hdata, hparse]
  exact ⟨_, rfl⟩

/-- C10: after a header of `n` address columns followed by `m` image-digit
columns has been accepted (and any rows processed), a non-blank line is
accepted exactly when its row text, after substitution of the output
don't-care marker, has `n + m` characters, the first `n` among `0 1 x X` and
the others `0` or `1`.  Otherwise the line fails: with "invalid character"
(result 1) when a character is outside `0 1 x X`, else with "wrong number of
fields" (result 4, wanted `n + m`, got the row length) when the length
differs, else with "illegal don't-care bit" (result 5). -/
theorem process_line_row_acceptance (odcv : Char) (as ds : List Char)
    (rows : List (List Char)) (s : Session) (l : List Char)
    (has : ∀ c ∈ as, c = 'A' ∨ c = 'a') (hn1 : 1 ≤ as.length) (hn : as.length ≤ 20)
    (hds : ∀ c ∈ ds, isdigit c = true) (hne : ds ≠ [])
    (hok : process_lines odcv Session.init ((as ++ ds) :: rows) = Except.ok s)
    (hb : is_blank (strip_comment l) = false) :
    ((∃ s1, process_line odcv s l = Except.ok s1)
      ↔ valid_row as.length ds.length (row_text odcv l)) ∧
    (¬ (∀ c ∈ row_text odcv l, is_addr_char c) →
      process_line odcv s l
        = Except.error (Abort.error 1 (Diag.data_invalid_char (s.line + 1)))) ∧
    ((∀ c ∈ row_text odcv l, is_addr_char c) →
      (row_text odcv l).length ≠ as.length + ds.length →
      process_line odcv s l
        = Except.error (Abort.error 4 (Diag.wrong_field_count (s.line + 1)
            (as.length + ds.length) (row_text odcv l).length))) ∧
    ((∀ c ∈ row_text odcv l, is_addr_char c) →
      (row_text odcv l).length = as.length + ds.length →
      ¬ (∀ c ∈ (row_text odcv l).drop as.length, c = '0' ∨ c = '1') →
      process_line odcv s l
        = Except.error (Abort.error 5 (Diag.illegal_dont_care (s.line + 1)))) := by
  have hinv : config_inv (as ++ ds) as.length s := by
    obtain ⟨s0, hs0, hinv0⟩ := process_header_ok odcv as ds has hn1 hn hds hne
    rw [process_lines, hs0] at hok
    exact process_lines_config_inv odcv _ _ rows s0 s (rows_inv_config _ _ _ _ hinv0) hok
  have hinv1 : config_inv (as ++ ds) as.length { s with line := s.line + 1 } :=
    ⟨hinv.1, hinv.2.1, hinv.2.2.1, hinv.2.2.2.1, hinv.2.2.2.2.1, hinv.2.2.2.2.2⟩
  have hline := process_line_row odcv s l hb hinv.1
  have hslen : s.length = as.length + ds.length := by
    rw [hinv.2.2.2.1, List.length_append]
  have e1 : ¬ (∀ c ∈ row_text odcv l, is_addr_char c) →
      process_line odcv s l
        = Except.error (Abort.error 1 (Diag.data_invalid_char (s.line + 1))) := by
    intro hv
    rw [hline]
    exact process_row_invalid odcv _ _ hv
  have e2 : (∀ c ∈ row_text odcv l, is_addr_char c) →
      (row_text odcv l).length ≠ as.length + ds.length →
      process_line odcv s l
        = Except.error (Abort.error 4 (Diag.wrong_field_count (s.line + 1)
            (as.length + ds.length) (row_text odcv l).length)) := by
    intro hv hl
    rw [hline, ← hslen]
    exact process_row_length odcv { s with line := s.line + 1 } _ hv (by rw [hslen]; exact hl)
  have e3 : (∀ c ∈ row_text odcv l, is_addr_char c) →
      (row_text odcv l).length = as.length + ds.length →
      ¬ (∀ c ∈ (row_text odcv l).drop as.length, c = '0' ∨ c = '1') →
      process_line odcv s l
        = Except.error (Abort.error 5 (Diag.illegal_dont_care (s.line + 1))) := by
    intro hv hl hx
    rw [hline]
    exact process_row_dont_care odcv as ds _ _ hinv1 hds hv hl hx
  refine ⟨⟨?_, ?_⟩, e1, e2, e3⟩
  · rintro ⟨s1, hs1⟩
    by_cases hv : ∀ c ∈ row_text odcv l, is_addr_char c
    · by_cases hl : (row_text odcv l).length = as.length + ds.length
      · by_cases hx : ∀ c ∈ (row_text odcv l).drop as.length, c = '0' ∨ c = '1'
        · exact ⟨hl, fun c hc => hv c (List.mem_of_mem_take hc), hx⟩
        · rw [e3 hv hl hx] at hs1
          exact absurd hs1 (by simp)
      · rw [e2 hv hl] at hs1
        exact absurd hs1 (by simp)
    · rw [e1 hv] at hs1
      exact absurd hs1 (by simp)
  · intro hr
    rw [hline]
    exact process_row_accept odcv as ds _ _ hinv1 hds hr

theorem process_line_row_acceptance_witness :
    ((∃ s1, process_line '1' ({ line := 1, first := false, config := ['A', '0'], nroms := 1, abits := 1, length := 2, rom := [some [0, 0]], data := [0] } : Session) ['x', ' ', '-', '#', '0'] = Except.ok s1)
      ↔ valid_row ['A'].length ['0'].length (row_text '1' ['x', ' ', '-', '#', '0'])) ∧
    (¬ (∀ c ∈ row_text '1' ['x', ' ', '-', '#', '0'], is_addr_char c) →
      process_line '1' ({ line := 1, first := false, config := ['A', '0'], nroms := 1, abits := 1, length := 2, rom := [some [0, 0]], data := [0] } : Session) ['x', ' ', '-', '#', '0']
        = Except.error (Abort.error 1 (Diag.data_invalid_char (({ line := 1, first := false, config := ['A', '0'], nroms := 1, abits := 1, length := 2, rom := [some [0, 0]], data := [0] } : Session).line + 1)))) ∧
    ((∀ c ∈ row_text '1' ['x', ' ', '-', '#', '0'], is_addr_char c) →
      (row_text '1' ['x', ' ', '-', '#', '0']).length ≠ ['A'].length + ['0'].length →
      process_line '1' ({ line := 1, first := false, config := ['A', '0'], nroms := 1, abits := 1, length := 2, rom := [some [0, 0]], data := [0] } : Session) ['x', ' ', '-', '#', '0']
        = Except.error (Abort.error 4 (Diag.wrong_field_count (({ line := 1, first := false, config := ['A', '0'], nroms := 1, abits := 1, length := 2, rom := [some [0, 0]], data := [0] } : Session).line + 1)
            (['A'].length + ['0'].length) (row_text '1' ['x', ' ', '-', '#', '0']).length))) ∧
    ((∀ c ∈ row_text '1' ['x', ' ', '-', '#', '0'], is_addr_char c) →
      (row_text '1' ['x', ' ', '-', '#', '0']).length = ['A'].length + ['0'].length →
      ¬ (∀ c ∈ (row_text '1' ['x', ' ', '-', '#', '0']).drop ['A'].length, c = '0' ∨ c = '1') →
      process_line '1' ({ line := 1, first := false, config := ['A', '0'], nroms := 1, abits := 1, length := 2, rom := [some [0, 0]], data := [0] } : Session) ['x', ' ', '-', '#', '0']
        = Except.error (Abort.error 5 (Diag.illegal_dont_care (({ line := 1, first := false, config := ['A', '0'], nroms := 1, abits := 1, length := 2, rom := [some [0, 0]], data := [0] } : Session).line + 1)))) :=
  process_line_row_acceptance '1' ['A'] ['0'] []
    { line := 1, first := false, config := ['A', '0'], nroms := 1, abits := 1, length := 2, rom := [some [0, 0]], data := [0] }
    ['x', ' ', '-', '#', '0']
    (by decide) (by decide) (by decide) (by decide) (by decide) rfl (by decide)

/-! ## `write_range`: distinct addresses -/

theorem range_wild_count (p : List Char) :
    (range_wild p p.length).count true = wild_count p := by
  unfold range_wild wild_count
  rw [List.take_of_length_le (le_refl _), List.count_eq_countP, List.countP_map]
  apply List.countP_congr
  intro c _
  simp [tolower_eq_x]

theorem wild_count_snoc (p : List Char) (c : Char) :
    wild_count (p ++ [c]) = wild_count p + (if c = 'x' ∨ c = 'X' then 1 else 0) := by
  unfold wild_count
  rw [List.countP_append, List.countP_singleton]
  simp

theorem range_addr_mod (p : List Char) (k : Nat) :
    range_addr p (k % 2 ^ wild_count p) = range_addr p k := by
  unfold range_addr
  rw [range_offset_congr _ _ k (by rw [range_wild_count, Nat.mod_mod])]

theorem range_addr_inj (p : List Char) (hlen : p.length ≤ 32)
    (hp : ∀ c ∈ p, is_addr_char c) :
    ∀ k k1, k < 2 ^ wild_count p → k1 < 2 ^ wild_count p →
      range_addr p k = range_addr p k1 → k = k1 := by
  induction p using List.reverseRecOn with
  | nil =>
    intro k k1 hk hk1 _
    simp [wild_count] at hk hk1
    omega
  | append_singleton l c ih =>
    have hl : l.length + 1 ≤ 32 := by simpa using hlen
    have ih := ih (by omega) (fun c hc => hp c (by simp [hc]))
    have hc : is_addr_char c := hp c (by simp)
    intro k k1 hk hk1 heq
    rw [range_addr_snoc l c k (by omega), range_addr_snoc l c k1 (by omega),
      range_wild_count] at heq
    rw [wild_count_snoc] at hk hk1
    have hb : k / 2 ^ wild_count l % 2 < 2 := Nat.mod_lt _ (by norm_num)
    have hb1 : k1 / 2 ^ wild_count l % 2 < 2 := Nat.mod_lt _ (by norm_num)
    by_cases hw : c = 'x' ∨ c = 'X'
    · have hx : tolower c = 'x' := (tolower_eq_x c).mpr hw
      have h1 : ¬ c = '1' := by
        rcases hw with h | h <;> subst h <;> decide
      rw [if_pos hw, pow_succ] at hk hk1
      simp only [if_pos hx, if_neg h1, Nat.zero_add] at heq
      have hA : range_addr l k = range_addr l k1 := by omega
      have hbit : k / 2 ^ wild_count l % 2 = k1 / 2 ^ wild_count l % 2 := by omega
      have hpos : 0 < 2 ^ wild_count l := Nat.two_pow_pos _
      have hm := ih (k % 2 ^ wild_count l) (k1 % 2 ^ wild_count l)
        (Nat.mod_lt _ hpos) (Nat.mod_lt _ hpos)
        (by rw [range_addr_mod, range_addr_mod, hA])
      have hd : k / 2 ^ wild_count l < 2 := by
        rw [Nat.div_lt_iff_lt_mul hpos]; omega
      have hd1 : k1 / 2 ^ wild_count l < 2 := by
        rw [Nat.div_lt_iff_lt_mul hpos]; omega
      have hdiv : k / 2 ^ wild_count l = k1 / 2 ^ wild_count l := by
        generalize k / 2 ^ wild_count l = q at hd hbit
        generalize k1 / 2 ^ wild_count l = q1 at hd1 hbit
        omega
      rw [← Nat.div_add_mod k (2 ^ wild_count l), ← Nat.div_add_mod k1 (2 ^ wild_count l),
        hdiv, hm]
    · have hx : ¬ tolower c = 'x' := fun h => hw ((tolower_eq_x c).mp h)
      rw [if_neg hw, Nat.add_zero] at hk hk1
      simp only [if_neg hx, Nat.add_zero] at heq
      exact ih k k1 hk hk1 (by omega)

theorem range_addr_no_wild (p : List Char) (hlen : p.length ≤ 32)
    (hp : ∀ c ∈ p, is_addr_char c) (hw : wild_count p = 0) (k : Nat) :
    range_addr p k = msb_value (p.map digit_val) := by
  induction p using List.reverseRecOn with
  | nil => simp [range_addr, range_base, range_offset, range_wild, msb_value]
  | append_singleton l c ih =>
    have hl : l.length + 1 ≤ 32 := by simpa using hlen
    have hc : is_addr_char c := hp c (by simp)
    rw [wild_count_snoc] at hw
    have hwl : wild_count l = 0 := by omega
    have hcw : ¬ (c = 'x' ∨ c = 'X') := by
      intro h
      rw [if_pos h] at hw
      omega
    have hx : ¬ tolower c = 'x' := fun h => hcw ((tolower_eq_x c).mp h)
    have ih := ih (by omega) (fun c hc => hp c (by simp [hc])) hwl
    rw [range_addr_snoc l c k (by omega), ih, if_neg hx, Nat.add_zero]
    unfold msb_value
    rw [List.map_append, List.foldl_append]
    simp only [List.map_cons, List.map_nil, List.foldl_cons, List.foldl_nil]
    rcases hc with h | h | h | h
    · subst h; rfl
    · subst h; rfl
    · exact absurd (Or.inl h) hcw
    · exact absurd (Or.inr h) hcw

theorem range_addrs_eq (p : List Char) :
    range_addrs p p.length = (List.range (2 ^ wild_count p)).map (range_addr p) := by
  unfold range_addrs
  simp only [one_shl, range_wild_count]
  rfl

/-! ## C11 -/

/-- C11: for a pattern of at most 20 characters over `0`, `1`, `x`, `X` with
`w` wildcards, the map from the counter `k < 2 ^ w` to the address
`base + offset k` that `write_range` stores to is injective, so the `2 ^ w`
stores go to pairwise distinct addresses; without a wildcard there is exactly
one store, at the address whose binary digits are the pattern. -/
theorem write_range_distinct (p : List Char) (hlen : p.length ≤ 20)
    (hp : ∀ c ∈ p, is_addr_char c) :
    (∀ k k1, k < 2 ^ wild_count p → k1 < 2 ^ wild_count p →
      range_base p p.length + range_offset (range_wild p p.length) k
        = range_base p p.length + range_offset (range_wild p p.length) k1 → k = k1) ∧
    (range_addrs p p.length).length = 2 ^ wild_count p ∧
    (range_addrs p p.length).Nodup ∧
    (wild_count p = 0 → range_addrs p p.length = [msb_value (p.map digit_val)]) := by
  have hinj := range_addr_inj p (by omega) hp
  refine ⟨hinj, ?_, ?_, ?_⟩
  · rw [range_addrs_eq, List.length_map, List.length_range]
  · rw [range_addrs_eq]
    apply List.Nodup.map_on _ (List.nodup_range _)
    intro k hk k1 hk1 h
    exact hinj k k1 (List.mem_range.mp hk) (List.mem_range.mp hk1) h
  · intro hw
    rw [range_addrs_eq, hw]
    have hr : List.range (2 ^ 0) = [0] := rfl
    rw [hr, List.map_cons, List.map_nil, range_addr_no_wild p (by omega) hp hw]

theorem write_range_distinct_witness :
    (∀ k k1, k < 2 ^ wild_count ['x', '1', 'X'] → k1 < 2 ^ wild_count ['x', '1', 'X'] →
      range_base ['x', '1', 'X'] ['x', '1', 'X'].length
          + range_offset (range_wild ['x', '1', 'X'] ['x', '1', 'X'].length) k
        = range_base ['x', '1', 'X'] ['x', '1', 'X'].length
          + range_offset (range_wild ['x', '1', 'X'] ['x', '1', 'X'].length) k1 → k = k1) ∧
    (range_addrs ['x', '1', 'X'] ['x', '1', 'X'].length).length
      = 2 ^ wild_count ['x', '1', 'X'] ∧
    (range_addrs ['x', '1', 'X'] ['x', '1', 'X'].length).Nodup ∧
    (wild_count ['x', '1', 'X'] = 0 →
      range_addrs ['x', '1', 'X'] ['x', '1', 'X'].length
        = [msb_value (['x', '1', 'X'].map digit_val)]) :=
  write_range_distinct ['x', '1', 'X'] (by decide) (by decide)

/-! ## C12 -/

/-- C12: for a pattern of at most 20 characters over `0`, `1`, `x`, `X`, the
address `base + offset k` that `write_range` computes is below `2 ^ n` for
every counter value `k`, so every store lands inside an image of `2 ^ n`
bytes. -/
theorem write_range_in_bounds (p : List Char) (hlen : p.length ≤ 20)
    (hp : ∀ c ∈ p, is_addr_char c) :
    (∀ k, range_base p p.length + range_offset (range_wild p p.length) k < 2 ^ p.length) ∧
    (∀ a ∈ range_addrs p p.length, a < 2 ^ p.length) := by
  have h := fun k => (range_addr_sound p (by omega) hp k).1
  refine ⟨h, ?_⟩
  intro a ha
  rw [range_addrs_eq, List.mem_map] at ha
  obtain ⟨k, _, rfl⟩ := ha
  exact h k

theorem write_range_in_bounds_witness :
    (∀ k, range_base ['x', '1', 'X'] ['x', '1', 'X'].length
        + range_offset (range_wild ['x', '1', 'X'] ['x', '1', 'X'].length) k
      < 2 ^ ['x', '1', 'X'].length) ∧
    (∀ a ∈ range_addrs ['x', '1', 'X'] ['x', '1', 'X'].length, a < 2 ^ ['x', '1', 'X'].length) :=
  write_range_in_bounds ['x', '1', 'X'] (by decide) (by decide)

/-! ## C13 -/

theorem compute_data_checksum_eq (c addr : Nat) (data : List Nat) (hlen : c ≤ data.length) :
    compute_data_checksum c addr data
      = (256 - (c + ((addr >>> 8) &&& 0xFF) + (addr &&& 0xFF) + 0 + (data.take c).sum) % 256)
          % 256 := by
  have hfold := foldl_sum_mod (List.range c) (fun ix => data.getD ix 0)
    ((((c + addr / 256 % 256) % UINT_MOD + addr % 256) % UINT_MOD + DATA_REC) % UINT_MOD)
  have hsum : ((List.range c).map (fun ix => data.getD ix 0)).sum = (data.take c).sum := by
    rw [List.range_eq_range', range'_map_getD data 0 c (by omega), List.drop_zero]
  have h255 : ∀ x : Nat, x &&& 0xFF = x % 256 := and_255
  simp only [compute_data_checksum, and_255, h255, Nat.shiftRight_eq_div_pow, CHAR_BIT,
    UCHAR_MAX]
  rw [negate_byte_eq _ (Nat.mod_lt _ (by norm_num))]
  norm_num at hfold hsum ⊢
  rw [hfold, hsum]
  simp only [UINT_MOD, DATA_REC]
  omega

theorem compute_offset_checksum_eq (o : Nat) :
    compute_offset_checksum o
      = (256 - (2 + ((o >>> 8) &&& 0xFF) + (o &&& 0xFF) + 2) % 256) % 256 := by
  have h255 : ∀ x : Nat, x &&& 0xFF = x % 256 := and_255
  simp only [compute_offset_checksum, and_255, h255, Nat.shiftRight_eq_div_pow, CHAR_BIT,
    UCHAR_MAX]
  rw [negate_byte_eq _ (Nat.mod_lt _ (by norm_num))]
  simp only [UINT_MOD, OFFSET_REC]
  omega

/-- C13: for a byte count `c`, an address and at least `c` data bytes,
`compute_data_checksum` is `(256 - s mod 256) mod 256` with `s` the sum of the
count, the two low address bytes, the record type 0 and the first `c` data
bytes; `compute_offset_checksum` is the same with `s = 2 + hi + lo + 2`; and
`compute_end_checksum` is `0xFF`. -/
theorem checksum_formulas (c addr : Nat) (data : List Nat) (o : Nat) (_hc : c < 256)
    (hlen : c ≤ data.length) :
    compute_data_checksum c addr data
      = (256 - (c + ((addr >>> 8) &&& 0xFF) + (addr &&& 0xFF) + 0 + (data.take c).sum) % 256)
          % 256 ∧
    compute_offset_checksum o
      = (256 - (2 + ((o >>> 8) &&& 0xFF) + (o &&& 0xFF) + 2) % 256) % 256 ∧
    compute_end_checksum = 0xFF :=
  ⟨compute_data_checksum_eq c addr data hlen, compute_offset_checksum_eq o, by decide⟩

theorem checksum_formulas_witness :
    compute_data_checksum 3 0x1234 [7, 8, 9, 10]
      = (256 - (3 + ((0x1234 >>> 8) &&& 0xFF) + (0x1234 &&& 0xFF) + 0
          + ([7, 8, 9, 10].take 3).sum) % 256) % 256 ∧
    compute_offset_checksum 0xF000
      = (256 - (2 + ((0xF000 >>> 8) &&& 0xFF) + (0xF000 &&& 0xFF) + 2) % 256) % 256 ∧
    compute_end_checksum = 0xFF :=
  checksum_formulas 3 0x1234 [7, 8, 9, 10] 0xF000 (by decide) (by decide)

/-! ## C14 -/

theorem offset_line_zero : offset_line 0 = ":020000020000FC".toList := by
  decide

theorem end_line_eq : end_line = ":00000001FF".toList := by
  decide

theorem chunk_records_no_eof (rom : List Nat) (len c : Nat) :
    ∀ r ∈ chunk_records rom len c, r ≠ Record.eof := by
  intro r hr
  unfold chunk_records at hr
  rw [List.mem_append] at hr
  rcases hr with hr | hr
  · split at hr
    · rw [List.mem_singleton] at hr
      rw [hr]; exact fun h => Record.noConfusion h
    · simp at hr
  · rw [List.mem_singleton] at hr
    rw [hr]; exact fun h => Record.noConfusion h

theorem intel_lines_frame (rom : List Nat) (len : Nat) :
    ∃ mid, intel_lines rom len
      = ":020000020000FC".toList :: mid ++ [":00000001FF".toList] := by
  unfold intel_lines
  rw [offset_line_zero, end_line_eq]
  refine ⟨(List.range (len / 16)).flatMap (fun j => chunk_lines rom (16 * j) 16)
    ++ (if len % 16 ≠ 0 then chunk_lines rom (16 * (len / 16)) (len % 16) else []), ?_⟩
  simp only [List.singleton_append, List.cons_append, List.append_assoc, List.nil_append]

/-- C14: for every image of bytes and every length (0 included) the output of
`dump_intel` begins with the line `:020000020000FC` and ends with the line
`:00000001FF`, each with its line break; decoded, the output is the offset
record 0, then records none of which is an end record, then the end record as
last line. -/
theorem dump_intel_frame (rom : List Nat) (len : Nat) (hb : is_bytes rom) :
    (∃ mid, dump_intel rom len
      = ":020000020000FC\n".toList ++ mid ++ ":00000001FF\n".toList) ∧
    (∃ mid, split_lines (dump_intel rom len)
      = ":020000020000FC".toList :: mid ++ [":00000001FF".toList]) ∧
    (∃ recs : List Record,
      (split_lines (dump_intel rom len)).map parse_record
        = (Record.offset 0 :: recs ++ [Record.eof]).map some ∧
      ∀ r ∈ recs, r ≠ Record.eof) := by
  obtain ⟨mid, hmid⟩ := intel_lines_frame rom len
  refine ⟨⟨lines_of mid, ?_⟩, ⟨mid, ?_⟩, ⟨_, parse_dump_intel rom len hb, ?_⟩⟩
  · rw [dump_intel_eq_lines, hmid]
    simp [lines_of]
  · rw [split_lines_dump_intel rom len hb, hmid]
  · intro r hr
    rw [List.mem_flatMap] at hr
    obtain ⟨j, _, hj⟩ := hr
    exact chunk_records_no_eof rom len _ r hj

theorem dump_intel_frame_witness :
    (∃ mid, dump_intel [] 0
      = ":020000020000FC\n".toList ++ mid ++ ":00000001FF\n".toList) ∧
    (∃ mid, split_lines (dump_intel [] 0)
      = ":020000020000FC".toList :: mid ++ [":00000001FF".toList]) ∧
    (∃ recs : List Record,
      (split_lines (dump_intel [] 0)).map parse_record
        = (Record.offset 0 :: recs ++ [Record.eof]).map some ∧
      ∀ r ∈ recs, r ≠ Record.eof) :=
  dump_intel_frame [] 0 (by decide)

/-! ## `dump_text` -/

theorem dump_text_eq (rom : List Nat) (rlen : Nat) :
    dump_text rom rlen
      = if ((List.range rlen).foldl (dump_text_step rom) ([], 0)).2 ≠ 0
        then ((List.range rlen).foldl (dump_text_step rom) ([], 0)).1 ++ ['\n']
        else ((List.range rlen).foldl (dump_text_step rom) ([], 0)).1 := rfl

theorem text_line_part_succ (rom : List Nat) (j m : Nat) :
    text_line_part rom j (m + 1)
      = text_line_part rom j m ++ ' ' :: hex_fixed 2 (rom.getD (16 * j + m) 0) := by
  unfold text_line_part
  rw [List.range'_concat, List.flatMap_append, List.flatMap_singleton]
  simp

theorem text_line_part_zero (rom : List Nat) (j : Nat) :
    text_line_part rom j 0 = hex_fixed 5 (16 * j) ++ [':'] := by
  simp [text_line_part]

theorem lines_of_snoc (ls : List (List Char)) (l : List Char) :
    lines_of (ls ++ [l]) = lines_of ls ++ l ++ ['\n'] := by
  simp [lines_of]

theorem dump_text_step_spec (rom : List Nat) (hb : is_bytes rom) (j k : Nat) (hk : k < 16)
    (h20 : 16 * j + k < 2 ^ 20) :
    dump_text_step rom
        (lines_of ((List.range j).map (fun i => text_line_part rom i 16))
          ++ (if k = 0 then [] else text_line_part rom j k), k) (16 * j + k)
      = if k = 15 then
          (lines_of ((List.range (j + 1)).map (fun i => text_line_part rom i 16)), 0)
        else
          (lines_of ((List.range j).map (fun i => text_line_part rom i 16))
            ++ text_line_part rom j (k + 1), k + 1) := by
  have h5 : fmtX 5 (16 * j + k) = hex_fixed 5 (16 * j + k) :=
    fmtX_eq_fixed 5 _ (by norm_num) (by norm_num at h20 ⊢; omega)
  have h2 : fmtX 2 (rom.getD (16 * j + k) 0) = hex_fixed 2 (rom.getD (16 * j + k) 0) :=
    fmtX_eq_fixed 2 _ (by norm_num)
      (lt_of_lt_of_le (getD_lt_of_bytes rom hb (16 * j + k)) (by norm_num))
  have hand : (k + 1) &&& 15 = (k + 1) % 16 := Nat.and_pow_two_sub_one_eq_mod _ 4
  unfold dump_text_step
  simp only [h5, h2, hand]
  by_cases h0 : k = 0
  · subst h0
    have e1 : ¬ ((0 + 1) % 16 = 0) := by norm_num
    have e2 : ¬ (0 = 15) := by norm_num
    simp only [if_true, if_neg e1, if_neg e2, Nat.add_zero, List.append_nil]
    rw [text_line_part_succ, text_line_part_zero]
    simp
  · by_cases h15 : k = 15
    · subst h15
      have e1 : (15 + 1) % 16 = 0 := by norm_num
      simp only [if_neg h0, if_pos e1, if_true]
      rw [List.range_succ, List.map_append, List.map_singleton, lines_of_snoc,
        text_line_part_succ rom j 15]
      simp
    · have e1 : ¬ ((k + 1) % 16 = 0) := by omega
      have e2 : (k + 1) % 16 = k + 1 := by omega
      simp only [if_neg h0, if_neg e1, if_neg h15, e2]
      rw [text_line_part_succ]
      simp

theorem dump_text_loop (rom : List Nat) (hb : is_bytes rom) (n : Nat) (h20 : n ≤ 2 ^ 20) :
    (List.range n).foldl (dump_text_step rom) ([], 0)
      = (lines_of ((List.range (n / 16)).map (fun i => text_line_part rom i 16))
          ++ (if n % 16 = 0 then [] else text_line_part rom (n / 16) (n % 16)), n % 16) := by
  induction n with
  | zero => simp [lines_of]
  | succ n ih =>
    have ihn := ih (by omega)
    have hstep := dump_text_step_spec rom hb (n / 16) (n % 16) (Nat.mod_lt _ (by norm_num))
      (by omega)
    have hn : 16 * (n / 16) + n % 16 = n := Nat.div_add_mod n 16
    rw [hn] at hstep
    rw [List.range_succ, List.foldl_append, ihn, List.foldl_cons, List.foldl_nil, hstep]
    by_cases h15 : n % 16 = 15
    · have e1 : (n + 1) / 16 = n / 16 + 1 := by omega
      have e2 : (n + 1) % 16 = 0 := by omega
      rw [if_pos h15, e1, e2, if_pos rfl, List.append_nil]
    · have e1 : (n + 1) / 16 = n / 16 := by omega
      have e2 : (n + 1) % 16 = n % 16 + 1 := by omega
      rw [if_neg h15, e1, e2, if_neg (by omega)]

theorem text_lines_eq (rom : List Nat) (len : Nat) :
    text_lines rom len
      = (List.range (len / 16)).map (fun i => text_line_part rom i 16)
        ++ (if len % 16 = 0 then [] else [text_line_part rom (len / 16) (len % 16)]) := by
  unfold text_lines
  rw [range_chunks, List.map_append]
  congr 1
  · apply List.map_congr_left
    intro i hi
    rw [List.mem_range] at hi
    have : min 16 (len - 16 * i) = 16 := by omega
    rw [this]
  · by_cases h : len % 16 = 0
    · rw [if_pos h, if_neg (by simpa using h)]; rfl
    · have : min 16 (len - 16 * (len / 16)) = len % 16 := by omega
      rw [if_neg h, if_pos h, List.map_singleton, this]

theorem dump_text_eq_lines (rom : List Nat) (len : Nat) (hb : is_bytes rom)
    (h20 : len ≤ 2 ^ 20) : dump_text rom len = lines_of (text_lines rom len) := by
  rw [dump_text_eq, dump_text_loop rom hb len h20, text_lines_eq]
  by_cases h : len % 16 = 0
  · simp [h]
  · simp only [h, if_false, ne_eq, not_false_eq_true, if_true]
    rw [lines_of_snoc, List.append_assoc]

theorem text_line_part_ne_nil (rom : List Nat) (j m : Nat) : text_line_part rom j m ≠ [] := by
  unfold text_line_part
  simp [hex_fixed]

theorem text_line_part_no_newline (rom : List Nat) (j m : Nat) :
    ∀ c ∈ text_line_part rom j m, c ≠ '\n' := by
  have hfix : ∀ w n, ∀ c ∈ hex_fixed w n, c ≠ '\n' := by
    intro w
    induction w with
    | zero => intro n c hc; simp [hex_fixed] at hc
    | succ w ih =>
      intro n c hc
      rw [hex_fixed, List.mem_append] at hc
      rcases hc with hc | hc
      · exact ih _ c hc
      · rw [List.mem_singleton] at hc
        rw [hc]
        exact hexDigit_ne_newline _ (Nat.mod_lt _ (by norm_num))
  intro c hc
  unfold text_line_part at hc
  simp only [List.mem_append, List.mem_cons, List.mem_flatMap] at hc
  rcases hc with hc | rfl | ⟨a, _, rfl | hc⟩
  · exact hfix _ _ c hc
  · decide
  · decide
  · exact hfix _ _ c hc

/-! ## C15 -/

/-- C15: for an image of bytes and a length `len ≤ 2 ^ 20`, the output of
`dump_text` is `ceil (len / 16)` lines, each followed by one line break and
none empty; line `j` is the 5-digit upper-case hexadecimal value of `16 * j`,
a colon, and for each of the bytes `16 * j .. min (16 * j + 15) (len - 1)` a
space and the byte as two upper-case hexadecimal digits; for `len = 0` the
output is empty. -/
theorem dump_text_spec (rom : List Nat) (len : Nat) (hb : is_bytes rom)
    (h20 : len ≤ 2 ^ 20) :
    dump_text rom len
      = lines_of ((List.range ((len + 15) / 16)).map (fun j =>
          hex_fixed 5 (16 * j) ++ ':' :: (List.range' (16 * j) (min 16 (len - 16 * j))).flatMap
            (fun a => ' ' :: hex_fixed 2 (rom.getD a 0)))) ∧
    (split_lines (dump_text rom len)).length = (len + 15) / 16 ∧
    (∀ l ∈ split_lines (dump_text rom len), l ≠ []) ∧
    (len = 0 → dump_text rom len = []) := by
  have heq := dump_text_eq_lines rom len hb h20
  have hsplit : split_lines (dump_text rom len) = text_lines rom len := by
    rw [heq]
    apply split_lines_lines_of
    intro b hbm
    unfold text_lines at hbm
    rw [List.mem_map] at hbm
    obtain ⟨j, _, rfl⟩ := hbm
    exact text_line_part_no_newline rom j _
  refine ⟨heq, ?_, ?_, ?_⟩
  · rw [hsplit]
    simp [text_lines]
  · intro l hl
    rw [hsplit] at hl
    unfold text_lines at hl
    rw [List.mem_map] at hl
    obtain ⟨j, _, rfl⟩ := hl
    exact text_line_part_ne_nil rom j _
  · intro h0
    subst h0
    rfl

theorem dump_text_spec_witness :
    dump_text (List.replicate 17 0) 17
      = lines_of ((List.range ((17 + 15) / 16)).map (fun j =>
          hex_fixed 5 (16 * j) ++ ':' :: (List.range' (16 * j) (min 16 (17 - 16 * j))).flatMap
            (fun a => ' ' :: hex_fixed 2 ((List.replicate 17 0).getD a 0)))) ∧
    (split_lines (dump_text (List.replicate 17 0) 17)).length = (17 + 15) / 16 ∧
    (∀ l ∈ split_lines (dump_text (List.replicate 17 0) 17), l ≠ []) ∧
    (17 = 0 → dump_text (List.replicate 17 0) 17 = []) :=
  dump_text_spec (List.replicate 17 0) 17 (by decide) (by norm_num)

/-- The example of the specification: the hex dump of 17 zero bytes. -/
theorem dump_text_example :
    dump_text (List.replicate 17 0) 17
      = ("00000: 00 00 00 00 00 00 00 00 00 00 00 00 00 00 00 00\n"
          ++ "00010: 00\n").toList := by
  decide

/-! ## C16 -/

theorem process_lines_append (odcv : Char) (a b : List (List Char)) :
    ∀ s : Session, process_lines odcv s (a ++ b)
      = match process_lines odcv s a with
        | Except.error e => Except.error e
        | Except.ok s1 => process_lines odcv s1 b := by
  induction a with
  | nil => intro s; rfl
  | cons l ls ih =>
    intro s
    rw [List.cons_append, process_lines, process_lines]
    cases process_line odcv s l with
    | error e => rfl
    | ok s1 => exact ih s1

theorem process_row_error_res (odcv : Char) (s : Session) (ibuf : List Char) (res : Nat)
    (msg : Diag) (h : process_row odcv s ibuf = Except.error (Abort.error res msg)) :
    res = 1 ∨ res = 4 ∨ res = 5 := by
  unfold process_row at h
  simp only [] at h
  split at h
  · rw [Except.error.injEq, Abort.error.injEq] at h
    exact Or.inl h.1.symm
  · split at h
    · rw [Except.error.injEq, Abort.error.injEq] at h
      exact Or.inr (Or.inl h.1.symm)
    · split at h
      · rw [Except.error.injEq, Abort.error.injEq] at h
        exact Or.inr (Or.inr h.1.symm)
      · exact absurd h (by simp)
      · exact absurd h (by simp)

theorem process_line_error_res (odcv : Char) (s : Session) (l : List Char) (res : Nat)
    (msg : Diag) (hfirst : s.first = false)
    (h : process_line odcv s l = Except.error (Abort.error res msg)) :
    res = 1 ∨ res = 4 ∨ res = 5 := by
  by_cases hb : is_blank (strip_comment l) = true
  · rw [process_line_blank odcv s l hb] at h
    exact absurd h (by simp)
  · rw [process_line_row odcv s l (by simpa using hb) hfirst] at h
    exact process_row_error_res odcv _ _ res msg h

/-- C16: when a data row is rejected, after any number of lines that were
processed without error, `process_file` returns the row's non-zero result (1,
4 or 5) with its diagnostic and writes no file, whatever lines follow. -/
theorem process_file_row_rejected (odcv : Char) (fmt : Nat) (pre rest : List (List Char))
    (l : List Char) (s : Session) (res : Nat) (msg : Diag)
    (hpre : process_lines odcv Session.init pre = Except.ok s)
    (hfirst : s.first = false)
    (hrej : process_line odcv s l = Except.error (Abort.error res msg)) :
    process_file odcv fmt (pre ++ l :: rest) = Except.error (Abort.error res msg) ∧
    res ≠ 0 ∧ (res = 1 ∨ res = 4 ∨ res = 5) ∧
    ∀ files, process_file odcv fmt (pre ++ l :: rest) ≠ Except.ok files := by
  have hres := process_line_error_res odcv s l res msg hfirst hrej
  have hfile : process_file odcv fmt (pre ++ l :: rest)
      = Except.error (Abort.error res msg) := by
    unfold process_file
    rw [process_lines_append, hpre]
    simp only [process_lines, hrej]
  refine ⟨hfile, by omega, hres, ?_⟩
  intro files hfiles
  rw [hfile] at hfiles
  exact absurd hfiles (by simp)

theorem process_file_row_rejected_witness :
    process_file '1' INTEL_FMT ([['A', '0'], ['0', '1']] ++ ['2', '1'] :: [['1', '1']])
      = Except.error (Abort.error 1 (Diag.data_invalid_char 3)) ∧
    1 ≠ 0 ∧ (1 = 1 ∨ 1 = 4 ∨ 1 = 5) ∧
    ∀ files, process_file '1' INTEL_FMT
      ([['A', '0'], ['0', '1']] ++ ['2', '1'] :: [['1', '1']]) ≠ Except.ok files :=
  process_file_row_rejected '1' INTEL_FMT [['A', '0'], ['0', '1']] [['1', '1']] ['2', '1']
    { line := 2, first := false, config := ['A', '0'], nroms := 1, abits := 1, length := 2, rom := [some [1, 0]], data := [0] }
    1 (Diag.data_invalid_char 3) rfl rfl rfl

/-! ## C17 -/

theorem alloc_roms_step_allocated (abits : Nat) (rom : List (Option (List Nat))) (c : Char)
    (h : rom.getD (digit_val c) none ≠ none) : alloc_roms_step abits rom c = rom := by
  unfold alloc_roms_step
  by_cases hd : isdigit c = true
  · rw [if_pos hd]
    have h2 : ¬ rom.getD (c.toNat - 48) none = none := h
    simp only [h2, if_false]
  · rw [if_neg hd]

theorem mem_dump_roms (rom : List (Option (List Nat))) (nroms abits fmt ix : Nat)
    (content : List Nat) :
    (ix, content) ∈ dump_roms rom nroms abits fmt
      ↔ ix < nroms ∧ ∃ img, rom.getD ix none = some img
          ∧ content = dump_rom fmt img (1 <<< abits) := by
  unfold dump_roms
  rw [List.mem_filterMap]
  constructor
  · rintro ⟨j, hj, hm⟩
    rw [List.mem_range] at hj
    cases hr : rom.getD j none with
    | none => rw [hr] at hm; exact absurd hm (by simp)
    | some img =>
      rw [hr] at hm
      simp only [Option.some.injEq, Prod.mk.injEq] at hm
      obtain ⟨rfl, rfl⟩ := hm
      exact ⟨hj, img, hr, rfl⟩
  · rintro ⟨hlt, img, hr, rfl⟩
    refine ⟨ix, List.mem_range.mpr hlt, ?_⟩
    rw [hr]

/-- C17: for an accepted header with `nroms = count_roms` images and
`abits = count_addr` address bits, `alloc_roms` returns a table of `nroms`
entries in which image `i < nroms` is allocated exactly when the digit `i`
occurs in the header; every allocated image is `2 ^ abits` zero bytes; a digit
whose image is already allocated leaves the table unchanged; and `dump_roms`
writes a file for ROM `ix` exactly when `ix < nroms` and image `ix` is
allocated, with the serialization of that image as content. -/
theorem alloc_roms_images (h : List Char)
    (_hv : ∀ c ∈ h, (isdigit c = true ∨ c = 'A' ∨ c = 'a'))
    (hd : ∃ c ∈ h, isdigit c = true)
    (_hb1 : 1 ≤ count_addr h) (_hb2 : count_addr h ≤ 20) :
    (alloc_roms (count_roms h).toNat h (count_addr h)).length = (count_roms h).toNat ∧
    (∀ i, i < (count_roms h).toNat →
      ((∃ img, (alloc_roms (count_roms h).toNat h (count_addr h)).getD i none = some img)
        ↔ ∃ d ∈ h, isdigit d = true ∧ digit_val d = i)) ∧
    (∀ i img, (alloc_roms (count_roms h).toNat h (count_addr h)).getD i none = some img →
      img = List.replicate (2 ^ count_addr h) 0) ∧
    (∀ (rom : List (Option (List Nat))) (c : Char),
      rom.getD (digit_val c) none ≠ none → alloc_roms_step (count_addr h) rom c = rom) ∧
    (∀ (rom : List (Option (List Nat))) (fmt ix : Nat) (content : List Nat),
      (ix, content) ∈ dump_roms rom (count_roms h).toNat (count_addr h) fmt
        ↔ ix < (count_roms h).toNat ∧ ∃ img, rom.getD ix none = some img
            ∧ content = dump_rom fmt img (2 ^ count_addr h)) := by
  obtain ⟨hlen, hget⟩ := alloc_roms_spec (count_roms h).toNat (count_addr h) h
  have _ := hd
  refine ⟨hlen, ?_, ?_, ?_, ?_⟩
  · intro i hi
    rw [hget i, ← has_image_iff]
    by_cases him : has_image h i = true
    · simp [him, hi]
    · simp [him]
  · intro i img himg
    rw [hget i] at himg
    split at himg
    · exact (Option.some.inj himg).symm
    · exact absurd himg (by simp)
  · intro rom c hc
    exact alloc_roms_step_allocated _ rom c hc
  · intro rom fmt ix content
    rw [mem_dump_roms, one_shl]

theorem alloc_roms_images_witness :
    (alloc_roms (count_roms ['A', '2', '2', 'a', '0']).toNat ['A', '2', '2', 'a', '0']
      (count_addr ['A', '2', '2', 'a', '0'])).length
        = (count_roms ['A', '2', '2', 'a', '0']).toNat ∧
    (∀ i, i < (count_roms ['A', '2', '2', 'a', '0']).toNat →
      ((∃ img, (alloc_roms (count_roms ['A', '2', '2', 'a', '0']).toNat
          ['A', '2', '2', 'a', '0'] (count_addr ['A', '2', '2', 'a', '0'])).getD i none
            = some img)
        ↔ ∃ d ∈ ['A', '2', '2', 'a', '0'], isdigit d = true ∧ digit_val d = i)) ∧
    (∀ i img, (alloc_roms (count_roms ['A', '2', '2', 'a', '0']).toNat
        ['A', '2', '2', 'a', '0'] (count_addr ['A', '2', '2', 'a', '0'])).getD i none
          = some img →
      img = List.replicate (2 ^ count_addr ['A', '2', '2', 'a', '0']) 0) ∧
    (∀ (rom : List (Option (List Nat))) (c : Char),
      rom.getD (digit_val c) none ≠ none →
        alloc_roms_step (count_addr ['A', '2', '2', 'a', '0']) rom c = rom) ∧
    (∀ (rom : List (Option (List Nat))) (fmt ix : Nat) (content : List Nat),
      (ix, content) ∈ dump_roms rom (count_roms ['A', '2', '2', 'a', '0']).toNat
          (count_addr ['A', '2', '2', 'a', '0']) fmt
        ↔ ix < (count_roms ['A', '2', '2', 'a', '0']).toNat ∧
          ∃ img, rom.getD ix none = some img
            ∧ content = dump_rom fmt img (2 ^ count_addr ['A', '2', '2', 'a', '0'])) :=
  alloc_roms_images ['A', '2', '2', 'a', '0'] (by decide) (by decide) (by decide) (by decide)

/-- An example for C17: the header `A22a0` allocates images 0 and 2, leaves
image 1 unallocated, and each image has `2 ^ 2` zero bytes. -/
theorem alloc_roms_example :
    alloc_roms 3 ['A', '2', '2', 'a', '0'] 2
      = [some [0, 0, 0, 0], none, some [0, 0, 0, 0]] := by
  decide

/-! ## C18 -/

theorem strip_comment_map (f : Char → Char) (hf : ∀ c, f c = '#' ↔ c = '#') (l : List Char) :
    strip_comment (l.map f) = (strip_comment l).map f := by
  induction l with
  | nil => rfl
  | cons c cs ih =>
    by_cases hc : c = '#'
    · simp [strip_comment, hc, (hf '#').mpr rfl]
    · have hfc : f c ≠ '#' := fun h => hc ((hf c).mp h)
      simp [strip_comment, hc, hfc, ih]

theorem is_blank_map (f : Char → Char) (hf : ∀ c, isspace (f c) = isspace c) (l : List Char) :
    is_blank (l.map f) = is_blank l := by
  induction l with
  | nil => rfl
  | cons c cs ih => simp [is_blank, hf, ih]

theorem strip_run_map (f : Char → Char) (hf : ∀ c, isspace (f c) = isspace c)
    (m : StripMode) (l : List Char) : strip_run m (l.map f) = (strip_run m l).map f := by
  induction l generalizing m with
  | nil => cases m <;> rfl
  | cons c cs ih =>
    cases m <;> by_cases hc : isspace c = true <;> simp [strip_run, hf, hc, ih]

theorem translate_translate (l : List Char) (src dst : Char) :
    translate (translate l src dst) src dst = translate l src dst := by
  unfold translate
  rw [List.map_map]
  apply List.map_congr_left
  intro c _
  by_cases hc : c = src
  · by_cases hd : dst = src <;> simp [hc, hd]
  · simp [hc]

theorem output_dc_hash (d : Char) (hd : d = '0' ∨ d = '1') (c : Char) :
    (if c = OUTPUT_DC then d else c) = '#' ↔ c = '#' := by
  by_cases hc : c = OUTPUT_DC
  · rw [if_pos hc]
    subst hc
    rcases hd with rfl | rfl <;> decide
  · rw [if_neg hc]

theorem output_dc_space (d : Char) (hd : d = '0' ∨ d = '1') (c : Char) :
    isspace (if c = OUTPUT_DC then d else c) = isspace c := by
  by_cases hc : c = OUTPUT_DC
  · rw [if_pos hc]
    subst hc
    rcases hd with rfl | rfl <;> decide
  · rw [if_neg hc]

theorem process_row_translate (odcv : Char) (s : Session) (ibuf : List Char) :
    process_row odcv s (translate ibuf OUTPUT_DC odcv) = process_row odcv s ibuf := by
  unfold process_row
  simp only [translate_translate]

theorem process_line_translate (odcv : Char) (s : Session) (l : List Char)
    (hd : odcv = '0' ∨ odcv = '1') (hf : s.first = false) :
    process_line odcv s (translate l OUTPUT_DC odcv) = process_line odcv s l := by
  have e1 : strip_comment (translate l OUTPUT_DC odcv)
      = translate (strip_comment l) OUTPUT_DC odcv :=
    strip_comment_map _ (output_dc_hash odcv hd) l
  have e2 : is_blank (translate (strip_comment l) OUTPUT_DC odcv) = is_blank (strip_comment l) :=
    is_blank_map _ (output_dc_space odcv hd) _
  have e3 : strip_whitespace (translate (strip_comment l) OUTPUT_DC odcv)
      = translate (strip_whitespace (strip_comment l)) OUTPUT_DC odcv :=
    strip_run_map _ (output_dc_space odcv hd) StripMode.scan _
  unfold process_line
  simp only [e1, e2, e3, hf, Bool.false_eq_true, if_false, process_row_translate]

/-- C18, the claim as stated fails: with header `A0` and default bit 1 the data
line `-1`, whose address column holds the marker, is accepted; it is read as
`11` and the binary image of ROM 0 is written with byte 1 at address 1. -/
theorem address_dash_accepted :
    process_file '1' BINARY_FMT [['A', '0'], ['-', '1']] = Except.ok [(0, [0, 1])] := by
  rfl

/-- C18 as amended: a marker in an address column is not rejected.  Every `-`
of a data line, in address and image columns alike, is replaced by the default
bit before validation, so the line is processed exactly as the line in which
each `-` is replaced by the default bit. -/
theorem process_line_dash_any_column (odcv : Char) (s : Session) (l : List Char)
    (hd : odcv = '0' ∨ odcv = '1') (hf : s.first = false) :
    process_line odcv s l = process_line odcv s (l.map (fun c => if c = '-' then odcv else c)) :=
  (process_line_translate odcv s l hd hf).symm

theorem process_line_dash_any_column_witness :
    process_line '1' ({ line := 1, first := false, config := ['A', '0'], nroms := 1, abits := 1, length := 2, rom := [some [0, 0]], data := [0] } : Session) ['-', '1']
      = process_line '1' ({ line := 1, first := false, config := ['A', '0'], nroms := 1, abits := 1, length := 2, rom := [some [0, 0]], data := [0] } : Session) (['-', '1'].map (fun c => if c = '-' then '1' else c)) :=
  process_line_dash_any_column '1' _ ['-', '1'] (Or.inr rfl) rfl

/-! ## C19 -/

theorem translate_replace_output_dc (config : List Char) (d : Char) (row : List Char) :
    translate (replace_output_dc config d row) OUTPUT_DC d = translate row OUTPUT_DC d := by
  induction row generalizing config with
  | nil => cases config <;> rfl
  | cons c cs ih =>
    cases config with
    | nil => rfl
    | cons h hs =>
      have ih1 := ih hs
      unfold translate at ih1 ⊢
      simp only [replace_output_dc, List.map_cons, ih1, List.cons.injEq, and_true]
      by_cases hc : c = OUTPUT_DC
      · by_cases hh : isdigit h = true
        · by_cases hd : d = OUTPUT_DC <;> simp [hc, hh, hd]
        · simp [hc, hh]
      · simp [hc]

theorem process_row_replace_output_dc (odcv : Char) (s : Session) (ibuf : List Char) :
    process_row odcv s (replace_output_dc s.config odcv ibuf) = process_row odcv s ibuf := by
  unfold process_row
  simp only [translate_replace_output_dc]

theorem translate_getElem? (str : List Char) (src dst : Char) (i : Nat) :
    (translate str src dst)[i]? = str[i]?.map (fun c => if c = src then dst else c) := by
  unfold translate
  rw [List.getElem?_map]

theorem set_output_dc_bit (value : Option (List Char)) (bitval : Int) (endp : List Char)
    (d : Char) (h : set_output_dc value bitval endp = Except.ok d) : d = '0' ∨ d = '1' := by
  unfold set_output_dc at h
  split at h
  · exact absurd h (by simp)
  · exact absurd h (by simp)
  · split at h
    · exact absurd h (by simp)
    · split at h
      · exact absurd h (by simp)
      · simp only [Except.ok.injEq] at h
        subst h
        by_cases hb : bitval ≠ 0
        · right; rw [if_pos hb]
        · left; rw [if_neg hb]

/-- C19: in a data line a `-` in an output column (a column whose header
character is a digit) is decoded as the configured default bit: a line whose
row text is the row text of `l` with each such `-` replaced by `odcv` is
processed exactly as `l`, with the same images and the same result.  The
default bit is 1 unless set, `output-dc` with value 0 sets it to 0 and any
accepted value sets it to 0 or 1.  `translate` preserves the length and maps
each character `c` to `dst` when `c = src` and to itself otherwise. -/
theorem output_dc_default_bit (odcv : Char) (s : Session) (l l1 : List Char)
    (hf : s.first = false)
    (hb : is_blank (strip_comment l) = false) (hb1 : is_blank (strip_comment l1) = false)
    (hl : strip_whitespace (strip_comment l1)
      = replace_output_dc s.config odcv (strip_whitespace (strip_comment l))) :
    process_line odcv s l1 = process_line odcv s l ∧
    g_odcv_init = '1' ∧
    set_output_dc (some ['0']) 0 [] = Except.ok '0' ∧
    (∀ value bitval endp d, set_output_dc value bitval endp = Except.ok d → d = '0' ∨ d = '1') ∧
    (∀ (str : List Char) (src dst : Char),
      (translate str src dst).length = str.length ∧
      (∀ (i : Nat) (c : Char), str[i]? = some c →
        (translate str src dst)[i]? = some (if c = src then dst else c))) := by
  refine ⟨?_, rfl, rfl, set_output_dc_bit, ?_⟩
  · rw [process_line_row odcv s l1 hb1 hf, process_line_row odcv s l hb hf, hl]
    exact process_row_replace_output_dc odcv { s with line := s.line + 1 } _
  · intro str src dst
    refine ⟨by simp [translate], ?_⟩
    intro i c hc
    rw [translate_getElem?, hc]
    rfl

theorem output_dc_default_bit_witness :
    process_line '0' ({ line := 1, first := false, config := ['A', 'A', '0'], nroms := 1, abits := 2, length := 3, rom := [some [0, 0, 0, 0]], data := [0] } : Session) ['-', '1', ' ', '0', '#', '-']
      = process_line '0' ({ line := 1, first := false, config := ['A', 'A', '0'], nroms := 1, abits := 2, length := 3, rom := [some [0, 0, 0, 0]], data := [0] } : Session) ['-', '1', '-'] ∧
    g_odcv_init = '1' ∧
    set_output_dc (some ['0']) 0 [] = Except.ok '0' ∧
    (∀ value bitval endp d, set_output_dc value bitval endp = Except.ok d → d = '0' ∨ d = '1') ∧
    (∀ (str : List Char) (src dst : Char),
      (translate str src dst).length = str.length ∧
      (∀ (i : Nat) (c : Char), str[i]? = some c →
        (translate str src dst)[i]? = some (if c = src then dst else c))) :=
  output_dc_default_bit '0' _ ['-', '1', '-'] ['-', '1', ' ', '0', '#', '-'] rfl rfl rfl rfl

/-- An example for C19: after header `A1`, the row `1-` stores 1 at address 1 of
image 1 with the default bit and 0 with `output-dc` 0. -/
theorem output_dc_example :
    process_file g_odcv_init BINARY_FMT [['A', '1'], ['1', '-']] = Except.ok [(1, [0, 1])] ∧
    process_file '0' BINARY_FMT [['A', '1'], ['1', '-']] = Except.ok [(1, [0, 0])] :=
  ⟨rfl, rfl⟩

/-! ## Codec output as a function of the first bytes -/

theorem getD_of_take_eq (rom rom1 : List Nat) (L : Nat) (h : rom.take L = rom1.take L)
    (i : Nat) (hi : i < L) : rom.getD i 0 = rom1.getD i 0 := by
  have h1 : (rom.take L)[i]? = (rom1.take L)[i]? := by rw [h]
  rw [List.getElem?_take_of_lt hi, List.getElem?_take_of_lt hi] at h1
  rw [List.getD_eq_getElem?_getD, List.getD_eq_getElem?_getD, h1]

theorem dump_text_congr (rom rom1 : List Nat) (L : Nat) (h : rom.take L = rom1.take L) :
    dump_text rom L = dump_text rom1 L := by
  have hfold : ∀ st : List Char × Nat,
      (List.range L).foldl (dump_text_step rom) st
        = (List.range L).foldl (dump_text_step rom1) st := by
    intro st
    apply List.foldl_ext
    intro a pos hpos
    unfold dump_text_step
    rw [getD_of_take_eq rom rom1 L h pos (List.mem_range.mp hpos)]
  rw [dump_text_eq, dump_text_eq, hfold]

theorem compute_data_checksum_congr (count addr : Nat) (d d1 : List Nat)
    (h : ∀ i, i < count → d.getD i 0 = d1.getD i 0) :
    compute_data_checksum count addr d = compute_data_checksum count addr d1 := by
  unfold compute_data_checksum
  have hfold : ∀ s0 : Nat,
      (List.range count).foldl (fun s ix => (s + d.getD ix 0) % UINT_MOD) s0
        = (List.range count).foldl (fun s ix => (s + d1.getD ix 0) % UINT_MOD) s0 := by
    intro s0
    apply List.foldl_ext
    intro a ix hix
    rw [h ix (List.mem_range.mp hix)]
  simp only [hfold]

theorem data_line_congr (d d1 : List Nat) (len addr : Nat)
    (h : ∀ i, i < len → d.getD i 0 = d1.getD i 0) :
    data_line d len addr = data_line d1 len addr := by
  unfold data_line
  have hmap : (List.range len).map (fun ix => fmtX 2 (d.getD ix 0))
      = (List.range len).map (fun ix => fmtX 2 (d1.getD ix 0)) := by
    apply List.map_congr_left
    intro ix hix
    rw [h ix (List.mem_range.mp hix)]
  have hchk := compute_data_checksum_congr (len % 256) addr d d1
    (fun i hi => h i (lt_of_lt_of_le hi (Nat.mod_le _ _)))
  rw [hmap, hchk]

theorem chunk_lines_congr (rom rom1 : List Nat) (L c len : Nat)
    (h : rom.take L = rom1.take L) (hc : c + len ≤ L) :
    chunk_lines rom c len = chunk_lines rom1 c len := by
  unfold chunk_lines
  have hd : data_line (rom.drop c) len (c % 65536) = data_line (rom1.drop c) len (c % 65536) := by
    apply data_line_congr
    intro i hi
    rw [getD_drop, getD_drop]
    exact getD_of_take_eq rom rom1 L h (c + i) (by omega)
  rw [hd]

theorem dump_intel_congr (rom rom1 : List Nat) (L : Nat) (h : rom.take L = rom1.take L) :
    dump_intel rom L = dump_intel rom1 L := by
  rw [dump_intel_eq_lines, dump_intel_eq_lines]
  unfold intel_lines
  have hfull : (List.range (L / 16)).flatMap (fun j => chunk_lines rom (16 * j) 16)
      = (List.range (L / 16)).flatMap (fun j => chunk_lines rom1 (16 * j) 16) := by
    have hmap : (List.range (L / 16)).map (fun j => chunk_lines rom (16 * j) 16)
        = (List.range (L / 16)).map (fun j => chunk_lines rom1 (16 * j) 16) := by
      apply List.map_congr_left
      intro j hj
      have hj1 := List.mem_range.mp hj
      exact chunk_lines_congr rom rom1 L (16 * j) 16 h (by omega)
    rw [List.flatMap_def, List.flatMap_def, hmap]
  have htail : chunk_lines rom (16 * (L / 16)) (L % 16)
      = chunk_lines rom1 (16 * (L / 16)) (L % 16) :=
    chunk_lines_congr rom rom1 L _ _ h (by omega)
  rw [hfull, htail]

/-- An example for C20: the raw dump of a four-byte image is its four bytes. -/
theorem dump_raw_example : dump_raw [7, 0, 255, 1] 4 = [7, 0, 255, 1] := by
  decide

/-! ## C21 -/

theorem strip_run_filter (m : StripMode) (l : List Char) :
    strip_run m l = l.filter (fun c => !isspace c) := by
  induction l generalizing m with
  | nil => cases m <;> rfl
  | cons c cs ih =>
    cases m <;> by_cases hc : isspace c = true <;> simp [strip_run, hc, ih]

/-- C21: `strip_whitespace` returns exactly the characters of the string that
are not white space, in their original order; the result holds no white
space, is no longer than the string, and is the string itself when the string
has no white space. -/
theorem strip_whitespace_filter (s : List Char) :
    strip_whitespace s = s.filter (fun c => !isspace c) ∧
    (∀ c ∈ strip_whitespace s, isspace c = false) ∧
    (strip_whitespace s).length ≤ s.length ∧
    ((∀ c ∈ s, isspace c = false) → strip_whitespace s = s) := by
  have h : strip_whitespace s = s.filter (fun c => !isspace c) :=
    strip_run_filter StripMode.scan s
  refine ⟨h, ?_, ?_, ?_⟩
  · intro c hc
    rw [h, List.mem_filter] at hc
    simpa using hc.2
  · rw [h]
    exact List.length_filter_le _ _
  · intro hs
    exact strip_whitespace_id s hs

/-- An example for C21: blanks, tabs and line breaks are removed wherever they
stand. -/
theorem strip_whitespace_example :
    strip_whitespace " 0 1\tx \n1 ".toList = "01x1".toList := by
  decide

/-! ## C22 -/

theorem strip_comment_takeWhile (s : List Char) :
    strip_comment s = s.takeWhile (fun c => decide (c ≠ '#')) := by
  induction s with
  | nil => rfl
  | cons c cs ih =>
    by_cases hc : c = '#'
    · simp [strip_comment, hc]
    · simp [strip_comment, hc, ih]

theorem strip_comment_no_hash (s : List Char) : ∀ c ∈ strip_comment s, c ≠ '#' := by
  intro c hc
  rw [strip_comment_takeWhile] at hc
  simpa using List.mem_takeWhile_imp hc

theorem strip_comment_split (s : List Char) (h : '#' ∈ s) :
    ∃ rest, s = strip_comment s ++ '#' :: rest := by
  induction s with
  | nil => exact absurd h (by simp)
  | cons c cs ih =>
    by_cases hc : c = '#'
    · exact ⟨cs, by simp [strip_comment, hc]⟩
    · have hcs : '#' ∈ cs := by
        rcases List.mem_cons.mp h with h1 | h1
        · exact absurd h1.symm hc
        · exact h1
      obtain ⟨rest, hrest⟩ := ih hcs
      refine ⟨rest, ?_⟩
      simp only [strip_comment, if_neg hc, List.cons_append]
      rw [← hrest]

theorem strip_comment_longest (s p : List Char) (hp : p <+: s) (hn : ∀ c ∈ p, c ≠ '#') :
    p <+: strip_comment s := by
  induction s generalizing p with
  | nil =>
    have : p = [] := List.prefix_nil.mp hp
    subst this
    exact List.nil_prefix
  | cons c cs ih =>
    cases p with
    | nil => exact List.nil_prefix
    | cons d ds =>
      obtain ⟨hdc, hds⟩ := List.cons_prefix_cons.mp hp
      subst hdc
      have hd : d ≠ '#' := hn d (by simp)
      simp only [strip_comment, if_neg hd]
      exact List.cons_prefix_cons.mpr ⟨rfl, ih ds hds (fun x hx => hn x (by simp [hx]))⟩

/-- C22: `strip_comment` returns the longest initial segment of the string that
holds no `#`: it is an initial segment without `#`, every initial segment
without `#` is an initial segment of it, it is followed by `#` when the string
holds one, it is the string itself otherwise, and stripping twice is stripping
once. -/
theorem strip_comment_spec (s : List Char) :
    strip_comment s <+: s ∧
    (∀ c ∈ strip_comment s, c ≠ '#') ∧
    (∀ p, p <+: s → (∀ c ∈ p, c ≠ '#') → p <+: strip_comment s) ∧
    ('#' ∈ s → ∃ rest, s = strip_comment s ++ '#' :: rest) ∧
    ('#' ∉ s → strip_comment s = s) ∧
    strip_comment (strip_comment s) = strip_comment s := by
  have hno := strip_comment_no_hash s
  refine ⟨?_, hno, fun p hp hn => strip_comment_longest s p hp hn, strip_comment_split s, ?_, ?_⟩
  · rw [strip_comment_takeWhile]
    exact List.takeWhile_prefix _
  · intro h
    exact strip_comment_id s (fun c hc hce => h (hce ▸ hc))
  · exact strip_comment_id _ hno

/-- An example for C22: the text from the first `#` on is dropped. -/
theorem strip_comment_example :
    strip_comment "01 x # a#b".toList = "01 x ".toList := by
  decide

/-! ## C23 -/

theorem template_valid_loop_spec (n : Nat) :
    ∀ (s : List Char), s.length ≤ n → ∀ (h : Nat), h ≤ 1 →
      (template_valid_loop h s = true
        ↔ (∀ x ∈ directives s, x = some 'd' ∨ x = some '%')
          ∧ h + (directives s).count (some 'd') = 1) := by
  induction n with
  | zero =>
    intro s hs h hh
    have : s = [] := List.length_eq_zero.mp (by omega)
    subst this
    simp [template_valid_loop, directives]
  | succ n ih =>
    intro s hs h hh
    match s with
    | [] => simp [template_valid_loop, directives]
    | [c] =>
      by_cases hc : c = '%'
      · simp [template_valid_loop, directives, hc]
      · simp [template_valid_loop, directives, hc]
    | c :: d :: rest =>
      have hrest : rest.length ≤ n := by simp at hs; omega
      have htail : (d :: rest).length ≤ n := by simp at hs ⊢; omega
      by_cases hc : c = '%'
      · by_cases hd : d = 'd'
        · by_cases hh0 : h = 0
          · subst hh0
            have := ih rest hrest 1 (le_refl 1)
            simp only [template_valid_loop, directives, hc, hd, if_true]
            simp only [ne_eq, not_true_eq_false, if_false, this]
            simp
          · have h1 : h = 1 := by omega
            subst h1
            simp [template_valid_loop, directives, hc, hd]
        · by_cases hp : d = '%'
          · have := ih rest hrest h hh
            simp [template_valid_loop, directives, hc, hp, this]
          · simp [template_valid_loop, directives, hc, hd, hp]
      · have := ih (d :: rest) htail h hh
        simp only [template_valid_loop, directives, hc, if_false]
        exact this

/-- C23: `template_valid` returns true exactly when, taking each `%` together
with the character after it as one directive from left to right, every
directive is `%d` or `%%` and exactly one is `%d`; a `%` at the end of the
string, another directive, no `%d` or a second `%d` make it return false. -/
theorem template_valid_iff (s : List Char) :
    (template_valid s = true
      ↔ (∀ x ∈ directives s, x = some 'd' ∨ x = some '%')
        ∧ (directives s).count (some 'd') = 1) ∧
    (none ∈ directives s → template_valid s = false) ∧
    ((∃ c, some c ∈ directives s ∧ c ≠ 'd' ∧ c ≠ '%') → template_valid s = false) ∧
    ((directives s).count (some 'd') ≠ 1 → template_valid s = false) := by
  have h := template_valid_loop_spec s.length s (le_refl _) 0 (by omega)
  rw [Nat.zero_add] at h
  have hmain : template_valid s = true
      ↔ (∀ x ∈ directives s, x = some 'd' ∨ x = some '%')
        ∧ (directives s).count (some 'd') = 1 := h
  refine ⟨hmain, ?_, ?_, ?_⟩
  · intro hn
    cases hv : template_valid s with
    | false => rfl
    | true =>
      have := (hmain.mp hv).1 none hn
      simp at this
  · rintro ⟨c, hc, hd, hp⟩
    cases hv : template_valid s with
    | false => rfl
    | true =>
      have := (hmain.mp hv).1 (some c) hc
      simp [hd, hp] at this
  · intro hcount
    cases hv : template_valid s with
    | false => rfl
    | true => exact absurd (hmain.mp hv).2 hcount

/-- Examples for C23. -/
theorem template_valid_examples :
    template_valid "rom%d.hex".toList = true ∧
    template_valid "100%%rom%d".toList = true ∧
    template_valid "rom.hex".toList = false ∧
    template_valid "%d%d".toList = false ∧
    template_valid "rom%d%".toList = false ∧
    template_valid "rom%d%s".toList = false ∧
    template_valid "%%d".toList = false := by
  decide

/-! ## C24 -/

theorem is_prefix_iff (p s : List Char) : is_prefix p s = true ↔ p <+: s := by
  induction p generalizing s with
  | nil => simp [ is_prefix]
  | cons a str ih =>
    cases s with
    | nil => simp [ is_prefix]
    | cons b target =>
      by_cases hab : a = b
      · subst hab
        simp [ is_prefix, ih target, List.cons_prefix_cons]
      · simp [ is_prefix, hab, List.cons_prefix_cons]

theorem parse_name_loop_spec (n rest : List Char) (hn : ∀ c ∈ n, c ≠ '=')
    (hrest : rest = [] ∨ ∃ t, rest = '=' :: t) (pos : Nat) :
    parse_name_loop pos (n ++ rest)
      = (n.take (OPTBUF_SIZE - 1 - pos), n.drop (OPTBUF_SIZE - 1 - pos) ++ rest) := by
  induction n generalizing pos with
  | nil =>
    rcases hrest with rfl | ⟨t, rfl⟩
    · simp [parse_name_loop]
    · simp [parse_name_loop]
  | cons c cs ih =>
    have hc : c ≠ '=' := hn c (by simp)
    have ih1 := ih (fun x hx => hn x (by simp [hx])) (pos + 1)
    by_cases hpos : pos < OPTBUF_SIZE - 1
    · have e : OPTBUF_SIZE - 1 - pos = (OPTBUF_SIZE - 1 - (pos + 1)) + 1 := by omega
      show parse_name_loop pos (c :: (cs ++ rest)) = _
      rw [parse_name_loop, if_pos ⟨hc, hpos⟩, ih1, e, List.take_succ_cons, List.drop_succ_cons]
    · have e : OPTBUF_SIZE - 1 - pos = 0 := by omega
      show parse_name_loop pos (c :: (cs ++ rest)) = _
      rw [parse_name_loop, if_neg (fun h => hpos h.2), e]
      simp

theorem parse_value_loop_spec (v : List Char) (pos : Nat) :
    parse_value_loop pos v = v.take (OPTBUF_SIZE - 1 - pos) := by
  induction v generalizing pos with
  | nil => simp [parse_value_loop]
  | cons c cs ih =>
    by_cases hpos : pos < OPTBUF_SIZE - 1
    · have e : OPTBUF_SIZE - 1 - pos = (OPTBUF_SIZE - 1 - (pos + 1)) + 1 := by omega
      simp only [parse_value_loop, hpos, if_true, ih (pos + 1)]
      rw [e, List.take_succ_cons]
    · have e : OPTBUF_SIZE - 1 - pos = 0 := by omega
      simp only [parse_value_loop, hpos, if_false]
      rw [e]
      simp

theorem parse_option_dashes (s : List Char) :
    parse_option ('-' :: '-' :: s)
      = match (parse_name_loop 0 s).2 with
        | [] => some ((parse_name_loop 0 s).1, none)
        | _ :: rest => some ((parse_name_loop 0 s).1, some (parse_value_loop 0 rest)) := by
  simp [parse_option, is_prefix]

/-- What `parse_option` returns for `--n=v` and `--n` when `n` holds no `=`:
the name is `n` cut at 255 characters; the value is read from what follows
the character at which the name scan stopped. -/
theorem parse_option_actual (n v : List Char) (hn : ∀ c ∈ n, c ≠ '=') :
    parse_option ('-' :: '-' :: (n ++ '=' :: v))
      = some (n.take 255,
          some (if n.length ≤ 255 then v.take 255 else (n.drop 256 ++ '=' :: v).take 255)) ∧
    parse_option ('-' :: '-' :: n)
      = some (n.take 255, if n.length ≤ 255 then none else some ((n.drop 256).take 255)) := by
  have h1 := parse_name_loop_spec n ('=' :: v) hn (Or.inr ⟨v, rfl⟩) 0
  have h2 := parse_name_loop_spec n [] hn (Or.inl rfl) 0
  rw [List.append_nil] at h2
  have e : OPTBUF_SIZE - 1 - 0 = 255 := rfl
  rw [e] at h1 h2
  constructor
  · rw [parse_option_dashes, h1]
    by_cases hlen : n.length ≤ 255
    · rw [List.drop_of_length_le hlen, if_pos hlen]
      simp [parse_value_loop_spec, OPTBUF_SIZE]
    · rw [if_neg hlen]
      obtain ⟨c, t, hct⟩ : ∃ c t, n.drop 255 = c :: t := by
        cases hd : n.drop 255 with
        | nil =>
          have := List.drop_eq_nil_iff.mp hd
          omega
        | cons c t => exact ⟨c, t, rfl⟩
      have ht : n.drop 256 = t := by
        have : n.drop 256 = (n.drop 255).drop 1 := by rw [List.drop_drop]
        rw [this, hct]
        rfl
      rw [hct, ht]
      simp [parse_value_loop_spec, OPTBUF_SIZE]
  · rw [parse_option_dashes, h2]
    by_cases hlen : n.length ≤ 255
    · rw [List.drop_of_length_le hlen, if_pos hlen]
      simp
    · rw [if_neg hlen]
      obtain ⟨c, t, hct⟩ : ∃ c t, n.drop 255 = c :: t := by
        cases hd : n.drop 255 with
        | nil =>
          have := List.drop_eq_nil_iff.mp hd
          omega
        | cons c t => exact ⟨c, t, rfl⟩
      have ht : n.drop 256 = t := by
        have : n.drop 256 = (n.drop 255).drop 1 := by rw [List.drop_drop]
        rw [this, hct]
        rfl
      rw [hct, ht]
      simp [parse_value_loop_spec, OPTBUF_SIZE]

theorem parse_option_no_dashes (s : List Char) (h : ¬ ['-', '-'] <+: s) :
    parse_option s = none := by
  have : is_prefix ['-', '-'] s = false := by
    cases hp : is_prefix ['-', '-'] s with
    | false => rfl
    | true => exact absurd ((is_prefix_iff _ _).mp hp) h
  simp [parse_option, this]

/-- For a name of at most 255 characters without `=`, `parse_option` returns
the name, with the value cut at 255 characters for `--n=v` and no value for
`--n`; a string that does not start with `--` is not an option. -/
theorem parse_option_short_name (n v : List Char) (hn : ∀ c ∈ n, c ≠ '=')
    (hlen : n.length ≤ 255) :
    parse_option ('-' :: '-' :: (n ++ '=' :: v)) = some (n, some (v.take 255)) ∧
    parse_option ('-' :: '-' :: n) = some (n, none) ∧
    (∀ s, ¬ ['-', '-'] <+: s → parse_option s = none) := by
  obtain ⟨h1, h2⟩ := parse_option_actual n v hn
  rw [if_pos hlen, List.take_of_length_le hlen] at h1 h2
  exact ⟨h1, h2, parse_option_no_dashes⟩

/-- C24 at a name of 256 characters: `parse_option` cuts the name at 255
characters and then steps over the next character of the name as if it were
the `=`, so `--aa..a` (256 times `a`) yields the empty string as value where
no value was given, and `--aa..a=v` yields the value `=v`. -/
theorem parse_option_long_name :
    parse_option ('-' :: '-' :: List.replicate 256 'a')
      = some (List.replicate 255 'a', some []) ∧
    parse_option ('-' :: '-' :: (List.replicate 256 'a' ++ ['=', 'v']))
      = some (List.replicate 255 'a', some ['=', 'v']) := by
  have hn : ∀ c ∈ List.replicate 256 'a', c ≠ '=' := by
    intro c hc
    rw [List.eq_of_mem_replicate hc]
    decide
  obtain ⟨h1, h2⟩ := parse_option_actual (List.replicate 256 'a') ['v'] hn
  refine ⟨?_, ?_⟩
  · rw [h2, List.length_replicate, if_neg (by omega), List.take_replicate,
      List.drop_replicate]
    rfl
  · rw [h1, List.length_replicate, if_neg (by omega), List.take_replicate,
      List.drop_replicate]
    rfl

/-! ## C25 -/

theorem wild_positions_snoc (p : List Char) (c : Char) :
    wild_positions (p ++ [c])
      = wild_positions p ++ (if c = 'x' ∨ c = 'X' then [p.length] else []) := by
  unfold wild_positions
  rw [List.length_append, List.length_singleton, List.range_succ, List.filter_append]
  congr 1
  · apply List.filter_congr
    intro i hi
    have hi1 : i < p.length := List.mem_range.mp hi
    rw [List.getD_append _ _ _ _ hi1]
  · have hg : (p ++ [c]).getD p.length '0' = c := by
      rw [List.getD_eq_getElem?_getD, List.getElem?_append_right (le_refl _)]
      simp
    by_cases hc : c = 'x' ∨ c = 'X'
    · simp [List.filter, hg, hc]
    · simp [List.filter, hg, hc]

theorem wild_positions_lt (p : List Char) : ∀ i ∈ wild_positions p, i < p.length := by
  intro i hi
  unfold wild_positions at hi
  exact List.mem_range.mp (List.mem_filter.mp hi).1

theorem wild_positions_length (p : List Char) : (wild_positions p).length = wild_count p := by
  induction p using List.reverseRecOn with
  | nil => rfl
  | append_singleton p c ih =>
    rw [wild_positions_snoc, wild_count_snoc, List.length_append, ih]
    by_cases hc : c = 'x' ∨ c = 'X'
    · simp [hc]
    · simp [hc]

theorem msb_value_snoc (bits : List Nat) (b : Nat) :
    msb_value (bits ++ [b]) = 2 * msb_value bits + b := by
  unfold msb_value
  rw [List.foldl_append]
  rfl

theorem pattern_base_snoc (p : List Char) (c : Char) :
    pattern_base (p ++ [c]) = 2 * pattern_base p + (if c = '1' then 1 else 0) := by
  unfold pattern_base
  rw [List.map_append, List.map_singleton, msb_value_snoc]

theorem wild_sum_old (p : List Char) (c : Char) (k : Nat) :
    ((List.range (wild_positions p).length).map
      (fun i => k / 2 ^ i % 2
        * 2 ^ ((p ++ [c]).length - 1 - (wild_positions (p ++ [c])).getD i 0))).sum
      = 2 * wild_sum p k := by
  unfold wild_sum
  rw [← List.sum_map_mul_left]
  congr 1
  apply List.map_congr_left
  intro i hi
  have hi1 : i < (wild_positions p).length := List.mem_range.mp hi
  have hget : (wild_positions (p ++ [c])).getD i 0 = (wild_positions p).getD i 0 := by
    rw [wild_positions_snoc, List.getD_append _ _ _ _ hi1]
  have hlt : (wild_positions p).getD i 0 < p.length := by
    apply wild_positions_lt
    rw [List.getD_eq_getElem _ _ hi1]
    exact List.getElem_mem _
  have he : (p ++ [c]).length - 1 - (wild_positions p).getD i 0
      = (p.length - 1 - (wild_positions p).getD i 0) + 1 := by
    rw [List.length_append, List.length_singleton]
    omega
  rw [hget, he, pow_succ]
  ring

theorem wild_sum_snoc (p : List Char) (c : Char) (k : Nat) :
    wild_sum (p ++ [c]) k
      = 2 * wild_sum p k
        + (if c = 'x' ∨ c = 'X' then k / 2 ^ wild_count p % 2 else 0) := by
  by_cases hc : c = 'x' ∨ c = 'X'
  · have hl : (wild_positions (p ++ [c])).length = (wild_positions p).length + 1 := by
      rw [wild_positions_snoc, if_pos hc, List.length_append, List.length_singleton]
    have hlast : (wild_positions (p ++ [c])).getD (wild_positions p).length 0 = p.length := by
      rw [wild_positions_snoc, if_pos hc, List.getD_eq_getElem?_getD,
        List.getElem?_append_right (le_refl _)]
      simp
    rw [if_pos hc]
    conv_lhs => unfold wild_sum
    rw [hl, List.range_succ, List.map_append, List.sum_append, wild_sum_old, List.map_singleton,
      List.sum_singleton, hlast, wild_positions_length, List.length_append,
      List.length_singleton]
    simp
  · have hl : (wild_positions (p ++ [c])).length = (wild_positions p).length := by
      rw [wild_positions_snoc, if_neg hc, List.append_nil]
    rw [if_neg hc, Nat.add_zero]
    conv_lhs => unfold wild_sum
    rw [hl, wild_sum_old]

theorem range_addr_formula (p : List Char) (hlen : p.length ≤ 32) (k : Nat) :
    range_base p p.length = pattern_base p ∧
    range_offset (range_wild p p.length) k = wild_sum p k := by
  induction p using List.reverseRecOn with
  | nil => exact ⟨rfl, rfl⟩
  | append_singleton p c ih =>
    rw [List.length_append, List.length_singleton] at hlen ⊢
    obtain ⟨ihb, iho⟩ := ih (by omega)
    constructor
    · rw [range_base_snoc_val p c (by omega), pattern_base_snoc, ihb]
    · rw [range_wild_snoc, range_offset_snoc_val _ _ _ (by rw [range_wild_length]; omega),
        wild_sum_snoc, iho, range_wild_count]
      by_cases hc : c = 'x' ∨ c = 'X'
      · simp [hc, (tolower_eq_x c).mpr hc]
      · have : ¬ tolower c = 'x' := fun h => hc ((tolower_eq_x c).mp h)
        simp [hc, this]

theorem wild_positions_mem (p : List Char) (i : Nat) :
    i ∈ wild_positions p ↔ i < p.length ∧ (p.getD i '0' = 'x' ∨ p.getD i '0' = 'X') := by
  unfold wild_positions
  rw [List.mem_filter, List.mem_range, decide_eq_true_eq]

theorem wild_positions_sorted (p : List Char) : (wild_positions p).Pairwise (fun a b => a < b) := by
  unfold wild_positions
  exact List.Pairwise.filter _ (List.pairwise_lt_range _)

/-- C25: for a pattern of `n ≤ 20` characters over `0`, `1`, `x`, `X` whose
wildcards stand at the indices `p_0 < p_1 < ...` and for `k < 2 ^ w`, the
address of the `k`-th store of `write_range` is the binary value of the pattern
with wildcards read as 0, plus the sum over `i < w` of bit `i` of `k` (from the
least significant) times `2 ^ (n - 1 - p_i)`: the leftmost wildcard receives
the least significant bit of `k`. -/
theorem write_range_bit_placement (p : List Char) (hlen : p.length ≤ 20)
    (_hp : ∀ c ∈ p, is_addr_char c) (k : Nat) (hk : k < 2 ^ wild_count p) :
    (range_addrs p p.length)[k]?
      = some (msb_value (p.map (fun c => if c = '1' then 1 else 0))
          + ((List.range (wild_count p)).map
              (fun i => k / 2 ^ i % 2 * 2 ^ (p.length - 1 - (wild_positions p).getD i 0))).sum) ∧
    range_base p p.length = msb_value (p.map (fun c => if c = '1' then 1 else 0)) ∧
    (wild_positions p).length = wild_count p ∧
    (wild_positions p).Pairwise (fun a b => a < b) ∧
    (∀ i, i ∈ wild_positions p
      ↔ i < p.length ∧ (p.getD i '0' = 'x' ∨ p.getD i '0' = 'X')) := by
  obtain ⟨hb, ho⟩ := range_addr_formula p (by omega) k
  refine ⟨?_, hb, wild_positions_length p, wild_positions_sorted p, wild_positions_mem p⟩
  rw [range_addrs_eq, List.getElem?_map, List.getElem?_range hk]
  show some (range_base p p.length + range_offset (range_wild p p.length) k) = _
  rw [hb, ho]
  unfold pattern_base wild_sum
  rw [wild_positions_length]

theorem write_range_bit_placement_witness :
    (range_addrs ['x', '1', 'X'] ['x', '1', 'X'].length)[2]?
      = some (msb_value (['x', '1', 'X'].map (fun c => if c = '1' then 1 else 0))
          + ((List.range (wild_count ['x', '1', 'X'])).map
              (fun i => 2 / 2 ^ i % 2
                * 2 ^ (['x', '1', 'X'].length - 1
                    - (wild_positions ['x', '1', 'X']).getD i 0))).sum) ∧
    range_base ['x', '1', 'X'] ['x', '1', 'X'].length
      = msb_value (['x', '1', 'X'].map (fun c => if c = '1' then 1 else 0)) ∧
    (wild_positions ['x', '1', 'X']).length = wild_count ['x', '1', 'X'] ∧
    (wild_positions ['x', '1', 'X']).Pairwise (fun a b => a < b) ∧
    (∀ i, i ∈ wild_positions ['x', '1', 'X']
      ↔ i < ['x', '1', 'X'].length
        ∧ (['x', '1', 'X'].getD i '0' = 'x' ∨ ['x', '1', 'X'].getD i '0' = 'X')) :=
  write_range_bit_placement ['x', '1', 'X'] (by decide) (by decide) 2 (by decide)

/-- An example for C25: the pattern `x1X` has wildcards at indices 0 and 2; the
stores for `k = 0, 1, 2, 3` go to `010`, `110`, `011`, `111`, so bit 0 of `k`
lands on the leftmost wildcard. -/
theorem write_range_bit_placement_example :
    wild_positions ['x', '1', 'X'] = [0, 2] ∧
    range_addrs ['x', '1', 'X'] 3 = [2, 6, 3, 7] := by
  decide

/-! ## C26 -/

theorem msb_value_append (a b : List Nat) :
    msb_value (a ++ b) = msb_value a * 2 ^ b.length + msb_value b := by
  induction b using List.reverseRecOn with
  | nil => simp [msb_value]
  | append_singleton b x ih =>
    rw [← List.append_assoc, msb_value_snoc, msb_value_snoc, ih, List.length_append,
      List.length_singleton, pow_succ]
    ring

theorem msb_value_low_bits (bits : List Nat) (h : ∀ b ∈ bits, b < 2) (h8 : 8 ≤ bits.length) :
    msb_value bits % 256 = msb_value (bits.drop (bits.length - 8)) := by
  have hl : (bits.drop (bits.length - 8)).length = 8 := by
    rw [List.length_drop]; omega
  have hlt := msb_value_lt (bits.drop (bits.length - 8))
    (fun b hb => h b (List.mem_of_mem_drop hb))
  rw [hl] at hlt
  conv_lhs => rw [← List.take_append_drop (bits.length - 8) bits]
  rw [msb_value_append, hl]
  norm_num at hlt ⊢
  omega

theorem row_bits_no_image (h r : List Char) (i : Nat) (hi : has_image h i = false) :
    row_bits h r i = [] := by
  unfold row_bits
  rw [List.map_eq_nil_iff, List.filter_eq_nil_iff]
  intro p hp hcond
  have hmem : p.1 ∈ h := (List.of_mem_zip hp).1
  have : has_image h i = true := by
    unfold has_image
    rw [List.any_eq_true]
    exact ⟨p.1, hmem, hcond⟩
  rw [hi] at this
  exact absurd this (by simp)

theorem parse_data_accum (as ds r : List Char) (nroms : Nat)
    (has : ∀ c ∈ as, c = 'A' ∨ c = 'a') (hds : ∀ c ∈ ds, isdigit c = true)
    (hnroms : ∀ d ∈ ds, digit_val d < nroms)
    (hr : valid_row as.length ds.length r) :
    ∃ out, parse_data r (as ++ ds) as.length (List.replicate nroms 0) = ParseResult.ok out ∧
      out.length = nroms ∧
      ∀ i, out.getD i 0 = msb_value (row_bits (as ++ ds) r i) % 256 := by
  have hasd : ∀ c ∈ as, isdigit c = false := by
    intro c hc
    rcases has c hc with h | h <;> subst h <;> decide
  have hsplit : r = r.take as.length ++ r.drop as.length := (List.take_append_drop _ _).symm
  have htl : (r.take as.length).length = as.length := by
    rw [List.length_take, hr.1]; omega
  have hdl : (r.drop as.length).length = ds.length := by
    rw [List.length_drop, hr.1]; omega
  obtain ⟨out, hout, houtl, houtv⟩ := parse_data_loop_spec (as ++ ds) (r.drop as.length) ds
    as.length (List.replicate nroms 0) (List.drop_left _ _) hdl hr.2.2
    (fun d hd => ⟨hds d hd, by
      rw [List.length_replicate]
      exact hnroms d hd⟩)
  refine ⟨out, hout, by rw [houtl, List.length_replicate], ?_⟩
  intro i
  have hrb : row_bits (as ++ ds) r i = row_bits ds (r.drop as.length) i := by
    conv_lhs => rw [hsplit]
    exact row_bits_append as ds _ _ i htl hasd
  have hz : (List.replicate nroms 0).getD i 0 = 0 % 256 := by
    rw [List.getD_eq_getElem?_getD, List.getElem?_replicate]
    by_cases h : i < nroms <;> simp [h]
  rw [houtv i, hz, foldl_mod_256, hrb]
  rfl

/-- C26: in the state reached after an accepted header with `n` leading address
columns and any accepted rows, `parse_data` runs on zeroed accumulators and,
for a valid row, leaves in accumulator `i` the binary value (most significant
bit first) of the row's bits in the columns labelled `i`, modulo 256: 0 for an
image without column, the value itself for at most 8 columns, the value of the
rightmost 8 bits for 8 columns or more.  The row is accepted, its bytes are
the ones committed to the images, and the accumulators are zero again
afterwards, so the bytes of a row do not depend on the rows before it. -/
theorem parse_data_accumulators (odcv : Char) (as ds : List Char)
    (rows : List (List Char)) (s : Session) (r : List Char)
    (has : ∀ c ∈ as, c = 'A' ∨ c = 'a') (hn1 : 1 ≤ as.length) (hn : as.length ≤ 20)
    (hds : ∀ c ∈ ds, isdigit c = true) (hne : ds ≠ [])
    (hok : process_lines odcv Session.init ((as ++ ds) :: rows) = Except.ok s)
    (hr : valid_row as.length ds.length r) :
    s.data = List.replicate s.nroms 0 ∧
    ∃ out, parse_data r s.config s.abits s.data = ParseResult.ok out ∧
      out.length = s.nroms ∧
      (∀ i, out.getD i 0 = msb_value (row_bits (as ++ ds) r i) % 256) ∧
      (∀ i, has_image (as ++ ds) i = false → out.getD i 0 = 0) ∧
      (∀ i, (row_bits (as ++ ds) r i).length ≤ 8 →
        out.getD i 0 = msb_value (row_bits (as ++ ds) r i)) ∧
      (∀ i, 8 ≤ (row_bits (as ++ ds) r i).length →
        out.getD i 0
          = msb_value ((row_bits (as ++ ds) r i).drop ((row_bits (as ++ ds) r i).length - 8))) ∧
      ∃ s1, process_line odcv s r = Except.ok s1 ∧
        s1.rom = write_roms s.rom r s.abits out ∧
        s1.data = List.replicate s1.nroms 0 := by
  have hinv : config_inv (as ++ ds) as.length s := by
    obtain ⟨s0, hs0, hinv0⟩ := process_header_ok odcv as ds has hn1 hn hds hne
    rw [process_lines, hs0] at hok
    exact process_lines_config_inv odcv _ _ rows s0 s (rows_inv_config _ _ _ _ hinv0) hok
  obtain ⟨hfirst, hconfig, habits, hlength, hdata, hnroms⟩ := hinv
  obtain ⟨out, hout, houtl, houtv⟩ := parse_data_accum as ds r s.nroms has hds
    (fun d hd => hnroms d (by simp [hd]) (hds d hd)) hr
  have hbits : ∀ i, ∀ b ∈ row_bits (as ++ ds) r i, b < 2 := by
    intro i
    have hsplit : r = r.take as.length ++ r.drop as.length := (List.take_append_drop _ _).symm
    have htl : (r.take as.length).length = as.length := by
      rw [List.length_take, hr.1]; omega
    have hasd : ∀ c ∈ as, isdigit c = false := by
      intro c hc
      rcases has c hc with h | h <;> subst h <;> decide
    have hrb : row_bits (as ++ ds) r i = row_bits ds (r.drop as.length) i := by
      conv_lhs => rw [hsplit]
      exact row_bits_append as ds _ _ i htl hasd
    rw [hrb]
    exact row_bits_lt_two ds _ i hr.2.2
  have hchars := row_chars _ _ r hr
  have hhash : ∀ c ∈ r, c ≠ '#' := fun c hc => (addr_char_facts c (hchars c hc)).1
  have hspace : ∀ c ∈ r, isspace c = false := fun c hc => (addr_char_facts c (hchars c hc)).2.1
  have hdc : ∀ c ∈ r, c ≠ OUTPUT_DC := fun c hc => (addr_char_facts c (hchars c hc)).2.2.1
  have hvalid := (valid_string_iff r ['0', '1', 'X', 'x']).mpr
    (fun c hc => (addr_char_facts c (hchars c hc)).2.2.2)
  have hblank : is_blank r = false := by
    cases r with
    | nil =>
      have := hr.1
      simp at this
      omega
    | cons c cs => exact is_blank_cons c _ (hspace c (by simp))
  have hlen2 : ¬ r.length ≠ (as ++ ds).length := by
    rw [hr.1, List.length_append]; simp
  refine ⟨hdata, out, by rw [hconfig, habits, hdata]; exact hout, houtl, houtv, ?_, ?_, ?_, ?_⟩
  · intro i hi
    rw [houtv i, row_bits_no_image _ _ _ hi]
    rfl
  · intro i hi
    rw [houtv i]
    have hlt := msb_value_lt _ (hbits i)
    have hpow : 2 ^ (row_bits (as ++ ds) r i).length ≤ 2 ^ 8 :=
      Nat.pow_le_pow_right (by norm_num) hi
    exact Nat.mod_eq_of_lt (by omega)
  · intro i hi
    rw [houtv i]
    exact msb_value_low_bits _ (hbits i) hi
  · rw [process_line_row odcv s r (by rw [strip_comment_id _ hhash]; exact hblank) hfirst,
      strip_comment_id _ hhash, strip_whitespace_id _ hspace]
    simp only [process_row, translate_id _ _ _ hdc, hvalid, Bool.not_true, Bool.false_eq_true,
      if_false, hlength, hlen2, hconfig, habits, hdata, hout]
    exact ⟨_, rfl, rfl, rfl⟩

theorem parse_data_accumulators_witness :
    ({ line := 2, first := false, config := ['A', '0', '0', '0', '0', '0', '0', '0', '0', '0', '1'], nroms := 2, abits := 1, length := 11, rom := [some [0, 0], some [0, 0]], data := [0, 0] } : Session).data = List.replicate 2 0 ∧
    ∃ out, parse_data ['1', '1', '0', '0', '0', '0', '0', '0', '1', '1', '1'] ['A', '0', '0', '0', '0', '0', '0', '0', '0', '0', '1'] 1 [0, 0] = ParseResult.ok out ∧
      out.length = 2 ∧
      (∀ i, out.getD i 0 = msb_value (row_bits (['A'] ++ ['0', '0', '0', '0', '0', '0', '0', '0', '0', '1']) ['1', '1', '0', '0', '0', '0', '0', '0', '1', '1', '1'] i) % 256) ∧
      (∀ i, has_image (['A'] ++ ['0', '0', '0', '0', '0', '0', '0', '0', '0', '1']) i = false → out.getD i 0 = 0) ∧
      (∀ i, (row_bits (['A'] ++ ['0', '0', '0', '0', '0', '0', '0', '0', '0', '1']) ['1', '1', '0', '0', '0', '0', '0', '0', '1', '1', '1'] i).length ≤ 8 →
        out.getD i 0 = msb_value (row_bits (['A'] ++ ['0', '0', '0', '0', '0', '0', '0', '0', '0', '1']) ['1', '1', '0', '0', '0', '0', '0', '0', '1', '1', '1'] i)) ∧
      (∀ i, 8 ≤ (row_bits (['A'] ++ ['0', '0', '0', '0', '0', '0', '0', '0', '0', '1']) ['1', '1', '0', '0', '0', '0', '0', '0', '1', '1', '1'] i).length →
        out.getD i 0
          = msb_value ((row_bits (['A'] ++ ['0', '0', '0', '0', '0', '0', '0', '0', '0', '1']) ['1', '1', '0', '0', '0', '0', '0', '0', '1', '1', '1'] i).drop ((row_bits (['A'] ++ ['0', '0', '0', '0', '0', '0', '0', '0', '0', '1']) ['1', '1', '0', '0', '0', '0', '0', '0', '1', '1', '1'] i).length - 8))) ∧
      ∃ s1, process_line '1' ({ line := 2, first := false, config := ['A', '0', '0', '0', '0', '0', '0', '0', '0', '0', '1'], nroms := 2, abits := 1, length := 11, rom := [some [0, 0], some [0, 0]], data := [0, 0] } : Session) ['1', '1', '0', '0', '0', '0', '0', '0', '1', '1', '1'] = Except.ok s1 ∧
        s1.rom = write_roms [some [0, 0], some [0, 0]] ['1', '1', '0', '0', '0', '0', '0', '0', '1', '1', '1'] 1 out ∧
        s1.data = List.replicate s1.nroms 0 :=
  parse_data_accumulators '1' ['A'] ['0', '0', '0', '0', '0', '0', '0', '0', '0', '1'] [['0', '0', '0', '0', '0', '0', '0', '0', '0', '0', '0']] _ ['1', '1', '0', '0', '0', '0', '0', '0', '1', '1', '1'] (by decide) (by decide) (by decide) (by decide) (by decide) rfl (by decide)

/-- An example for C26: with nine columns labelled 0 and one labelled 1, the row
bits `100000011` (value 259) leave 3 in accumulator 0, the value of the
rightmost 8 bits, and the bit `1` leaves 1 in accumulator 1. -/
theorem parse_data_example :
    parse_data ['1', '1', '0', '0', '0', '0', '0', '0', '1', '1', '1']
      ['A', '0', '0', '0', '0', '0', '0', '0', '0', '0', '1'] 1 [0, 0]
      = ParseResult.ok [3, 1] := by
  decide

/-! ## C27 -/

theorem count_roms_range (g : List Char) : 0 ≤ count_roms g ∧ count_roms g ≤ 10 := by
  by_cases hd : ∃ c ∈ g, isdigit c = true
  · obtain ⟨h1, h2, _⟩ := count_roms_bounds g hd
    omega
  · have h0 : count_roms g = 0 := by
      apply count_roms_no_digit
      intro c hc
      cases hi : isdigit c with
      | false => rfl
      | true => exact absurd ⟨c, hc, hi⟩ hd
    rw [h0]
    omega

theorem process_config_never_too_many (t : Session) (g : List Char) (l : Nat) :
    process_config t g ≠ Except.error (Abort.error 2 (Diag.too_many_roms l)) := by
  have hr := (count_roms_range g).2
  have h2 : ¬ count_roms g > (NUM_ROMS : Int) := by simp only [NUM_ROMS]; omega
  unfold process_config
  simp only [if_neg h2]
  split
  · simp
  · split
    · simp
    · split
      · simp
      · split <;> simp

theorem process_config_accepts (s s1 : Session) (h : List Char)
    (hok : process_config s h = Except.ok s1) :
    (∀ c ∈ h, (isdigit c = true ∨ c = 'A' ∨ c = 'a')) ∧ (∃ c ∈ h, isdigit c = true) ∧
    1 ≤ count_addr h ∧ count_addr h ≤ 20 := by
  by_cases hv : ∀ c ∈ h, (isdigit c = true ∨ c = 'A' ∨ c = 'a')
  · by_cases hd : ∃ c ∈ h, isdigit c = true
    · by_cases hb : count_addr h < 1 ∨ count_addr h > 20
      · rw [process_config_bits s h hv hd hb] at hok
        exact absurd hok (by simp)
      · exact ⟨hv, hd, by omega, by omega⟩
    · have hd1 : ∀ c ∈ h, isdigit c = false := by
        intro c hc
        cases hi : isdigit c with
        | false => rfl
        | true => exact absurd ⟨c, hc, hi⟩ hd
      rw [process_config_no_digit s h hv hd1] at hok
      exact absurd hok (by simp)
  · rw [process_config_invalid s h hv] at hok
    exact absurd hok (by simp)

theorem parse_data_loop_digit_step (config : List Char) (c : Char) (cs : List Char)
    (pos : Nat) (accum : List Nat) (hc : isdigit c = true)
    (hd : isdigit (config.getD pos (Char.ofNat 0)) = true)
    (hlt : digit_val (config.getD pos (Char.ofNat 0)) < accum.length) :
    parse_data_loop config (c :: cs) pos accum
      = parse_data_loop config cs (pos + 1)
          (accum.set (digit_val (config.getD pos (Char.ofNat 0)))
            (((accum.getD (digit_val (config.getD pos (Char.ofNat 0))) 0 <<< 1)
              ||| digit_val c) % 256)) := by
  have hcast := digit_val_cast _ hd
  have hguard : 0 ≤ ((config.getD pos (Char.ofNat 0)).toNat : Int) - 48
      ∧ (((config.getD pos (Char.ofNat 0)).toNat : Int) - 48).toNat < accum.length := by
    rw [hcast]
    exact ⟨by omega, by simpa using hlt⟩
  rw [parse_data_loop, if_pos hc]
  simp only []
  rw [if_pos hguard, hcast]
  rfl

/-- C27: `count_roms` returns a value in 0..10 for every string, so
`process_file` never takes the "cannot specify more than 10 ROMs" branch; and
when the header `h` is accepted, every digit of it is below the number of
images, which is the length of the image table and of the accumulator array,
so the step of `parse_data` at a column labelled with a digit stores inside
the accumulator array. -/
theorem count_roms_in_range (s s1 : Session) (h : List Char)
    (hok : process_config s h = Except.ok s1) :
    (∀ g : List Char, 0 ≤ count_roms g ∧ count_roms g ≤ 10) ∧
    (∀ (t : Session) (g : List Char) (l : Nat),
      process_config t g ≠ Except.error (Abort.error 2 (Diag.too_many_roms l))) ∧
    s1.config = h ∧ (s1.nroms : Int) = count_roms h ∧
    s1.rom.length = s1.nroms ∧ s1.data.length = s1.nroms ∧
    (∀ d ∈ h, isdigit d = true → digit_val d < s1.nroms) ∧
    (∀ (c : Char) (cs : List Char) (pos : Nat) (accum : List Nat),
      isdigit c = true → isdigit (s1.config.getD pos (Char.ofNat 0)) = true →
      pos < s1.config.length → accum.length = s1.nroms →
      parse_data_loop s1.config (c :: cs) pos accum
        = parse_data_loop s1.config cs (pos + 1)
            (accum.set (digit_val (s1.config.getD pos (Char.ofNat 0)))
              (((accum.getD (digit_val (s1.config.getD pos (Char.ofNat 0))) 0 <<< 1)
                ||| digit_val c) % 256))) := by
  obtain ⟨hv, hd, hb1, hb2⟩ := process_config_accepts s s1 h hok
  rw [process_config_ok s h hv hd hb1 hb2, Except.ok.injEq] at hok
  obtain ⟨h1, h2, h3⟩ := count_roms_bounds h hd
  subst hok
  refine ⟨count_roms_range, process_config_never_too_many, rfl, ?_, ?_, ?_, h3, ?_⟩
  · show (((count_roms h).toNat : Nat) : Int) = count_roms h
    exact Int.toNat_of_nonneg (by omega)
  · exact (alloc_roms_spec _ _ _).1
  · exact List.length_replicate _ _
  · intro c cs pos accum hc hdg hpos hlen
    apply parse_data_loop_digit_step _ _ _ _ _ hc hdg
    rw [hlen]
    have hmem : List.getD h pos (Char.ofNat 0) ∈ h := by
      rw [List.getD_eq_getElem _ _ hpos]
      exact List.getElem_mem _
    exact h3 _ hmem hdg

theorem count_roms_in_range_witness :
    (∀ g : List Char, 0 ≤ count_roms g ∧ count_roms g ≤ 10) ∧
    (∀ (t : Session) (g : List Char) (l : Nat),
      process_config t g ≠ Except.error (Abort.error 2 (Diag.too_many_roms l))) ∧
    ({ line := 1, first := false, config := ['A', '9'], nroms := 10, abits := 1, length := 2, rom := [none, none, none, none, none, none, none, none, none, some [0, 0]], data := [0, 0, 0, 0, 0, 0, 0, 0, 0, 0] } : Session).config = ['A', '9'] ∧
    ((({ line := 1, first := false, config := ['A', '9'], nroms := 10, abits := 1, length := 2, rom := [none, none, none, none, none, none, none, none, none, some [0, 0]], data := [0, 0, 0, 0, 0, 0, 0, 0, 0, 0] } : Session).nroms : Nat) : Int) = count_roms ['A', '9'] ∧
    ({ line := 1, first := false, config := ['A', '9'], nroms := 10, abits := 1, length := 2, rom := [none, none, none, none, none, none, none, none, none, some [0, 0]], data := [0, 0, 0, 0, 0, 0, 0, 0, 0, 0] } : Session).rom.length = ({ line := 1, first := false, config := ['A', '9'], nroms := 10, abits := 1, length := 2, rom := [none, none, none, none, none, none, none, none, none, some [0, 0]], data := [0, 0, 0, 0, 0, 0, 0, 0, 0, 0] } : Session).nroms ∧
    ({ line := 1, first := false, config := ['A', '9'], nroms := 10, abits := 1, length := 2, rom := [none, none, none, none, none, none, none, none, none, some [0, 0]], data := [0, 0, 0, 0, 0, 0, 0, 0, 0, 0] } : Session).data.length = ({ line := 1, first := false, config := ['A', '9'], nroms := 10, abits := 1, length := 2, rom := [none, none, none, none, none, none, none, none, none, some [0, 0]], data := [0, 0, 0, 0, 0, 0, 0, 0, 0, 0] } : Session).nroms ∧
    (∀ d ∈ ['A', '9'], isdigit d = true → digit_val d < ({ line := 1, first := false, config := ['A', '9'], nroms := 10, abits := 1, length := 2, rom := [none, none, none, none, none, none, none, none, none, some [0, 0]], data := [0, 0, 0, 0, 0, 0, 0, 0, 0, 0] } : Session).nroms) ∧
    (∀ (c : Char) (cs : List Char) (pos : Nat) (accum : List Nat),
      isdigit c = true → isdigit (({ line := 1, first := false, config := ['A', '9'], nroms := 10, abits := 1, length := 2, rom := [none, none, none, none, none, none, none, none, none, some [0, 0]], data := [0, 0, 0, 0, 0, 0, 0, 0, 0, 0] } : Session).config.getD pos (Char.ofNat 0)) = true →
      pos < ({ line := 1, first := false, config := ['A', '9'], nroms := 10, abits := 1, length := 2, rom := [none, none, none, none, none, none, none, none, none, some [0, 0]], data := [0, 0, 0, 0, 0, 0, 0, 0, 0, 0] } : Session).config.length → accum.length = ({ line := 1, first := false, config := ['A', '9'], nroms := 10, abits := 1, length := 2, rom := [none, none, none, none, none, none, none, none, none, some [0, 0]], data := [0, 0, 0, 0, 0, 0, 0, 0, 0, 0] } : Session).nroms →
      parse_data_loop ({ line := 1, first := false, config := ['A', '9'], nroms := 10, abits := 1, length := 2, rom := [none, none, none, none, none, none, none, none, none, some [0, 0]], data := [0, 0, 0, 0, 0, 0, 0, 0, 0, 0] } : Session).config (c :: cs) pos accum
        = parse_data_loop ({ line := 1, first := false, config := ['A', '9'], nroms := 10, abits := 1, length := 2, rom := [none, none, none, none, none, none, none, none, none, some [0, 0]], data := [0, 0, 0, 0, 0, 0, 0, 0, 0, 0] } : Session).config cs (pos + 1)
            (accum.set (digit_val (({ line := 1, first := false, config := ['A', '9'], nroms := 10, abits := 1, length := 2, rom := [none, none, none, none, none, none, none, none, none, some [0, 0]], data := [0, 0, 0, 0, 0, 0, 0, 0, 0, 0] } : Session).config.getD pos (Char.ofNat 0)))
              (((accum.getD (digit_val (({ line := 1, first := false, config := ['A', '9'], nroms := 10, abits := 1, length := 2, rom := [none, none, none, none, none, none, none, none, none, some [0, 0]], data := [0, 0, 0, 0, 0, 0, 0, 0, 0, 0] } : Session).config.getD pos (Char.ofNat 0))) 0 <<< 1)
                ||| digit_val c) % 256))) :=
  count_roms_in_range { Session.init with line := 1 } _ ['A', '9'] rfl

/-! ## C28 -/

theorem template_stem_eq (fname : List Char) (ix : Nat) :
    template_stem ix fname
      = (fname.takeWhile (fun c => decide (c ≠ '.'))).take (PREFIXLEN - ix) := by
  induction fname generalizing ix with
  | nil => simp [template_stem]
  | cons c cs ih =>
    by_cases hc : c = '.'
    · simp [template_stem, hc]
    · by_cases hix : ix < PREFIXLEN
      · have e : PREFIXLEN - ix = (PREFIXLEN - (ix + 1)) + 1 := by omega
        rw [template_stem, if_pos ⟨hix, hc⟩, ih (ix + 1), List.takeWhile_cons_of_pos (by simpa using hc),
          e, List.take_succ_cons]
      · have e : PREFIXLEN - ix = 0 := by omega
        rw [template_stem, if_neg (fun h => hix h.1), e, List.take_zero]

theorem tag_bytes (beyond : Nat → Char) (m : Nat) (hm : 7 ≤ m) :
    ∃ rest, (List.range m).map (tag_byte beyond)
      = ['%', 'd', '.', 'h', 'e', 'x'] ++ NUL :: rest := by
  obtain ⟨k, rfl⟩ : ∃ k, m = 7 + k := ⟨m - 7, by omega⟩
  refine ⟨((List.range k).map (fun i => 7 + i)).map (tag_byte beyond), ?_⟩
  rw [List.range_add, List.map_append]
  rfl

theorem c_string_template (stem rest : List Char) (hs : ∀ c ∈ stem, c ≠ NUL) :
    c_string (stem ++ (['%', 'd', '.', 'h', 'e', 'x'] ++ NUL :: rest) ++ [NUL])
      = stem ++ ['%', 'd', '.', 'h', 'e', 'x'] := by
  unfold c_string
  rw [List.append_assoc, List.takeWhile_append_of_pos (by simpa using hs)]
  congr 1

theorem template_stem_length (fname : List Char) : (template_stem 0 fname).length ≤ 6 := by
  rw [template_stem_eq, List.length_take]
  exact Nat.min_le_left _ _

theorem template_stem_no_nul (fname : List Char) (hn : ∀ c ∈ fname, c ≠ NUL) :
    ∀ c ∈ template_stem 0 fname, c ≠ NUL := by
  intro c hc
  rw [template_stem_eq] at hc
  exact hn c ((List.takeWhile_sublist _).subset (List.mem_of_mem_take hc))

/-- The string built by `make_file_template` in a buffer of 32 bytes is the
stem followed by `%d.hex`, whatever follows `tag` in memory. -/
theorem make_file_template_string (fname : List Char) (beyond : Nat → Char)
    (hn : ∀ c ∈ fname, c ≠ NUL) :
    c_string (make_file_template fname MAXFILENAME beyond)
      = template_stem_spec fname ++ "%d.hex".toList := by
  unfold make_file_template template_stem_spec
  by_cases h : fname.head? = none ∨ fname.head? = some '.'
  · have h2 : fname = [] ∨ fname.head? = some '.' := by
      rcases h with h | h
      · exact Or.inl (List.head?_eq_none_iff.mp h)
      · exact Or.inr h
    simp only [if_pos h, if_pos h2]
    obtain ⟨rest, hrest⟩ := tag_bytes beyond (MAXFILENAME - 1 - ['o', 'u', 't', 'p', 'u', 't'].length)
      (by decide)
    rw [hrest]
    exact c_string_template _ rest (by decide)
  · have h2 : ¬ (fname = [] ∨ fname.head? = some '.') := by
      rintro (h2 | h2)
      · exact h (Or.inl (by rw [h2]; rfl))
      · exact h (Or.inr h2)
    simp only [if_neg h, if_neg h2]
    have hl := template_stem_length fname
    obtain ⟨rest, hrest⟩ := tag_bytes beyond (MAXFILENAME - 1 - (template_stem 0 fname).length)
      (by simp only [MAXFILENAME]; omega)
    rw [hrest, c_string_template _ rest (template_stem_no_nul fname hn), template_stem_eq]
    rfl

theorem template_valid_loop_skip (h : Nat) (stem rest : List Char) (hs : ∀ c ∈ stem, c ≠ '%') :
    template_valid_loop h (stem ++ rest) = template_valid_loop h rest := by
  induction stem with
  | nil => rfl
  | cons c cs ih =>
    have hc : c ≠ '%' := hs c (by simp)
    have ih1 := ih (fun x hx => hs x (by simp [hx]))
    rw [← ih1]
    cases hl : cs ++ rest with
    | nil => simp [template_valid_loop, hc, hl]
    | cons d t => simp [template_valid_loop, hc, hl]

/-- The built-in template passes `template_valid` when its stem holds no `%`. -/
theorem template_valid_built_in (fname : List Char) (hp : ∀ c ∈ fname, c ≠ '%') :
    template_valid (template_stem_spec fname ++ "%d.hex".toList) = true := by
  unfold template_valid
  rw [template_valid_loop_skip]
  · decide
  · intro c hc
    unfold template_stem_spec at hc
    split at hc
    · revert c
      decide
    · exact hp c ((List.takeWhile_sublist _).subset (List.mem_of_mem_take hc))

/-- C28 at the file name `%s.tt`: `make_file_template` builds the template
`%s%d.hex`, stem and `%d.hex` as described, but `template_valid` rejects it:
the directive `%s` of the file name is copied into the format string. -/
theorem make_file_template_percent (beyond : Nat → Char) :
    c_string (make_file_template "%s.tt".toList MAXFILENAME beyond) = "%s%d.hex".toList ∧
    template_valid (c_string (make_file_template "%s.tt".toList MAXFILENAME beyond)) = false := by
  have h := make_file_template_string "%s.tt".toList beyond (by decide)
  have e : template_stem_spec "%s.tt".toList ++ "%d.hex".toList = "%s%d.hex".toList := by decide
  rw [e] at h
  rw [h]
  exact ⟨rfl, by decide⟩

/-! ## The codecs on the program state -/

theorem fprintf_st_eq (text : List Char) (s : Store) :
    fprintf_st text s = { rom := s.rom, ofp := s.ofp ++ text.map Char.toNat } := rfl

theorem dump_text_run_fold (s : Store) (l : List Nat) :
    l.foldl dump_text_run_step (s, 0)
      = ({ rom := s.rom,
           ofp := s.ofp ++ (l.foldl (dump_text_step s.rom) ([], 0)).1.map Char.toNat },
          (l.foldl (dump_text_step s.rom) ([], 0)).2) := by
  induction l using List.reverseRecOn with
  | nil => simp
  | append_singleton l pos ih =>
    rw [List.foldl_append, List.foldl_append, ih]
    simp only [List.foldl_cons, List.foldl_nil, dump_text_run_step, dump_text_step]
    by_cases hb : (l.foldl (dump_text_step s.rom) ([], 0)).2 = 0
    · by_cases hk : ((l.foldl (dump_text_step s.rom) ([], 0)).2 + 1) &&& 15 = 0
      · simp [hb, hk, fprintf_st_eq, List.append_assoc]
      · simp [hb, hk, fprintf_st_eq, List.append_assoc]
    · by_cases hk : ((l.foldl (dump_text_step s.rom) ([], 0)).2 + 1) &&& 15 = 0
      · simp [hb, hk, fprintf_st_eq, List.append_assoc]
      · simp [hb, hk, fprintf_st_eq, List.append_assoc]

theorem dump_text_run_eq (rlen : Nat) (s : Store) :
    dump_text_run rlen s
      = { rom := s.rom, ofp := s.ofp ++ (dump_text s.rom rlen).map Char.toNat } := by
  unfold dump_text_run
  simp only [dump_text_run_fold]
  rw [dump_text_eq]
  by_cases hb : ((List.range rlen).foldl (dump_text_step s.rom) ([], 0)).2 = 0
  · simp [hb]
  · simp [hb, fprintf_st_eq, List.append_assoc]

theorem data_bytes_fold (base : Nat) (l : List Nat) (s : Store) :
    l.foldl (fun (s : Store) ix => fprintf_st (fmtX 2 ((s.rom.drop base).getD ix 0)) s) s
      = { rom := s.rom,
          ofp := s.ofp
            ++ ((l.map (fun ix => fmtX 2 ((s.rom.drop base).getD ix 0))).flatten).map
                Char.toNat } := by
  induction l generalizing s with
  | nil => simp
  | cons ix l ih =>
    rw [List.foldl_cons, ih]
    simp [fprintf_st_eq, List.append_assoc]

theorem write_data_record_run_eq (base len addr : Nat) (s : Store) :
    write_data_record_run base len addr s
      = { rom := s.rom,
          ofp := s.ofp ++ (write_data_record (s.rom.drop base) len addr).map Char.toNat } := by
  unfold write_data_record_run write_data_record
  simp only [data_bytes_fold]
  simp [fprintf_st_eq, List.append_assoc]

theorem write_offset_record_run_eq (offset : Nat) (s : Store) :
    write_offset_record_run offset s
      = { rom := s.rom, ofp := s.ofp ++ (write_offset_record offset).map Char.toNat } := by
  unfold write_offset_record_run write_offset_record
  simp [fprintf_st_eq, List.append_assoc]

theorem write_end_record_run_eq (s : Store) :
    write_end_record_run s
      = { rom := s.rom, ofp := s.ofp ++ write_end_record.map Char.toNat } := by
  unfold write_end_record_run write_end_record
  simp [fprintf_st_eq, List.append_assoc]

theorem dump_intel_loop_run_eq (rlen : Nat) (n : Nat) :
    ∀ (cur seg : Nat) (s : Store), rlen - cur ≤ n →
      dump_intel_loop_run rlen cur seg s
        = ({ rom := s.rom,
             ofp := s.ofp ++ (dump_intel_loop s.rom rlen cur seg).1.map Char.toNat },
            (dump_intel_loop s.rom rlen cur seg).2) := by
  induction n with
  | zero =>
    intro cur seg s hn
    have hc : ¬ cur + CHUNK_SIZE ≤ rlen := by simp only [CHUNK_SIZE]; omega
    rw [dump_intel_loop_run, dump_intel_loop, if_neg hc, if_neg hc]
    simp
  | succ n ih =>
    intro cur seg s hn
    by_cases hc : cur + CHUNK_SIZE ≤ rlen
    · have hn1 : rlen - (cur + CHUNK_SIZE) ≤ n := by simp only [CHUNK_SIZE] at hc ⊢; omega
      rw [dump_intel_loop_run, dump_intel_loop, if_pos hc, if_pos hc]
      simp only []
      rw [ih _ _ _ hn1]
      by_cases hseg : SEGMENT cur ≠ seg
      · simp [hseg, write_offset_record_run_eq, write_data_record_run_eq, List.append_assoc]
      · simp [hseg, write_data_record_run_eq, List.append_assoc]
    · rw [dump_intel_loop_run, dump_intel_loop, if_neg hc, if_neg hc]
      simp

theorem dump_intel_run_eq (rlen : Nat) (s : Store) :
    dump_intel_run rlen s
      = { rom := s.rom, ofp := s.ofp ++ (dump_intel s.rom rlen).map Char.toNat } := by
  unfold dump_intel_run dump_intel
  simp only [write_offset_record_run_eq, dump_intel_loop_run_eq rlen (rlen - 0) 0 0 _ (le_refl _)]
  by_cases hcur : (dump_intel_loop s.rom rlen 0 0).2.1 < rlen
  · by_cases hseg : SEGMENT (dump_intel_loop s.rom rlen 0 0).2.1 ≠ (dump_intel_loop s.rom rlen 0 0).2.2
    · simp [hcur, hseg, write_offset_record_run_eq, write_data_record_run_eq,
        write_end_record_run_eq, List.append_assoc]
    · simp [hcur, hseg, write_data_record_run_eq, write_end_record_run_eq, List.append_assoc]
  · simp [hcur, write_end_record_run_eq, List.append_assoc]

theorem dump_raw_run_eq (rlen : Nat) (s : Store) :
    dump_raw_run rlen s = { rom := s.rom, ofp := s.ofp ++ dump_raw s.rom rlen } := rfl

theorem dump_rom_run_eq (fmt rlen : Nat) (s : Store) :
    dump_rom_run fmt rlen s = { rom := s.rom, ofp := s.ofp ++ dump_rom fmt s.rom rlen } := by
  unfold dump_rom_run dump_rom
  by_cases h1 : fmt = BINARY_FMT
  · rw [if_pos h1, if_pos h1, dump_raw_run_eq]
  · rw [if_neg h1, if_neg h1]
    by_cases h2 : fmt = TEXT_FMT
    · rw [if_pos h2, if_pos h2, dump_text_run_eq]
    · rw [if_neg h2, if_neg h2, dump_intel_run_eq]


/-! ## C20 -/

/-- C20: run on the program state, each of `dump_raw`, `dump_text` and
`dump_intel` (and so the codec `dump_roms` selects for any format) leaves the
image buffer as it was and appends to the stream bytes that are a function of
the buffer and the length alone, the same for two buffers that agree on their
first `L` bytes; so a second run after the first appends the same bytes
again.  For a buffer of `L` bytes `dump_raw` appends the buffer itself, `L`
bytes with nothing before or after. -/
theorem codecs_deterministic (s t : Store) (L : Nat) (h : s.rom.take L = t.rom.take L) :
    ((dump_raw_run L s).rom = s.rom ∧ (dump_text_run L s).rom = s.rom ∧
      (dump_intel_run L s).rom = s.rom ∧ ∀ fmt, (dump_rom_run fmt L s).rom = s.rom) ∧
    ((dump_raw_run L s).ofp = s.ofp ++ dump_raw s.rom L ∧
      (dump_text_run L s).ofp = s.ofp ++ (dump_text s.rom L).map Char.toNat ∧
      (dump_intel_run L s).ofp = s.ofp ++ (dump_intel s.rom L).map Char.toNat ∧
      ∀ fmt, (dump_rom_run fmt L s).ofp = s.ofp ++ dump_rom fmt s.rom L) ∧
    (dump_raw s.rom L = dump_raw t.rom L ∧ dump_text s.rom L = dump_text t.rom L ∧
      dump_intel s.rom L = dump_intel t.rom L ∧
      ∀ fmt, dump_rom fmt s.rom L = dump_rom fmt t.rom L) ∧
    (∀ fmt, (dump_rom_run fmt L s).ofp.drop s.ofp.length
      = (dump_rom_run fmt L t).ofp.drop t.ofp.length) ∧
    ((dump_raw_run L (dump_raw_run L s)).ofp
        = s.ofp ++ dump_raw s.rom L ++ dump_raw s.rom L ∧
      (dump_text_run L (dump_text_run L s)).ofp
        = s.ofp ++ (dump_text s.rom L).map Char.toNat ++ (dump_text s.rom L).map Char.toNat ∧
      (dump_intel_run L (dump_intel_run L s)).ofp
        = s.ofp ++ (dump_intel s.rom L).map Char.toNat
            ++ (dump_intel s.rom L).map Char.toNat) ∧
    (s.rom.length = L →
      dump_raw s.rom L = s.rom ∧ (dump_raw s.rom L).length = L ∧
      (dump_raw_run L s).ofp = s.ofp ++ s.rom) := by
  have hraw : dump_raw s.rom L = dump_raw t.rom L := h
  have htext := dump_text_congr s.rom t.rom L h
  have hintel := dump_intel_congr s.rom t.rom L h
  have hrom : ∀ fmt, dump_rom fmt s.rom L = dump_rom fmt t.rom L := by
    intro fmt
    unfold dump_rom
    rw [hraw, htext, hintel]
  refine ⟨⟨?_, ?_, ?_, ?_⟩, ⟨?_, ?_, ?_, ?_⟩, ⟨hraw, htext, hintel, hrom⟩, ?_, ⟨?_, ?_, ?_⟩, ?_⟩
  · rw [dump_raw_run_eq]
  · rw [dump_text_run_eq]
  · rw [dump_intel_run_eq]
  · intro fmt
    rw [dump_rom_run_eq]
  · rw [dump_raw_run_eq]
  · rw [dump_text_run_eq]
  · rw [dump_intel_run_eq]
  · intro fmt
    rw [dump_rom_run_eq]
  · intro fmt
    rw [dump_rom_run_eq, dump_rom_run_eq, hrom fmt]
    simp
  · rw [dump_raw_run_eq, dump_raw_run_eq]
  · rw [dump_text_run_eq, dump_text_run_eq]
  · rw [dump_intel_run_eq, dump_intel_run_eq]
  · intro hlen
    have e : dump_raw s.rom L = s.rom := by
      unfold dump_raw
      rw [← hlen, List.take_length]
    refine ⟨e, by rw [e, hlen], ?_⟩
    rw [dump_raw_run_eq, e]

theorem codecs_deterministic_witness :
    ((dump_raw_run 2 ({ rom := [1, 2], ofp := [] } : Store)).rom = ({ rom := [1, 2], ofp := [] } : Store).rom ∧ (dump_text_run 2 ({ rom := [1, 2], ofp := [] } : Store)).rom = ({ rom := [1, 2], ofp := [] } : Store).rom ∧
      (dump_intel_run 2 ({ rom := [1, 2], ofp := [] } : Store)).rom = ({ rom := [1, 2], ofp := [] } : Store).rom ∧ ∀ fmt, (dump_rom_run fmt 2 ({ rom := [1, 2], ofp := [] } : Store)).rom = ({ rom := [1, 2], ofp := [] } : Store).rom) ∧
    ((dump_raw_run 2 ({ rom := [1, 2], ofp := [] } : Store)).ofp = ({ rom := [1, 2], ofp := [] } : Store).ofp ++ dump_raw ({ rom := [1, 2], ofp := [] } : Store).rom 2 ∧
      (dump_text_run 2 ({ rom := [1, 2], ofp := [] } : Store)).ofp = ({ rom := [1, 2], ofp := [] } : Store).ofp ++ (dump_text ({ rom := [1, 2], ofp := [] } : Store).rom 2).map Char.toNat ∧
      (dump_intel_run 2 ({ rom := [1, 2], ofp := [] } : Store)).ofp = ({ rom := [1, 2], ofp := [] } : Store).ofp ++ (dump_intel ({ rom := [1, 2], ofp := [] } : Store).rom 2).map Char.toNat ∧
      ∀ fmt, (dump_rom_run fmt 2 ({ rom := [1, 2], ofp := [] } : Store)).ofp = ({ rom := [1, 2], ofp := [] } : Store).ofp ++ dump_rom fmt ({ rom := [1, 2], ofp := [] } : Store).rom 2) ∧
    (dump_raw ({ rom := [1, 2], ofp := [] } : Store).rom 2 = dump_raw ({ rom := [1, 2, 9, 9], ofp := [5] } : Store).rom 2 ∧ dump_text ({ rom := [1, 2], ofp := [] } : Store).rom 2 = dump_text ({ rom := [1, 2, 9, 9], ofp := [5] } : Store).rom 2 ∧
      dump_intel ({ rom := [1, 2], ofp := [] } : Store).rom 2 = dump_intel ({ rom := [1, 2, 9, 9], ofp := [5] } : Store).rom 2 ∧
      ∀ fmt, dump_rom fmt ({ rom := [1, 2], ofp := [] } : Store).rom 2 = dump_rom fmt ({ rom := [1, 2, 9, 9], ofp := [5] } : Store).rom 2) ∧
    (∀ fmt, (dump_rom_run fmt 2 ({ rom := [1, 2], ofp := [] } : Store)).ofp.drop ({ rom := [1, 2], ofp := [] } : Store).ofp.length
      = (dump_rom_run fmt 2 ({ rom := [1, 2, 9, 9], ofp := [5] } : Store)).ofp.drop ({ rom := [1, 2, 9, 9], ofp := [5] } : Store).ofp.length) ∧
    ((dump_raw_run 2 (dump_raw_run 2 ({ rom := [1, 2], ofp := [] } : Store))).ofp
        = ({ rom := [1, 2], ofp := [] } : Store).ofp ++ dump_raw ({ rom := [1, 2], ofp := [] } : Store).rom 2 ++ dump_raw ({ rom := [1, 2], ofp := [] } : Store).rom 2 ∧
      (dump_text_run 2 (dump_text_run 2 ({ rom := [1, 2], ofp := [] } : Store))).ofp
        = ({ rom := [1, 2], ofp := [] } : Store).ofp ++ (dump_text ({ rom := [1, 2], ofp := [] } : Store).rom 2).map Char.toNat ++ (dump_text ({ rom := [1, 2], ofp := [] } : Store).rom 2).map Char.toNat ∧
      (dump_intel_run 2 (dump_intel_run 2 ({ rom := [1, 2], ofp := [] } : Store))).ofp
        = ({ rom := [1, 2], ofp := [] } : Store).ofp ++ (dump_intel ({ rom := [1, 2], ofp := [] } : Store).rom 2).map Char.toNat
            ++ (dump_intel ({ rom := [1, 2], ofp := [] } : Store).rom 2).map Char.toNat) ∧
    (({ rom := [1, 2], ofp := [] } : Store).rom.length = 2 →
      dump_raw ({ rom := [1, 2], ofp := [] } : Store).rom 2 = ({ rom := [1, 2], ofp := [] } : Store).rom ∧ (dump_raw ({ rom := [1, 2], ofp := [] } : Store).rom 2).length = 2 ∧
      (dump_raw_run 2 ({ rom := [1, 2], ofp := [] } : Store)).ofp = ({ rom := [1, 2], ofp := [] } : Store).ofp ++ ({ rom := [1, 2], ofp := [] } : Store).rom) :=
  codecs_deterministic { rom := [1, 2], ofp := [] } { rom := [1, 2, 9, 9], ofp := [5] } 2 rfl

/-- An example for C20 on the program state: `dump_text` of a two-byte buffer
appends one line to the stream and leaves the buffer as it was. -/
theorem dump_text_run_example :
    dump_text_run 2 { rom := [1, 255], ofp := [7] }
      = { rom := [1, 255], ofp := 7 :: "00000: 01 FF\n".toList.map Char.toNat } := by
  decide

end TT2Rom
